import Mathlib

/-!
Verification of the account-API client plumbing.

A shallow embedding of `client/response.go` and `client/client.go`
(pagination links, error classification, response decoding) together
with models of the Go standard-library functions these files call
(`strconv.Atoi`, `net/url`, `encoding/json`).

Conventions of the embedding:

* A Go `string` or `[]byte` is modelled by the Lean `String` of its
  characters.  The library routines below inspect bytes; every test they
  make treats all bytes `>= 0x80` alike, so on the character level a
  non-ASCII character behaves like the bytes that encode it.  Bodies are
  taken to be valid UTF-8.
* Go's `int` is the 64-bit two's complement integer type (`strconv.IntSize
  = 64`); values are Lean `Int`s and arithmetic that can overflow is wrapped
  explicitly with `wrapInt`.
* A nilable pointer is an `Option`; a Go `(value, error)` result is a pair
  whose second component is `none` for the `nil` error.
-/

set_option linter.dupNamespace false

namespace AccountAPI

/-! ## Machine integers -/

/-- Width of Go's `int` on the modelled (64-bit) platforms. -/
def intSize : Nat := 64

/-- Largest `int`. -/
def maxInt : Int := 2 ^ (intSize - 1) - 1

/-- Smallest `int`. -/
def minInt : Int := -(2 ^ (intSize - 1))

/-- Two's complement wrap-around of a mathematical integer into `int`. -/
def wrapInt (x : Int) : Int :=
  (x + 2 ^ (intSize - 1)) % 2 ^ intSize - 2 ^ (intSize - 1)

/-! ## Transport-level data -/

/-- A failure reported by the transport or by a body stream; the library
gives it no structure the client code looks at. -/
structure IOError where
  text : String
  deriving DecidableEq, Repr

/-- The `Body` of an `http.Response`: what `ioutil.ReadAll` delivers (the
bytes and the error it returns) and the error `Close` returns. -/
structure Body where
  data : String
  readErr : Option IOError
  closeErr : Option IOError
  deriving DecidableEq, Repr

/-- The part of `http.Response` the client reads.  `Body` is an interface
value: `none` is the nil interface, which a response delivered by the HTTP
client never holds. -/
structure HTTPResponse where
  StatusCode : Int
  Body : Option Body
  deriving DecidableEq, Repr

/-- A run-time panic, here the call of a method on a nil interface. -/
inductive Panic where
  | nilDereference
  deriving DecidableEq, Repr

/-- ErrorResponse is a custom error structure for API errors
(`response.go`).  `Response` is the pointer to the HTTP response, given by
the value it points to (`none` for the nil pointer). -/
structure ErrorResponse where
  Response : Option HTTPResponse
  StatusCode : Int
  Code : String
  Message : String
  deriving DecidableEq, Repr

/-- The errors `net/url`'s `parse` returns, wrapped by `ParseRequestURI`
into a `*url.Error`. -/
inductive URLErr where
  /-- "net/url: invalid control character in URL" -/
  | controlCharacter
  /-- "empty url" -/
  | emptyURL
  /-- "missing protocol scheme" -/
  | missingScheme
  /-- "invalid URI for request" -/
  | invalidRequestURI
  /-- "first path segment in URL cannot contain colon" -/
  | colonInFirstSegment
  /-- "missing ']' in host" -/
  | missingBracket
  /-- "invalid port ... after host" -/
  | invalidPort (port : String)
  /-- "net/url: invalid userinfo" -/
  | invalidUserinfo
  /-- `EscapeError`: "invalid URL escape ..." -/
  | escape (s : String)
  /-- `InvalidHostError`: "invalid character ... in host name" -/
  | invalidHost (s : String)
  deriving DecidableEq, Repr

/-- Go `error` values met by the client.  Library errors keep the fields
their `Error()` text is built from. -/
inductive GoError where
  /-- `*url.Error{Op, URL, Err}` -/
  | url (op : String) (url : String) (err : URLErr)
  /-- `*strconv.NumError{Func, Num, Err}` -/
  | num (fn : String) (num : String) (err : String)
  /-- `*json.SyntaxError` with its message -/
  | jsonSyntaxErr (msg : String)
  /-- `*json.UnmarshalTypeError`: JSON value description and Go type -/
  | jsonType (value : String) (goType : String)
  /-- `*json.InvalidUnmarshalError` for the described target type -/
  | jsonInvalidUnmarshal (goType : String)
  /-- an error returned by an `UnmarshalJSON`/`UnmarshalText` method of a
  library type -/
  | jsonCustom (msg : String)
  /-- `*ErrorResponse` -/
  | api (e : ErrorResponse)
  /-- "net/http: invalid method ..." of `http.NewRequest` -/
  | httpInvalidMethod (method : String)
  /-- `*json.UnsupportedTypeError`, `*json.UnsupportedValueError` or
  `*json.MarshalerError` of the encoder, with its message -/
  | jsonUnsupported (msg : String)
  /-- transport or stream failure -/
  | io (e : IOError)
  deriving DecidableEq, Repr

/-! ## `strconv` -/

namespace strconv

/-- The decimal digit value of a byte, if it is one of `0`..`9`. -/
def digit? (c : Char) : Option Nat :=
  if 48 ≤ c.toNat ∧ c.toNat ≤ 57 then some (c.toNat - 48) else none

/-- Outcome classes of `ParseUint`: the two sentinel errors. -/
inductive NumErr where
  | invalid
  | range
  deriving DecidableEq, Repr

/-- Largest `uint64`. -/
def maxUint64 : Nat := 2 ^ 64 - 1

/-- The digit loop of `ParseUint(s, 10, 64)`: `n` is the value accumulated
so far.  A byte that is no digit is a syntax error; `n >= cutoff` with
`cutoff = maxUint64/10 + 1` or a sum above `maxUint64` is a range error. -/
def parseUintLoop : List Char → Nat → Except NumErr Nat
  | [], n => .ok n
  | c :: cs, n =>
    match digit? c with
    | none => .error .invalid
    | some d =>
      if n ≥ maxUint64 / 10 + 1 then .error .range
      else
        let n1 := n * 10 + d
        if n1 > maxUint64 then .error .range
        else parseUintLoop cs n1

/-- `ParseUint(s, 10, 64)`. -/
def ParseUint (s : List Char) : Except NumErr Nat :=
  match s with
  | [] => .error .invalid
  | _ => parseUintLoop s 0

/-- `ParseInt(s, 10, 0)`: an optional sign, then `ParseUint`, then the
range check against `1 << 63`.  The result is `(value, error kind)`; on a
range error Go returns the nearest bound together with the error. -/
def ParseInt (s : List Char) : Int × Option NumErr :=
  match s with
  | [] => (0, some .invalid)
  | c :: rest =>
    let neg := c == '-'
    let digits := if c == '+' ∨ c == '-' then rest else s
    match ParseUint digits with
    | .error .invalid => (0, some .invalid)
    | .error .range => (if neg then minInt else maxInt, some .range)
    | .ok un =>
      if !neg ∧ un ≥ 2 ^ (intSize - 1) then (maxInt, some .range)
      else if neg ∧ un > 2 ^ (intSize - 1) then (minInt, some .range)
      else (if neg then -(un : Int) else (un : Int), none)

/-- Text of the two sentinel errors. -/
def NumErr.text : NumErr → String
  | .invalid => "invalid syntax"
  | .range => "value out of range"

/-- `strconv.Atoi(s)`, which is `ParseInt(s, 10, 0)` converted to `int`
with the error's function name set to `Atoi`. -/
def Atoi (s : String) : Int × Option GoError :=
  match ParseInt s.data with
  | (i, none) => (i, none)
  | (i, some e) => (i, some (.num "Atoi" s e.text))

/-- The text is an optional sign followed by at least one decimal digit. -/
def isDecimalInteger (s : String) : Bool :=
  match s.data with
  | [] => false
  | c :: rest =>
    let digits := if c == '+' ∨ c == '-' then rest else s.data
    !digits.isEmpty && digits.all fun d => (digit? d).isSome

/-- The number the digits denote, continuing from the value `n`. -/
def digitsValue (cs : List Char) (n : Nat) : Nat :=
  cs.foldl (fun a c => a * 10 + (c.toNat - 48)) n

/-- The integer a decimal integer text denotes. -/
def decimalValue (s : String) : Int :=
  match s.data with
  | [] => 0
  | c :: rest =>
    if c == '-' then -(digitsValue rest 0 : Int)
    else if c == '+' then (digitsValue rest 0 : Int)
    else (digitsValue s.data 0 : Int)

end strconv

/-! ## `net/url` -/

namespace url

/-- ASCII letter test used by `getScheme`. -/
def isAlpha (c : Char) : Bool :=
  (97 ≤ c.toNat && c.toNat ≤ 122) || (65 ≤ c.toNat && c.toNat ≤ 90)

/-- ASCII digit test. -/
def isDigit (c : Char) : Bool := 48 ≤ c.toNat && c.toNat ≤ 57

/-- `ishex`. -/
def ishex (c : Char) : Bool :=
  isDigit c || (97 ≤ c.toNat && c.toNat ≤ 102) || (65 ≤ c.toNat && c.toNat ≤ 70)

/-- `unhex`. -/
def unhex (c : Char) : Nat :=
  if isDigit c then c.toNat - 48
  else if 97 ≤ c.toNat && c.toNat ≤ 102 then c.toNat - 97 + 10
  else if 65 ≤ c.toNat && c.toNat ≤ 70 then c.toNat - 65 + 10
  else 0

/-- `stringContainsCTLByte`: a byte below space or `0x7f`. -/
def stringContainsCTLByte (s : List Char) : Bool :=
  s.any fun c => c.toNat < 32 || c.toNat == 127

/-- `strings.Cut(s, sep)` for a one-byte separator: the text before and
after the first `sep`, and whether `sep` occurs. -/
def cut (sep : Char) : List Char → List Char × List Char × Bool
  | [] => ([], [], false)
  | c :: cs =>
    if c == sep then ([], cs, true)
    else
      let r := cut sep cs
      (c :: r.1, r.2.1, r.2.2)

/-- `strings.LastIndex(s, sep)` for a one-byte separator, as the text
before and from the last `sep` on (`none` when `sep` does not occur). -/
def cutLast (sep : Char) : List Char → Option (List Char × List Char)
  | [] => none
  | c :: cs =>
    match cutLast sep cs with
    | some (before, sepOn) => some (c :: before, sepOn)
    | none => if c == sep then some ([], c :: cs) else none

/-- The `encoding` modes of `shouldEscape` and `unescape`. -/
inductive Encoding where
  | encodePath
  | encodePathSegment
  | encodeHost
  | encodeZone
  | encodeUserPassword
  | encodeQueryComponent
  | encodeFragment
  deriving DecidableEq, Repr

/-- `shouldEscape(c, encodeHost)`: false for letters, digits, the
sub-delimiters and `: [ ] < > "` which a host may hold, and the unreserved
marks `- _ . ~`; true for every other byte. -/
def shouldEscapeHost (c : Char) : Bool :=
  !(isAlpha c || isDigit c || "!$&\x27()*+,;=:[]<>\x22-_.~".data.contains c)

/-- `shouldEscape(c, mode)`: whether the byte `c` is written as `%XX` in
the part of a URL that `mode` names. -/
def shouldEscape (c : Char) (mode : Encoding) : Bool :=
  if isAlpha c || isDigit c then false
  else if (mode == .encodeHost || mode == .encodeZone)
      && "!$&\x27()*+,;=:[]<>\x22".data.contains c then false
  else if "-_.~".data.contains c then false
  else if "$&+,/:;=?@".data.contains c then
    match mode with
    | .encodePath => c == '?'
    | .encodePathSegment => c == '/' || c == ';' || c == ',' || c == '?'
    | .encodeUserPassword => c == '@' || c == '/' || c == '?' || c == ':'
    | .encodeQueryComponent => true
    | .encodeFragment => false
    | _ => true
  else if mode == .encodeFragment && "!()*".data.contains c then false
  else true

/-- `upperhex[d]`. -/
def upperhex (d : Nat) : Char := "0123456789ABCDEF".data.getD d '0'

/-- `escape(s, mode)`: a space in a query component becomes `+`, every
other byte that `shouldEscape` names becomes `%XX`.  The texts of a URL
are byte strings: a character stands for the byte with its number. -/
def escape (s : List Char) (mode : Encoding) : List Char :=
  match s with
  | [] => []
  | c :: cs =>
    if c == ' ' && mode == .encodeQueryComponent then '+' :: escape cs mode
    else if shouldEscape c mode then
      '%' :: upperhex (c.toNat / 16) :: upperhex (c.toNat % 16) :: escape cs mode
    else c :: escape cs mode

/-- `validEncoded(s, mode)`. -/
def validEncoded (s : List Char) (mode : Encoding) : Bool :=
  s.all fun c => "!$&\x27()*+,;=:@[]%".data.contains c || !shouldEscape c mode

/-- First loop of `unescape`: checks that every `%` starts a well-formed
escape (and, in a host or zone, an admissible one) and that a host holds
no byte that would need escaping. -/
def unescapeCheck (mode : Encoding) : List Char → Option URLErr
  | [] => none
  | c :: rest =>
    if c == '%' then
      match rest with
      | h1 :: h2 :: rest2 =>
        if !ishex h1 || !ishex h2 then some (.escape ⟨[c, h1, h2]⟩)
        else if mode == .encodeHost && unhex h1 < 8 && !(h1 == '2' && h2 == '5') then
          some (.escape ⟨[c, h1, h2]⟩)
        else if mode == .encodeZone && !(h1 == '2' && h2 == '5')
            && unhex h1 * 16 + unhex h2 != 32
            && shouldEscapeHost (Char.ofNat (unhex h1 * 16 + unhex h2)) then
          some (.escape ⟨[c, h1, h2]⟩)
        else unescapeCheck mode rest2
      | _ => some (.escape ⟨c :: rest⟩)
    else if (mode == .encodeHost || mode == .encodeZone) && c.toNat < 128
        && shouldEscapeHost c then
      some (.invalidHost ⟨[c]⟩)
    else unescapeCheck mode rest

/-- Second loop of `unescape`: replaces each `%XX` by the byte it names
and, for a query component, `+` by a space. -/
def unescapeBuild (mode : Encoding) : List Char → List Char
  | [] => []
  | c :: rest =>
    if c == '%' then
      match rest with
      | h1 :: h2 :: rest2 => Char.ofNat (unhex h1 * 16 + unhex h2) :: unescapeBuild mode rest2
      | _ => [c]
    else if c == '+' && mode == .encodeQueryComponent then ' ' :: unescapeBuild mode rest
    else c :: unescapeBuild mode rest

/-- `unescape(s, mode)`. -/
def unescape (s : List Char) (mode : Encoding) : Except URLErr (List Char) :=
  match unescapeCheck mode s with
  | some e => .error e
  | none => .ok (unescapeBuild mode s)

/-- `validOptionalPort`: empty, or a colon followed by digits only. -/
def validOptionalPort : List Char → Bool
  | [] => true
  | c :: cs => c == ':' && cs.all isDigit

/-- `validUserinfo`. -/
def validUserinfo (s : List Char) : Bool :=
  s.all fun c => isAlpha c || isDigit c || "-._:~!$&\x27()*+,;=%@".data.contains c

/-- Position of the first occurrence of `%25` in `s`, as the text before
it and the text from it on. -/
def cutZone : List Char → Option (List Char × List Char)
  | [] => none
  | c :: cs =>
    if (c :: cs).take 3 == ['%', '2', '5'] then some ([], c :: cs)
    else
      match cutZone cs with
      | some (before, zoneOn) => some (c :: before, zoneOn)
      | none => none

/-- `parseHost`: validates an optional port, an IP literal in brackets
with an optional zone, and unescapes the host. -/
def parseHost (host : List Char) : Except URLErr (List Char) :=
  if host.head? == some '[' then
    match cutLast ']' host with
    | none => .error .missingBracket
    | some (lit, bracketOn) =>
      let colonPort := bracketOn.drop 1
      if !validOptionalPort colonPort then .error (.invalidPort ⟨colonPort⟩)
      else
        match cutZone lit with
        | some (h1, zone) =>
          match unescape h1 .encodeHost with
          | .error e => .error e
          | .ok host1 =>
            match unescape zone .encodeZone with
            | .error e => .error e
            | .ok host2 =>
              match unescape bracketOn .encodeHost with
              | .error e => .error e
              | .ok host3 => .ok (host1 ++ host2 ++ host3)
        | none => unescape host .encodeHost
  else
    match cutLast ':' host with
    | some (_, colonPort) =>
      if !validOptionalPort colonPort then .error (.invalidPort ⟨colonPort⟩)
      else unescape host .encodeHost
    | none => unescape host .encodeHost

/-- `url.Userinfo`. -/
structure Userinfo where
  username : String
  password : String
  passwordSet : Bool
  deriving DecidableEq, Repr

/-- `parseAuthority`: the user information (`none` for nil) and the host. -/
def parseAuthority (authority : List Char) : Except URLErr (Option Userinfo × List Char) :=
  match cutLast '@' authority with
  | none =>
    match parseHost authority with
    | .error e => .error e
    | .ok host => .ok (none, host)
  | some (userinfo, atOn) =>
    match parseHost (atOn.drop 1) with
    | .error e => .error e
    | .ok host =>
      if !validUserinfo userinfo then .error .invalidUserinfo
      else
        let (username, password, hasColon) := cut ':' userinfo
        match unescape username .encodeUserPassword with
        | .error e => .error e
        | .ok name =>
          match unescape password .encodeUserPassword with
          | .error e => .error e
          | .ok pass => .ok (some ⟨⟨name⟩, ⟨pass⟩, hasColon⟩, host)

/-- The loop of `getScheme`: `pre` holds the bytes read so far.  The
result is the scheme and the rest after its colon, or the empty scheme
and the whole text when the text does not start with a scheme. -/
def getSchemeLoop (rawURL : List Char) :
    List Char → List Char → Except URLErr (List Char × List Char)
  | _, [] => .ok ([], rawURL)
  | pre, c :: cs =>
    if isAlpha c then getSchemeLoop rawURL (pre ++ [c]) cs
    else if isDigit c || c == '+' || c == '-' || c == '.' then
      if pre.isEmpty then .ok ([], rawURL) else getSchemeLoop rawURL (pre ++ [c]) cs
    else if c == ':' then
      if pre.isEmpty then .error .missingScheme else .ok (pre, cs)
    else .ok ([], rawURL)

/-- `getScheme`. -/
def getScheme (rawURL : List Char) : Except URLErr (List Char × List Char) :=
  getSchemeLoop rawURL [] rawURL

/-- ASCII `strings.ToLower`, enough for a scheme, which holds ASCII only. -/
def toLower (s : List Char) : List Char :=
  s.map fun c => if 65 ≤ c.toNat && c.toNat ≤ 90 then Char.ofNat (c.toNat + 32) else c

/-- `url.URL`.  `User` is a pointer, `none` when nil. -/
structure URL where
  Scheme : String
  Opaque : String
  User : Option Userinfo
  Host : String
  Path : String
  RawPath : String
  OmitHost : Bool
  ForceQuery : Bool
  RawQuery : String
  Fragment : String
  RawFragment : String
  deriving DecidableEq, Repr

/-- The zero `URL`, as `new(URL)` gives it. -/
def URL.zero : URL := ⟨"", "", none, "", "", "", false, false, "", "", ""⟩

/-- `u.setPath(p)`: `Path` is the unescaped `p`; `RawPath` is `p` when it
differs from the default escaping of `Path`, else empty. -/
def URL.setPath (u : URL) (p : List Char) : Except URLErr URL :=
  match unescape p .encodePath with
  | .error e => .error e
  | .ok path =>
    .ok { u with Path := ⟨path⟩,
                 RawPath := if p == escape path .encodePath then "" else ⟨p⟩ }

/-- `u.setFragment(f)`. -/
def URL.setFragment (u : URL) (f : List Char) : Except URLErr URL :=
  match unescape f .encodeFragment with
  | .error e => .error e
  | .ok frag =>
    .ok { u with Fragment := ⟨frag⟩,
                 RawFragment := if f == escape frag .encodeFragment then "" else ⟨f⟩ }

/-- `parse(rawURL, viaRequest)`: splits scheme, query, authority and path.
With `viaRequest` the text must be an absolute URI or an absolute path. -/
def parse (rawURL : List Char) (viaRequest : Bool) : Except URLErr URL :=
  if stringContainsCTLByte rawURL then .error .controlCharacter
  else if rawURL.isEmpty && viaRequest then .error .emptyURL
  else if rawURL == ['*'] then .ok { URL.zero with Path := "*" }
  else
    match getScheme rawURL with
    | .error e => .error e
    | .ok (scheme0, rest0) =>
      let scheme := toLower scheme0
      let forceQuery := rest0.getLast? == some '?' && rest0.count '?' == 1
      let rest := if forceQuery then rest0.dropLast else (cut '?' rest0).1
      let rawQuery := if forceQuery then [] else (cut '?' rest0).2.1
      let url := { URL.zero with Scheme := ⟨scheme⟩, ForceQuery := forceQuery,
                                 RawQuery := ⟨rawQuery⟩ }
      if rest.head? != some '/' && !scheme.isEmpty then .ok { url with Opaque := ⟨rest⟩ }
      else if rest.head? != some '/' && viaRequest then .error .invalidRequestURI
      else if rest.head? != some '/' && ((cut '/' rest).1).contains ':' then
        .error .colonInFirstSegment
      else if (!scheme.isEmpty || (!viaRequest && rest.take 3 != ['/', '/', '/']))
          && rest.take 2 == ['/', '/'] then
        let afterSlashes := rest.drop 2
        let authority := (cut '/' afterSlashes).1
        let path := afterSlashes.drop authority.length
        match parseAuthority authority with
        | .error e => .error e
        | .ok (user, host) => URL.setPath { url with User := user, Host := ⟨host⟩ } path
      else if !scheme.isEmpty && rest.head? == some '/' then
        URL.setPath { url with OmitHost := true } rest
      else URL.setPath url rest

/-- `url.Parse(rawURL)`: the text before the first `#` goes to `parse`,
the text after it is the fragment. -/
def Parse (rawURL : String) : Except GoError URL :=
  let (u, frag, _) := cut '#' rawURL.data
  match parse u false with
  | .error e => .error (.url "parse" ⟨u⟩ e)
  | .ok url =>
    if frag.isEmpty then .ok url
    else
      match url.setFragment frag with
      | .error e => .error (.url "parse" rawURL e)
      | .ok url1 => .ok url1

/-- `url.ParseRequestURI(rawURL)`: `parse` with `viaRequest = true`, the
error wrapped into `&url.Error{"parse", rawURL, err}`. -/
def ParseRequestURI (rawURL : String) : Except GoError URL :=
  match parse rawURL.data true with
  | .error e => .error (.url "parse" rawURL e)
  | .ok u => .ok u

/-- `url.Values`, a `map[string][]string`: one entry per key, holding the
key's values in the order they were added. -/
abbrev Values := List (String × List String)

/-- `m[key] = append(m[key], value)`. -/
def Values.add : Values → String → String → Values
  | [], k, v => [(k, [v])]
  | (k0, vs) :: m, k, v =>
    if k0 == k then (k0, vs ++ [v]) :: m else (k0, vs) :: Values.add m k v

/-- `Values.Get(key)`: the first value of `key`, or the empty string. -/
def Values.Get (m : Values) (key : String) : String :=
  match m.lookup key with
  | some (v :: _) => v
  | _ => ""

/-- The pieces `strings.Cut(query, "&")` yields one after the other in
the loop `for query != ""` of `parseQuery`. -/
def settings : List Char → List (List Char)
  | [] => []
  | c :: cs =>
    if c == '&' then [] :: settings cs
    else
      match settings cs with
      | [] => [[c]]
      | s :: ss => (c :: s) :: ss

/-- The body of the loop of `parseQuery`, run over the settings in turn:
a setting `key=value` that holds a semicolon (since Go 1.17), is empty, or
whose key or value does not unescape is skipped; every other one is added
to `m`. -/
def parseQuery : List (List Char) → Values → Values
  | [], m => m
  | setting :: rest, m =>
    if setting.contains ';' then parseQuery rest m
    else if setting.isEmpty then parseQuery rest m
    else
      let (k, v, _) := cut '=' setting
      match unescape k .encodeQueryComponent with
      | .error _ => parseQuery rest m
      | .ok key =>
        match unescape v .encodeQueryComponent with
        | .error _ => parseQuery rest m
        | .ok value => parseQuery rest (m.add ⟨key⟩ ⟨value⟩)

/-- `u.Query()`: `ParseQuery(u.RawQuery)` with its error dropped. -/
def URL.Query (u : URL) : Values :=
  parseQuery (settings u.RawQuery.data) []

end url

/-! ## `client/response.go`: pagination links -/

/-- Links holds information about response pagination. -/
structure Links where
  First : String
  Last : String
  Prev : String
  Next : String
  Self : String
  deriving DecidableEq, Repr

/-- `pageForURL(urlText)`: the `page[number]` query value of the URL as
an `int`. -/
def pageForURL (urlText : String) : Int × Option GoError :=
  match url.ParseRequestURI urlText with
  | .error err => (0, some err)
  | .ok u =>
    let pageStr := u.Query.Get "page[number]"
    match strconv.Atoi pageStr with
    | (_, some err) => (0, some err)
    | (page, none) => (page, none)

/-- `(*Links).CurrentPage`: the receiver is a pointer, `none` being the
nil pointer.  The sum `prevPage + 1` is an `int` addition. -/
def Links.CurrentPage (l : Option Links) : Int × Option GoError :=
  match l with
  | none => (1, none)
  | some l =>
    if l.Prev == "" && l.Next != "" then (1, none)
    else if l.Prev != "" then
      match pageForURL l.Prev with
      | (_, some err) => (0, some err)
      | (prevPage, none) => (wrapInt (prevPage + 1), none)
    else (0, none)

/-- `(*Links).IsLastPage`. -/
def Links.IsLastPage (l : Option Links) : Bool :=
  match l with
  | none => true
  | some l => l.Next == ""

/-! ## `encoding/json`: the scanner (`scanner.go`) -/

namespace json

/-- The step functions of the scanner.  `stateT`, `stateTr`, ... of the
three literals are one constructor holding the literal's name and the
bytes still expected; the four `stateInStringEscU...` states are one
constructor holding the number of hexadecimal digits read. -/
inductive Step where
  | beginValueOrEmpty
  | beginValue
  | beginStringOrEmpty
  | beginString
  | endValue
  | endTop
  | inString
  | inStringEsc
  | inStringEscU (digitsRead : Nat)
  | neg
  | one
  | zero
  | dot
  | dot0
  | e
  | eSign
  | e0
  | inLiteral (name : String) (expecting : List Char)
  | error
  deriving DecidableEq, Repr

/-- The scan codes the step functions return. -/
inductive Op where
  | scanContinue
  | scanBeginLiteral
  | scanBeginObject
  | scanObjectKey
  | scanObjectValue
  | scanEndObject
  | scanBeginArray
  | scanArrayValue
  | scanEndArray
  | scanSkipSpace
  | scanEnd
  | scanError
  deriving DecidableEq, Repr

/-- The entries of the scanner's `parseState` stack. -/
inductive ParseState where
  | parseObjectKey
  | parseObjectValue
  | parseArrayValue
  deriving DecidableEq, Repr

/-- The scanner: current step function, whether the top-level value has
ended, the stack of open composite values (innermost first) and the error. -/
structure Scanner where
  step : Step
  endTop : Bool
  parseState : List ParseState
  err : Option String
  deriving DecidableEq, Repr

/-- `maxNestingDepth` (since Go 1.15). -/
def maxNestingDepth : Nat := 10000

/-- `isSpace`. -/
def isSpace (c : Char) : Bool :=
  c.toNat ≤ 32 && (c.toNat == 32 || c.toNat == 9 || c.toNat == 13 || c.toNat == 10)

/-- The byte the scanner sees first for the character: the character
itself in ASCII, else the leading byte of its UTF-8 encoding. -/
def leadByte (c : Char) : Nat :=
  if c.toNat < 128 then c.toNat
  else if c.toNat < 2048 then 192 + c.toNat / 64
  else if c.toNat < 65536 then 224 + c.toNat / 4096
  else 240 + c.toNat / 262144

/-- A hexadecimal digit in lower case. -/
def hexDigit (n : Nat) : Char :=
  if n < 10 then Char.ofNat (48 + n) else Char.ofNat (87 + n)

/-- `quoteChar(c)` for the byte `b`: the byte between single quotes,
written as `strconv.Quote` writes the character with that number (a
backslash is byte 92, a single quote byte 39). -/
def quoteByte (b : Nat) : String :=
  let q := Char.ofNat 39
  let bs := Char.ofNat 92
  if b == 39 then ⟨[q, bs, q, q]⟩
  else if b == 34 then ⟨[q, Char.ofNat 34, q]⟩
  else if b == 92 then ⟨[q, bs, bs, q]⟩
  else if b == 7 then ⟨[q, bs, 'a', q]⟩
  else if b == 8 then ⟨[q, bs, 'b', q]⟩
  else if b == 12 then ⟨[q, bs, 'f', q]⟩
  else if b == 10 then ⟨[q, bs, 'n', q]⟩
  else if b == 13 then ⟨[q, bs, 'r', q]⟩
  else if b == 9 then ⟨[q, bs, 't', q]⟩
  else if b == 11 then ⟨[q, bs, 'v', q]⟩
  else if b < 32 || b == 127 then ⟨[q, bs, 'x', hexDigit (b / 16), hexDigit (b % 16), q]⟩
  else if (128 ≤ b && b ≤ 160) || b == 173 then
    ⟨[q, bs, 'u', '0', '0', hexDigit (b / 16), hexDigit (b % 16), q]⟩
  else ⟨[q, Char.ofNat b, q]⟩

/-- `quoteChar` of the byte the scanner is looking at. -/
def quoteChar (c : Char) : String := quoteByte (leadByte c)

/-- `s.error(c, context)`. -/
def Scanner.error (s : Scanner) (c : Char) (context : String) : Scanner × Op :=
  ({ s with step := .error,
            err := some ("invalid character " ++ quoteChar c ++ " " ++ context) },
   .scanError)

/-- `s.pushParseState(c, newParseState, successState)`; `step` is the step
function the caller has set before. -/
def Scanner.pushParseState (s : Scanner) (c : Char) (step : Step)
    (newParseState : ParseState) (successState : Op) : Scanner × Op :=
  let s1 := { s with step := step, parseState := newParseState :: s.parseState }
  if s1.parseState.length ≤ maxNestingDepth then (s1, successState)
  else s1.error c "exceeded max depth"

/-- `stateEndTop`. -/
def stateEndTop (s : Scanner) (c : Char) : Scanner × Op :=
  if !isSpace c then ((s.error c "after top-level value").1, .scanEnd)
  else (s, .scanEnd)

/-- `stateEndValue`. -/
def stateEndValue (s : Scanner) (c : Char) : Scanner × Op :=
  match s.parseState with
  | [] => stateEndTop { s with step := .endTop, endTop := true } c
  | ps :: below =>
    if isSpace c then ({ s with step := .endValue }, .scanSkipSpace)
    else
      match ps with
      | .parseObjectKey =>
        if c == ':' then
          ({ s with parseState := .parseObjectValue :: below, step := .beginValue },
           .scanObjectKey)
        else s.error c "after object key"
      | .parseObjectValue =>
        if c == ',' then
          ({ s with parseState := .parseObjectKey :: below, step := .beginString },
           .scanObjectValue)
        else if c == '}' then
          -- `popParseState`
          (if below.isEmpty then { s with parseState := below, step := .endTop, endTop := true }
           else { s with parseState := below, step := .endValue }, .scanEndObject)
        else s.error c "after object key:value pair"
      | .parseArrayValue =>
        if c == ',' then ({ s with step := .beginValue }, .scanArrayValue)
        else if c == ']' then
          (if below.isEmpty then { s with parseState := below, step := .endTop, endTop := true }
           else { s with parseState := below, step := .endValue }, .scanEndArray)
        else s.error c "after array element"

/-- `stateBeginValue`. -/
def stateBeginValue (s : Scanner) (c : Char) : Scanner × Op :=
  if isSpace c then (s, .scanSkipSpace)
  else if c == '{' then
    s.pushParseState c .beginStringOrEmpty .parseObjectKey .scanBeginObject
  else if c == '[' then
    s.pushParseState c .beginValueOrEmpty .parseArrayValue .scanBeginArray
  else if c == '"' then ({ s with step := .inString }, .scanBeginLiteral)
  else if c == '-' then ({ s with step := .neg }, .scanBeginLiteral)
  else if c == '0' then ({ s with step := .zero }, .scanBeginLiteral)
  else if c == 't' then ({ s with step := .inLiteral "true" ['r', 'u', 'e'] }, .scanBeginLiteral)
  else if c == 'f' then
    ({ s with step := .inLiteral "false" ['a', 'l', 's', 'e'] }, .scanBeginLiteral)
  else if c == 'n' then ({ s with step := .inLiteral "null" ['u', 'l', 'l'] }, .scanBeginLiteral)
  else if 49 ≤ c.toNat && c.toNat ≤ 57 then ({ s with step := .one }, .scanBeginLiteral)
  else s.error c "looking for beginning of value"

/-- `stateBeginString`. -/
def stateBeginString (s : Scanner) (c : Char) : Scanner × Op :=
  if isSpace c then (s, .scanSkipSpace)
  else if c == '"' then ({ s with step := .inString }, .scanBeginLiteral)
  else s.error c "looking for beginning of object key string"

/-- `state0`. -/
def state0 (s : Scanner) (c : Char) : Scanner × Op :=
  if c == '.' then ({ s with step := .dot }, .scanContinue)
  else if c == 'e' || c == 'E' then ({ s with step := .e }, .scanContinue)
  else stateEndValue s c

/-- `stateESign`. -/
def stateESign (s : Scanner) (c : Char) : Scanner × Op :=
  if url.isDigit c then ({ s with step := .e0 }, .scanContinue)
  else s.error c "in exponent of numeric literal"

/-- One call `s.step(s, c)` of the scanner. -/
def Scanner.next (s : Scanner) (c : Char) : Scanner × Op :=
  match s.step with
  | .beginValueOrEmpty =>
    if isSpace c then (s, .scanSkipSpace)
    else if c == ']' then stateEndValue s c
    else stateBeginValue s c
  | .beginValue => stateBeginValue s c
  | .beginStringOrEmpty =>
    if isSpace c then (s, .scanSkipSpace)
    else if c == '}' then
      stateEndValue { s with parseState := .parseObjectValue :: s.parseState.tail } c
    else stateBeginString s c
  | .beginString => stateBeginString s c
  | .endValue => stateEndValue s c
  | .endTop => stateEndTop s c
  | .inString =>
    if c == '"' then ({ s with step := .endValue }, .scanContinue)
    else if c == '\\' then ({ s with step := .inStringEsc }, .scanContinue)
    else if c.toNat < 32 then s.error c "in string literal"
    else (s, .scanContinue)
  | .inStringEsc =>
    if c == 'b' || c == 'f' || c == 'n' || c == 'r' || c == 't' || c == '\\' || c == '/'
        || c == '"' then ({ s with step := .inString }, .scanContinue)
    else if c == 'u' then ({ s with step := .inStringEscU 0 }, .scanContinue)
    else s.error c "in string escape code"
  | .inStringEscU k =>
    if url.ishex c then
      ({ s with step := if k ≥ 3 then .inString else .inStringEscU (k + 1) }, .scanContinue)
    else s.error c "in \\u hexadecimal character escape"
  | .neg =>
    if c == '0' then ({ s with step := .zero }, .scanContinue)
    else if 49 ≤ c.toNat && c.toNat ≤ 57 then ({ s with step := .one }, .scanContinue)
    else s.error c "in numeric literal"
  | .one =>
    if url.isDigit c then ({ s with step := .one }, .scanContinue)
    else state0 s c
  | .zero => state0 s c
  | .dot =>
    if url.isDigit c then ({ s with step := .dot0 }, .scanContinue)
    else s.error c "after decimal point in numeric literal"
  | .dot0 =>
    if url.isDigit c then (s, .scanContinue)
    else if c == 'e' || c == 'E' then ({ s with step := .e }, .scanContinue)
    else stateEndValue s c
  | .e =>
    if c == '+' || c == '-' then ({ s with step := .eSign }, .scanContinue)
    else stateESign s c
  | .eSign => stateESign s c
  | .e0 =>
    if url.isDigit c then (s, .scanContinue)
    else stateEndValue s c
  | .inLiteral name expecting =>
    match expecting with
    | [] => stateEndValue s c
    | x :: rest =>
      if c == x then
        ({ s with step := if rest.isEmpty then .endValue else .inLiteral name rest },
         .scanContinue)
      else
        s.error c ("in literal " ++ name ++ " (expecting " ++ quoteChar x ++ ")")
  | .error => (s, .scanError)

/-- `scan.reset()`. -/
def Scanner.reset : Scanner := ⟨.beginValue, false, [], none⟩

/-- `s.eof()`: the error the scanner reports at the end of the input, if
any. -/
def Scanner.eof (s : Scanner) : Option String :=
  match s.err with
  | some e => some e
  | none =>
    if s.endTop then none
    else
      let s1 := (s.next ' ').1
      if s1.endTop then none
      else
        match s1.err with
        | some e => some e
        | none => some "unexpected end of JSON input"

/-- The loop of `checkValid`: the scanner after the bytes, or the error of
the first step that returns `scanError`. -/
def scanAll : Scanner → List Char → Except String Scanner
  | s, [] => .ok s
  | s, c :: cs =>
    match s.next c with
    | (s1, .scanError) => .error (s1.err.getD "")
    | (s1, _) => scanAll s1 cs

/-- `checkValid(data, scan)`: `none` when `data` is one JSON value. -/
def checkValid (data : String) : Option GoError :=
  match scanAll Scanner.reset data.data with
  | .error e => some (.jsonSyntaxErr e)
  | .ok s =>
    match s.eof with
    | some e => some (.jsonSyntaxErr e)
    | none => none

end json

/-! ## `encoding/json`: values -/

namespace json

/-- A JSON value as the decoder walks it.  A number keeps its literal, a
string is unquoted, and every member of an object carries, next to its
unquoted key, the bytes of its value as they stand in the input (what a
`json.RawMessage` receives). -/
inductive JValue where
  | null
  | bool (b : Bool)
  | number (lit : String)
  | string (s : String)
  | array (elems : List JValue)
  | object (members : List (String × String × JValue))

/-- The number four hexadecimal digits denote (`getu4` without its prefix
test), or `none` when one of them is no hexadecimal digit. -/
def hex4 (a b c d : Char) : Option Nat :=
  if url.ishex a && url.ishex b && url.ishex c && url.ishex d then
    some (((url.unhex a * 16 + url.unhex b) * 16 + url.unhex c) * 16 + url.unhex d)
  else none

/-- `utf16.IsSurrogate`. -/
def isSurrogate (r : Nat) : Bool := 55296 ≤ r && r < 57344

/-- The character an escape `\c` other than `\u` stands for in
`unquoteBytes`. -/
def escapeChar (c : Char) : Char :=
  if c == 'b' then Char.ofNat 8
  else if c == 'f' then Char.ofNat 12
  else if c == 'n' then Char.ofNat 10
  else if c == 'r' then Char.ofNat 13
  else if c == 't' then Char.ofNat 9
  else c

/-- The loop of `unquoteBytes` over the bytes between the quotes of a
string literal the scanner has accepted: escapes are replaced by the
characters they name, a surrogate pair `\uD8xx\uDCxx` by the character it
encodes and a surrogate half without its partner by U+FFFD. -/
def unquoteChars : List Char → List Char
  | [] => []
  | c :: rest =>
    if c == '\\' then
      match rest with
      | [] => []
      | e :: rest1 =>
        if e == 'u' then
          match rest1 with
          | h1 :: h2 :: h3 :: h4 :: rest2 =>
            match hex4 h1 h2 h3 h4 with
            | none => []
            | some rr =>
              let tail2 := unquoteChars rest2
              if isSurrogate rr then
                match rest2 with
                | b2 :: u2 :: k1 :: k2 :: k3 :: k4 :: rest3 =>
                  match hex4 k1 k2 k3 k4 with
                  | some rr1 =>
                    if b2 == '\\' && u2 == 'u' && rr < 56320 && 56320 ≤ rr1 && rr1 < 57344 then
                      Char.ofNat ((rr - 55296) * 1024 + (rr1 - 56320) + 65536)
                        :: unquoteChars rest3
                    else Char.ofNat 65533 :: tail2
                  | none => Char.ofNat 65533 :: tail2
                | _ => Char.ofNat 65533 :: tail2
              else Char.ofNat rr :: tail2
          | _ => []
        else escapeChar e :: unquoteChars rest1
    else c :: unquoteChars rest

/-- The value of a literal the scanner has accepted, told by its first
byte as in `literalStore`. -/
def literalValue (lit : List Char) : JValue :=
  match lit with
  | [] => .null
  | c :: rest =>
    if c == '"' then .string ⟨unquoteChars rest.dropLast⟩
    else if c == 't' then .bool true
    else if c == 'f' then .bool false
    else if c == 'n' then .null
    else .number ⟨lit⟩

/-- A composite value under construction: its elements or members so far,
for an object the key read last while its value is pending, and the bytes
read since the opening bracket. -/
inductive Frame where
  | arr (elems : List JValue) (raw : List Char)
  | obj (members : List (String × String × JValue)) (key : Option String) (raw : List Char)

/-- The decoder's view of the input: the literal being read, the open
composite values (innermost first) and the finished top-level value. -/
structure Builder where
  lit : List Char
  stack : List Frame
  top : Option JValue

/-- Adds bytes to the innermost open composite value. -/
def Builder.addRaw (b : Builder) (cs : List Char) : Builder :=
  match b.stack with
  | [] => b
  | .arr elems raw :: below => { b with stack := .arr elems (raw ++ cs) :: below }
  | .obj ms key raw :: below => { b with stack := .obj ms key (raw ++ cs) :: below }

/-- Hands a finished value with its bytes to the innermost open composite
value: an array element, an object key, or the value of the pending key;
with nothing open it is the top-level value. -/
def Builder.attach (b : Builder) (v : JValue) (raw : List Char) : Builder :=
  match b.stack with
  | [] => { b with top := some v }
  | .arr elems r :: below => { b with stack := .arr (elems ++ [v]) (r ++ raw) :: below }
  | .obj ms none r :: below =>
    match v with
    | .string k => { b with stack := .obj ms (some k) (r ++ raw) :: below }
    | _ => { b with stack := .obj ms none (r ++ raw) :: below }
  | .obj ms (some k) r :: below =>
    { b with stack := .obj (ms ++ [(k, ⟨raw⟩, v)]) none (r ++ raw) :: below }

/-- Ends the literal being read, if there is one. -/
def Builder.endLiteral (b : Builder) : Builder :=
  match b.lit with
  | [] => b
  | lit => Builder.attach { b with lit := [] } (literalValue lit) lit

/-- Closes the innermost open composite value at its closing bracket `c`. -/
def Builder.close (b : Builder) (c : Char) : Builder :=
  match b.stack with
  | [] => b
  | .arr elems raw :: below =>
    Builder.attach { b with stack := below } (.array elems) (raw ++ [c])
  | .obj ms _ raw :: below =>
    Builder.attach { b with stack := below } (.object ms) (raw ++ [c])

/-- What the decoder does with byte `c` for which the scanner returned
`op`. -/
def Builder.next (b : Builder) (c : Char) (op : Op) : Builder :=
  match op with
  | .scanBeginLiteral => { b with lit := [c] }
  | .scanContinue => { b with lit := b.lit ++ [c] }
  | .scanBeginObject => { b.endLiteral with stack := .obj [] none [c] :: b.endLiteral.stack }
  | .scanBeginArray => { b.endLiteral with stack := .arr [] [c] :: b.endLiteral.stack }
  | .scanEndObject => b.endLiteral.close c
  | .scanEndArray => b.endLiteral.close c
  | .scanObjectKey => b.endLiteral.addRaw [c]
  | .scanObjectValue => b.endLiteral.addRaw [c]
  | .scanArrayValue => b.endLiteral.addRaw [c]
  | .scanSkipSpace => b.endLiteral.addRaw [c]
  | .scanEnd => b.endLiteral
  | .scanError => b

/-- Runs scanner and decoder over the bytes, stopping at the first step
that returns `scanError`. -/
def scanBuild : Scanner → Builder → List Char → Except String (Scanner × Builder)
  | s, b, [] => .ok (s, b)
  | s, b, c :: cs =>
    match s.next c with
    | (s1, .scanError) => .error (s1.err.getD "")
    | (s1, op) => scanBuild s1 (b.next c op) cs

/-- The JSON value `data` holds, or the syntax error `checkValid` reports
for it.  At the end of the input the scanner is fed a space, as `eof`
does, which ends a top-level number. -/
def parse (data : String) : Except GoError JValue :=
  match scanBuild Scanner.reset ⟨[], [], none⟩ data.data with
  | .error e => .error (.jsonSyntaxErr e)
  | .ok (s, b) =>
    match s.eof with
    | some e => .error (.jsonSyntaxErr e)
    | none =>
      let b1 := if s.endTop then b.endLiteral else b.next ' ' (s.next ' ').2
      match b1.top with
      | some v => .ok v
      | none => .ok .null

end json

/-! ## `encoding/json`: decoding into the client's types (`decode.go`) -/

namespace json

/-- The members of a JSON object: key, bytes of the value, value. -/
abbrev Members := List (String × String × JValue)

/-- `foldName` on one character, as far as it matters for the comparison
with an ASCII field name: a lower-case ASCII letter becomes upper case and
the two non-ASCII characters that fold to an ASCII letter, the long s
(U+017F) and the Kelvin sign (U+212A), become `S` and `K`. -/
def foldChar (c : Char) : Char :=
  if 97 ≤ c.toNat && c.toNat ≤ 122 then Char.ofNat (c.toNat - 32)
  else if c.toNat == 383 then 'S'
  else if c.toNat == 8490 then 'K'
  else c

/-- `foldName`. -/
def foldName (s : String) : List Char := s.data.map foldChar

/-- The field of a struct a JSON key selects: the field with exactly this
name, else the first whose name is equal under case folding. -/
def findField (names : List String) (key : String) : Option String :=
  match names.find? (fun n => n == key) with
  | some n => some n
  | none => names.find? (fun n => foldName n == foldName key)

/-- The `Value` text of an `UnmarshalTypeError` for a JSON value that does
not fit the Go type. -/
def describe : JValue → String
  | .null => "null"
  | .bool _ => "bool"
  | .number _ => "number"
  | .string _ => "string"
  | .array _ => "array"
  | .object _ => "object"

/-- Decoding a JSON value into a field of type `string`: a string is
stored, `null` leaves the field as it is, any other value is a type error
and leaves it as it is. -/
def decodeString (v : JValue) (cur : String) : String × Option GoError :=
  match v with
  | .string s => (s, none)
  | .null => (cur, none)
  | other => (cur, some (.jsonType (describe other) "string"))

/-- Decoding a JSON value into a field of type `int`: a number is stored
when `strconv.ParseInt(lit, 10, 64)` accepts its literal, `null` leaves
the field as it is, anything else is a type error. -/
def decodeInt (v : JValue) (cur : Int) : Int × Option GoError :=
  match v with
  | .number lit =>
    match strconv.ParseInt lit.data with
    | (n, none) => (n, none)
    | (_, some _) => (cur, some (.jsonType ("number " ++ lit) "int"))
  | .null => (cur, none)
  | other => (cur, some (.jsonType (describe other) "int"))

/-- How the decoding of one struct field ended: without error, with a type
error that is saved while decoding goes on (`d.saveError`), or with an
error that ends decoding at once. -/
inductive FieldResult where
  | ok
  | saved (e : GoError)
  | abort (e : GoError)
  deriving DecidableEq, Repr

/-- What `encoding/json` does when it decodes a JSON object into a
`http.Response` struct.  The struct belongs to `net/http` and holds
further library types, so its decoding is not spelled out: the new state
of the struct and the way decoding ended are a parameter of the model. -/
structure LibraryCodec where
  decodeHTTPResponse : Members → HTTPResponse → HTTPResponse × FieldResult

/-- The zero `http.Response`, which `reflect.New` allocates for a nil
pointer. -/
def zeroHTTPResponse : HTTPResponse := ⟨0, none⟩

/-- A struct field `Response *http.Response` during decoding: the value
the pointer points to (`none` for nil), whether it still points to the
response `http` the struct was created with, and the state of that
response. -/
structure ResponsePtr where
  ptr : Option HTTPResponse
  aliased : Bool
  http : HTTPResponse

/-- Decoding a JSON value into a field of type `*http.Response`: `null`
sets the pointer to nil; for any other value a nil pointer is first made to
point to a new zero struct, then an object is decoded into the struct the
pointer points to and any other value is a type error. -/
def decodeResponsePtr (codec : LibraryCodec) (v : JValue) (f : ResponsePtr) :
    ResponsePtr × FieldResult :=
  match v with
  | .null => ({ f with ptr := none, aliased := false }, .ok)
  | .object ms =>
    let target := f.ptr.getD zeroHTTPResponse
    let aliased := f.aliased && f.ptr.isSome
    let r := codec.decodeHTTPResponse ms target
    ({ ptr := some r.1, aliased := aliased, http := if aliased then r.1 else f.http }, r.2)
  | other =>
    ({ f with ptr := some (f.ptr.getD zeroHTTPResponse),
              aliased := f.aliased && f.ptr.isSome },
     .saved (.jsonType (describe other) "http.Response"))

/-- `d.saveError`: only the first error is kept. -/
def saveError (saved : Option GoError) (e : Option GoError) : Option GoError :=
  match saved with
  | some s => some s
  | none => e

/-- The state of decoding into a struct `α` that has a `Response` field:
the struct, its `Response` pointer, and `d.savedError`. -/
structure Decoding (α : Type) where
  value : α
  resp : ResponsePtr
  saved : Option GoError

/-- Decodes the value of a `Response` member and goes on with `k` unless
decoding is ended. -/
def withResponse {α : Type} (codec : LibraryCodec) (v : JValue) (st : Decoding α)
    (k : Decoding α → Decoding α × Option GoError) : Decoding α × Option GoError :=
  match decodeResponsePtr codec v st.resp with
  | (f, .ok) => k { st with resp := f }
  | (f, .saved e) => k { st with resp := f, saved := saveError st.saved (some e) }
  | (f, .abort e) => ({ st with resp := f }, some e)

/-- The loop of `d.object` for the struct `ErrorResponse`, whose fields
are named `Response`, `StatusCode`, `error_code` and `error_message` to
JSON: each member whose key selects a field is decoded into it, in input
order, and the others are skipped.  The second component is the error that
ended decoding, if one did. -/
def decodeErrorMembers (codec : LibraryCodec) :
    Members → Decoding ErrorResponse → Decoding ErrorResponse × Option GoError
  | [], st => (st, none)
  | (key, _, v) :: ms, st =>
    match findField ["Response", "StatusCode", "error_code", "error_message"] key with
    | none => decodeErrorMembers codec ms st
    | some field =>
      if field == "Response" then
        withResponse codec v st (decodeErrorMembers codec ms)
      else if field == "StatusCode" then
        let r := decodeInt v st.value.StatusCode
        decodeErrorMembers codec ms
          { st with value := { st.value with StatusCode := r.1 },
                    saved := saveError st.saved r.2 }
      else if field == "error_code" then
        let r := decodeString v st.value.Code
        decodeErrorMembers codec ms
          { st with value := { st.value with Code := r.1 }, saved := saveError st.saved r.2 }
      else
        let r := decodeString v st.value.Message
        decodeErrorMembers codec ms
          { st with value := { st.value with Message := r.1 },
                    saved := saveError st.saved r.2 }

/-- `d.value` for a target of type `ErrorResponse`: an object is decoded
member by member, `null` changes nothing, any other value is a type
error. -/
def decodeErrorResponse (codec : LibraryCodec) (v : JValue)
    (st : Decoding ErrorResponse) : Decoding ErrorResponse × Option GoError :=
  match v with
  | .object ms => decodeErrorMembers codec ms st
  | .null => (st, none)
  | other =>
    ({ st with saved := saveError st.saved (some (.jsonType (describe other)
        "client.ErrorResponse")) }, none)

/-- The result of `json.Unmarshal` into a struct with a `Response` field:
the struct, with `Response` pointing to what the pointer ended at, the
state of the HTTP response it was created with, and the error returned. -/
structure Unmarshalled (α : Type) where
  value : α
  http : HTTPResponse
  err : Option GoError

/-- `json.Unmarshal(data, errorResponse)` for a non-nil `*ErrorResponse`
whose `Response` points to `http`: `checkValid` first, which leaves the
target alone when it fails; then the value is decoded and the error that
ended decoding, else the first saved type error, is returned. -/
def UnmarshalErrorResponse (codec : LibraryCodec) (data : String) (e : ErrorResponse)
    (http : HTTPResponse) : Unmarshalled ErrorResponse :=
  match parse data with
  | .error err => ⟨e, http, some err⟩
  | .ok v =>
    let r := decodeErrorResponse codec v ⟨e, ⟨e.Response, true, http⟩, none⟩
    ⟨{ r.1.value with Response := r.1.resp.ptr }, r.1.resp.http,
     match r.2 with
     | some abort => some abort
     | none => r.1.saved⟩

end json

/-! ## `fmt` -/

namespace fmt

/-- The operands the client passes to `Sprintf`. -/
inductive Arg where
  | int (i : Int)
  | str (s : String)
  deriving DecidableEq, Repr

/-- The decimal text of an `int`, as the verb `%d` prints it. -/
def decimal (i : Int) : String :=
  if i < 0 then ⟨'-' :: Nat.toDigits 10 i.natAbs⟩ else ⟨Nat.toDigits 10 i.natAbs⟩

/-- The text of one operand under a verb: `%d` and `%v` print an `int` in
decimal, `%s` and `%v` print a string as it is; a verb that does not fit
the operand is printed in the form `%!verb(type=value)`.  Verbs other than
`d`, `s` and `v` are not modelled further. -/
def formatArg (verb : Char) (a : Arg) : List Char :=
  match a with
  | .int i =>
    if verb == 'd' || verb == 'v' then (decimal i).data
    else '%' :: '!' :: verb :: ("(int=".data ++ (decimal i).data ++ [')'])
  | .str s =>
    if verb == 's' || verb == 'v' then s.data
    else '%' :: '!' :: verb :: ("(string=".data ++ s.data ++ [')'])

/-- The operands left over when the format is used up, as `Sprintf`
appends them. -/
def extra : List Arg → List Char
  | [] => []
  | [.int i] => "int=".data ++ (decimal i).data
  | [.str s] => "string=".data ++ s.data
  | .int i :: as => "int=".data ++ (decimal i).data ++ ", ".data ++ extra as
  | .str s :: as => "string=".data ++ s.data ++ ", ".data ++ extra as

/-- The loop of `Sprintf` over the format, for formats without flags,
width or precision. -/
def sprintfLoop : List Char → List Arg → List Char
  | [], [] => []
  | [], a :: as => "%!(EXTRA ".data ++ extra (a :: as) ++ [')']
  | c :: rest, args =>
    if c == '%' then
      match rest with
      | [] => "%!(NOVERB)".data
      | verb :: rest1 =>
        if verb == '%' then '%' :: sprintfLoop rest1 args
        else
          match args with
          | [] => '%' :: '!' :: verb :: ("(MISSING)".data ++ sprintfLoop rest1 [])
          | a :: as => formatArg verb a ++ sprintfLoop rest1 as
    else c :: sprintfLoop rest args

/-- `fmt.Sprintf(format, args...)`. -/
def Sprintf (format : String) (args : List Arg) : String :=
  ⟨sprintfLoop format.data args⟩

end fmt

/-! ## `client/response.go`: responses and errors -/

/-- Response is API HTTP response.  `Data` is a `json.RawMessage`, a byte
slice, whose nil and empty values are both the empty text. -/
structure Response where
  Response : Option HTTPResponse
  Data : String
  Links : Links
  deriving DecidableEq, Repr

/-- NewResponse creates a new Response for the provided http.Response. -/
def NewResponse (r : HTTPResponse) : Response :=
  { Response := some r, Data := "", Links := ⟨"", "", "", "", ""⟩ }

/-- `(*ErrorResponse).Error`. -/
def ErrorResponse.Error (e : ErrorResponse) : String :=
  fmt.Sprintf "code: %d, message: %s" [.int e.StatusCode, .str e.Message]

/-! ## `client/client.go` -/

/-- `ioutil.ReadAll(body)`: the bytes read and the error. -/
def ReadAll (body : Body) : String × Option IOError := (body.data, body.readErr)

/-- `checkResponse(r)`: the error returned (`none` for nil, else the
`*ErrorResponse`) and the state of `*r` afterwards, which
`json.Unmarshal` can reach through `errorResponse.Response`.  Reading a
nil `Body` panics. -/
def checkResponse (codec : json.LibraryCodec) (r : HTTPResponse) :
    Except Panic (Option ErrorResponse × HTTPResponse) :=
  if 200 ≤ r.StatusCode ∧ r.StatusCode ≤ 299 then .ok (none, r)
  else
    let errorResponse : ErrorResponse :=
      { Response := some r, StatusCode := r.StatusCode, Code := "", Message := "" }
    match r.Body with
    | none => .error .nilDereference
    | some body =>
      let (data, err) := ReadAll body
      if err = none ∧ data.length > 0 then
        let u := json.UnmarshalErrorResponse codec data errorResponse r
        match u.err with
        | some _ => .ok (some { u.value with Message := data }, u.http)
        | none => .ok (some u.value, u.http)
      else .ok (some errorResponse, r)

namespace json

/-- The loop of `d.object` for the struct `Links`, all of whose fields are
strings: a type error is saved and the next member decoded. -/
def decodeLinksMembers : Members → Links → Option GoError → Links × Option GoError
  | [], l, saved => (l, saved)
  | (key, _, v) :: ms, l, saved =>
    match findField ["first", "last", "prev", "next", "self"] key with
    | none => decodeLinksMembers ms l saved
    | some field =>
      if field == "first" then
        let r := decodeString v l.First
        decodeLinksMembers ms { l with First := r.1 } (saveError saved r.2)
      else if field == "last" then
        let r := decodeString v l.Last
        decodeLinksMembers ms { l with Last := r.1 } (saveError saved r.2)
      else if field == "prev" then
        let r := decodeString v l.Prev
        decodeLinksMembers ms { l with Prev := r.1 } (saveError saved r.2)
      else if field == "next" then
        let r := decodeString v l.Next
        decodeLinksMembers ms { l with Next := r.1 } (saveError saved r.2)
      else
        let r := decodeString v l.Self
        decodeLinksMembers ms { l with Self := r.1 } (saveError saved r.2)

/-- `d.value` for a field of type `Links`. -/
def decodeLinks (v : JValue) (l : Links) (saved : Option GoError) : Links × Option GoError :=
  match v with
  | .object ms => decodeLinksMembers ms l saved
  | .null => (l, saved)
  | other => (l, saveError saved (some (.jsonType (describe other) "client.Links")))

/-- The loop of `d.object` for the struct `Response`, whose fields are
named `Response`, `data` and `links` to JSON.  `Data` is a
`json.RawMessage`, whose `UnmarshalJSON` stores the bytes of the value,
whatever the value is. -/
def decodeResponseMembers (codec : LibraryCodec) :
    Members → Decoding Response → Decoding Response × Option GoError
  | [], st => (st, none)
  | (key, raw, v) :: ms, st =>
    match findField ["Response", "data", "links"] key with
    | none => decodeResponseMembers codec ms st
    | some field =>
      if field == "Response" then
        withResponse codec v st (decodeResponseMembers codec ms)
      else if field == "data" then
        decodeResponseMembers codec ms { st with value := { st.value with Data := raw } }
      else
        let r := decodeLinks v st.value.Links st.saved
        decodeResponseMembers codec ms
          { st with value := { st.value with Links := r.1 }, saved := r.2 }

/-- `d.value` for a target of type `Response`. -/
def decodeResponse (codec : LibraryCodec) (v : JValue) (st : Decoding Response) :
    Decoding Response × Option GoError :=
  match v with
  | .object ms => decodeResponseMembers codec ms st
  | .null => (st, none)
  | other =>
    ({ st with saved := saveError st.saved (some (.jsonType (describe other)
        "client.Response")) }, none)

/-- `json.Unmarshal(data, r)` for a non-nil `*Response` whose `Response`
points to `http`. -/
def UnmarshalResponse (codec : LibraryCodec) (data : String) (r : Response)
    (http : HTTPResponse) : Unmarshalled Response :=
  match parse data with
  | .error err => ⟨r, http, some err⟩
  | .ok v =>
    let d := decodeResponse codec v ⟨r, ⟨r.Response, true, http⟩, none⟩
    ⟨{ d.1.value with Response := d.1.resp.ptr }, d.1.resp.http,
     match d.2 with
     | some abort => some abort
     | none => d.1.saved⟩

/-- What `encoding/json` knows of the type `T` of a decode target: the
name of the type and how a JSON value is decoded into a value of it. -/
structure TargetType (T : Type) where
  name : String
  decode : JValue → T → T × Option GoError

/-- A non-nil `interface{}` handed to `json.Unmarshal` as decode target: a
value that is no pointer, a nil pointer, or a pointer to a value. -/
inductive Target (T : Type) where
  | nonPointer (value : T)
  | nilPointer
  | pointer (value : T)
  deriving DecidableEq, Repr

/-- `json.Unmarshal(data, v)` for a non-nil interface `v`: `checkValid`
first; then a target that is no pointer or a nil pointer is refused with
an `InvalidUnmarshalError`; else the value is decoded into what the
pointer points to. -/
def Unmarshal {T : Type} (ty : TargetType T) (data : String) (v : Target T) :
    Target T × Option GoError :=
  match parse data with
  | .error err => (v, some err)
  | .ok j =>
    match v with
    | .nonPointer x => (.nonPointer x, some (.jsonInvalidUnmarshal ty.name))
    | .nilPointer => (.nilPointer, some (.jsonInvalidUnmarshal ty.name))
    | .pointer x =>
      let r := ty.decode j x
      (.pointer r.1, r.2)

end json

/-- What a call of `Client.Do` leaves behind when it returns: the two
results, the decode target `v` (`none` for the nil interface), the data
handed to `json.Unmarshal` in each call made, in order, and whether the
response body was closed. -/
structure DoResult (T : Type) where
  resp : Option Response
  err : Option GoError
  v : Option (json.Target T)
  unmarshalled : List String
  closed : Bool

/-- The deferred function of `Do`: it closes the body of `resp`, whose
state at that time is `http`, which panics for a nil `Body`.  The error of
`Close` is assigned to the local variable `err`; the results of `Do` are
unnamed and have been set by the `return` statement before, so they stay
as they are. -/
def Do.deferred {T : Type} (http : HTTPResponse) (res : DoResult T) :
    Except Panic (DoResult T) :=
  match http.Body with
  | none => .error .nilDereference
  | some _ => .ok { res with closed := true }

/-- `(*Client).Do(ctx, req, v)`, from the outcome `sent` of
`c.httpClient.Do(req)` on: the status check, the read of the body, the
decoding of the envelope into the `Response` and of its `Data` into `v`. -/
def Do {T : Type} (codec : json.LibraryCodec) (ty : json.TargetType T)
    (sent : Except GoError HTTPResponse) (v : Option (json.Target T)) :
    Except Panic (DoResult T) :=
  match sent with
  | .error err => .ok ⟨none, some err, v, [], false⟩
  | .ok resp =>
    let r := NewResponse resp
    match checkResponse codec resp with
    | .error p => .error p
    | .ok (some e, http) =>
      Do.deferred http ⟨some { r with Response := some http }, some (.api e), v, [], false⟩
    | .ok (none, http) =>
      match http.Body with
      | none => .error .nilDereference
      | some body =>
        let (data, err) := ReadAll body
        if err ≠ none ∨ data.length = 0 then
          Do.deferred http ⟨some r, err.map .io, v, [], false⟩
        else
          let u := json.UnmarshalResponse codec data r http
          match u.err with
          | some e => Do.deferred u.http ⟨some u.value, some e, v, [data], false⟩
          | none =>
            match v with
            | none => Do.deferred u.http ⟨some u.value, none, none, [data], false⟩
            | some target =>
              let t := json.Unmarshal ty u.value.Data target
              Do.deferred u.http ⟨some u.value, t.2, some t.1, [data, u.value.Data], false⟩

namespace json

/-- A `LibraryCodec` for evaluating examples: it reports a type error for
every object handed to it and leaves the struct as it is.  The examples
below hold no `Response` member, so that the codec is never consulted. -/
def refusingCodec : LibraryCodec :=
  ⟨fun _ r => (r, .saved (.jsonType "object" "http.Response"))⟩

end json

/-- The struct `foo` of `client_test.go`, with its one field `A`. -/
structure foo where
  A : String
  deriving DecidableEq, Repr

/-- The loop of `d.object` for the struct `foo`. -/
def decodeFooMembers : json.Members → foo → Option GoError → foo × Option GoError
  | [], x, saved => (x, saved)
  | (key, _, v) :: ms, x, saved =>
    match json.findField ["A"] key with
    | none => decodeFooMembers ms x saved
    | some _ =>
      let r := json.decodeString v x.A
      decodeFooMembers ms { x with A := r.1 } (json.saveError saved r.2)

/-- How `encoding/json` decodes into a `foo`. -/
def fooType : json.TargetType foo where
  name := "client.foo"
  decode v x :=
    match v with
    | .object ms => decodeFooMembers ms x none
    | .null => (x, none)
    | other => (x, some (.jsonType (json.describe other) "client.foo"))

/-- The error body `{"StatusCode":404,"error_code":"E","error_message":"m"}`. -/
def bodyWithStatusCode : String :=
  "\x7b\"StatusCode\":404,\"error_code\":\"E\",\"error_message\":\"m\"\x7d"

/-- The error body `{"error_code":"E1","error_message":5}`. -/
def bodyWithNumberMessage : String :=
  "\x7b\"error_code\":\"E1\",\"error_message\":5\x7d"

/-- The error body of the repository's tests: an object with the one
member `"error_message": "custom error message"`, laid out over three
lines with tabs as in `account_test.go`. -/
def bodyOfTest : String :=
  "\x7b\n\t\t\t\t\"error_message\": \"custom error message\"\n\t\t\t\x7d"

namespace json

/-- A `LibraryCodec` that spells out one case of what `encoding/json`
does with a `http.Response`: for the object with the single member
`"Body": null` it sets the field `Body`, an interface, to nil, as
`literalStore` does for `null` and a field of interface kind, and reports
no error.  Every other object is refused as `refusingCodec` refuses it. -/
def bodyCodec : LibraryCodec where
  decodeHTTPResponse ms r :=
    match ms with
    | [(key, _, .null)] =>
      if key == "Body" then (⟨r.StatusCode, none⟩, .ok)
      else (r, .saved (.jsonType "object" "http.Response"))
    | _ => (r, .saved (.jsonType "object" "http.Response"))

end json

/-- The body `not-a-json` of the repository's tests. -/
def bodyNotJSON : String := "not-a-json"

/-- The body `{"Response":{"Body":null}}`. -/
def bodyNilsBody : String := "\x7b\"Response\":\x7b\"Body\":null\x7d\x7d"

namespace json

/-- The JSON names of the fields of `Response`. -/
def envelopeFields : List String := ["Response", "data", "links"]

/-- The JSON names of the fields of `Links`. -/
def linkFields : List String := ["first", "last", "prev", "next", "self"]

/-- The key selects the field: it is the field's name, or equal to it
under case folding while no field has exactly the key as its name. -/
def selects (names : List String) (field key : String) : Bool :=
  findField names key == some field

/-- The string the members give to a string field: the value of the last
member whose key selects the field and whose value is a string; `cur` when
there is none. -/
def lastString (names : List String) (field : String) : Members → String → String
  | [], cur => cur
  | (key, _, v) :: ms, cur =>
    lastString names field ms
      (if selects names field key then (match v with | .string s => s | _ => cur) else cur)

/-- The type error of a value meant for a string field. -/
def stringError (v : JValue) : Option GoError :=
  match v with
  | .string _ => none
  | .null => none
  | other => some (.jsonType (describe other) "string")

/-- The first type error among the members of a `links` object. -/
def linkErrors : Members → Option GoError
  | [] => none
  | (key, _, v) :: ms =>
    saveError (if (findField linkFields key).isSome then stringError v else none)
      (linkErrors ms)

/-- The bytes of the last member of the envelope whose key selects `data`;
`cur` when there is none. -/
def lastData : Members → String → String
  | [], cur => cur
  | (key, raw, _) :: ms, cur =>
    lastData ms (if selects envelopeFields "data" key then raw else cur)

/-- The links the members of the envelope give: every member whose key
selects `links` and whose value is an object gives each of the five fields
the string its members hold for it, if they hold one. -/
def linksOf : Members → Links → Links
  | [], l => l
  | (key, _, v) :: ms, l =>
    linksOf ms
      (if selects envelopeFields "links" key then
        (match v with
         | .object ls =>
           { First := lastString linkFields "first" ls l.First,
             Last := lastString linkFields "last" ls l.Last,
             Prev := lastString linkFields "prev" ls l.Prev,
             Next := lastString linkFields "next" ls l.Next,
             Self := lastString linkFields "self" ls l.Self }
         | _ => l)
       else l)

/-- The first type error the members of the envelope give: a member whose
key selects `links` must be `null` or an object of strings. -/
def envelopeErrors : Members → Option GoError
  | [] => none
  | (key, _, v) :: ms =>
    saveError
      (if selects envelopeFields "links" key then
        (match v with
         | .object ls => linkErrors ls
         | .null => none
         | other => some (.jsonType (describe other) "client.Links"))
       else none)
      (envelopeErrors ms)

end json

/-- The body `{"links":5}`. -/
def bodyLinksNumber : String := "\x7b\"links\":5\x7d"

/-- The body `{"DATA":7}`. -/
def bodyUpperData : String := "\x7b\"DATA\":7\x7d"

/-- The body `{}`. -/
def bodyEmptyObject : String := "\x7b\x7d"

/-- The body `{"data":{"A":"a"},"links":{}}` of `TestDo`. -/
def bodyOfTestDo : String := "\x7b\"data\":\x7b\"A\":\"a\"\x7d,\"links\":\x7b\x7d\x7d"

/-! ## `net/url`: writing and resolving URLs -/

namespace url

/-- The text `raw` unescapes without error to `s`. -/
def unescapesTo (raw : List Char) (mode : Encoding) (s : List Char) : Bool :=
  match unescape raw mode with
  | .ok p => p == s
  | .error _ => false

/-- `u.EscapedPath()`: `RawPath` when it is a valid encoding of `Path`,
else the default escaping of `Path`. -/
def URL.EscapedPath (u : URL) : List Char :=
  if u.RawPath != "" && validEncoded u.RawPath.data .encodePath
      && unescapesTo u.RawPath.data .encodePath u.Path.data then u.RawPath.data
  else if u.Path == "*" then ['*']
  else escape u.Path.data .encodePath

/-- `u.EscapedFragment()`. -/
def URL.EscapedFragment (u : URL) : List Char :=
  if u.RawFragment != "" && validEncoded u.RawFragment.data .encodeFragment
      && unescapesTo u.RawFragment.data .encodeFragment u.Fragment.data then
    u.RawFragment.data
  else escape u.Fragment.data .encodeFragment

/-- The elements `strings.Cut(remaining, "/")` yields one after the other
in the loop of `resolvePath`: the texts between the slashes. -/
def splitSlash : List Char → List (List Char)
  | [] => [[]]
  | c :: cs =>
    if c == '/' then [] :: splitSlash cs
    else
      match splitSlash cs with
      | [] => [[c]]
      | s :: ss => (c :: s) :: ss

/-- The body of the loop of `resolvePath` for one element: `.` is dropped,
`..` removes the last element written to `dst`, every other element is
written to `dst`, after a slash unless it is the first. -/
def resolveStep (elem dst : List Char) (first : Bool) : List Char × Bool :=
  if elem == ['.'] then (dst, false)
  else if elem == ['.', '.'] then
    match cutLast '/' (dst.drop 1) with
    | none => (['/'], true)
    | some (before, _) => ('/' :: before, first)
  else ((if first then dst else dst ++ ['/']) ++ elem, false)

/-- The loop of `resolvePath` over the elements, and the slash written
after it when the last element is `.` or `..`. -/
def resolveLoop : List (List Char) → List Char → Bool → List Char
  | [], dst, _ => dst
  | [elem], dst, first =>
    if elem == ['.'] || elem == ['.', '.'] then (resolveStep elem dst first).1 ++ ['/']
    else (resolveStep elem dst first).1
  | elem :: next :: rest, dst, first =>
    resolveLoop (next :: rest) (resolveStep elem dst first).1 (resolveStep elem dst first).2

/-- `resolvePath(base, ref)`: `ref` when it begins with a slash, else
`base` up to its last slash followed by `ref`, with the `.` and `..`
elements resolved and one leading slash. -/
def resolvePath (base ref : List Char) : List Char :=
  let full :=
    if ref.isEmpty then base
    else if ref.head? != some '/' then
      (match cutLast '/' base with
       | some (before, _) => before ++ ['/']
       | none => []) ++ ref
    else ref
  if full.isEmpty then []
  else
    let r := resolveLoop (splitSlash full) ['/'] true
    if r.length > 1 && (r.drop 1).head? == some '/' then r.drop 1 else r

/-- The call `url.setPath(p)` whose error `ResolveReference` drops: on an
error the path stays as it is. -/
def URL.withPath (u : URL) (p : List Char) : URL :=
  match u.setPath p with
  | .ok u1 => u1
  | .error _ => u

/-- `u.ResolveReference(ref)` for the receiver `u` (`none` for a nil
pointer, whose `Scheme` is read when `ref` has none). -/
def URL.ResolveReference (u : Option URL) (ref : URL) : Except Panic URL :=
  if ref.Scheme != "" then .ok (ref.withPath (resolvePath ref.EscapedPath []))
  else
    match u with
    | none => .error .nilDereference
    | some u =>
      let url := { ref with Scheme := u.Scheme }
      if ref.Host != "" || ref.User.isSome then
        .ok (url.withPath (resolvePath ref.EscapedPath []))
      else if ref.Opaque != "" then .ok { url with User := none, Host := "", Path := "" }
      else
        let url1 :=
          if ref.Path == "" && !ref.ForceQuery && ref.RawQuery == "" then
            if ref.Fragment == "" then
              { url with RawQuery := u.RawQuery, Fragment := u.Fragment,
                         RawFragment := u.RawFragment }
            else { url with RawQuery := u.RawQuery }
          else url
        if ref.Path == "" && u.Opaque != "" then
          .ok { url1 with Opaque := u.Opaque, User := none, Host := "", Path := "" }
        else
          .ok (URL.withPath { url1 with Host := u.Host, User := u.User }
            (resolvePath u.EscapedPath ref.EscapedPath))

/-- `u.Parse(ref)`: the two results, or the panic of `ResolveReference`
on a nil receiver. -/
def URL.Parse (u : Option URL) (ref : String) : Except Panic (Except GoError URL) :=
  match url.Parse ref with
  | .error e => .ok (.error e)
  | .ok refURL =>
    match URL.ResolveReference u refURL with
    | .error p => .error p
    | .ok url => .ok (.ok url)

/-- `(*Userinfo).String` for a non-nil receiver. -/
def Userinfo.String (u : Userinfo) : List Char :=
  escape u.username.data .encodeUserPassword ++
    (if u.passwordSet then ':' :: escape u.password.data .encodeUserPassword else [])

/-- The part of `u.String()` that stands between the scheme and the
path: the two slashes, the user information and the host. -/
def URL.authorityText (u : URL) : List Char :=
  if u.Scheme != "" || u.Host != "" || u.User.isSome then
    if u.OmitHost && u.Host == "" && u.User.isNone then []
    else
      (if u.Host != "" || u.Path != "" || u.User.isSome then ['/', '/'] else []) ++
      (match u.User with
       | some ui => ui.String ++ ['@']
       | none => []) ++
      (if u.Host != "" then escape u.Host.data .encodeHost else [])
  else []

/-- `u.String()`: the text `scheme:opaque?query#fragment` or
`scheme://userinfo@host/path?query#fragment`. -/
def URL.String (u : URL) : String :=
  let schemeText := if u.Scheme != "" then u.Scheme.data ++ [':'] else []
  let body :=
    if u.Opaque != "" then schemeText ++ u.Opaque.data
    else
      let buf := schemeText ++ u.authorityText
      let path := u.EscapedPath
      let buf1 :=
        if !path.isEmpty && path.head? != some '/' && u.Host != "" then buf ++ ['/'] else buf
      let buf2 :=
        if buf1.isEmpty && ((cut '/' path).1).contains ':' then buf1 ++ ['.', '/'] else buf1
      buf2 ++ path
  let query := if u.ForceQuery || u.RawQuery != "" then '?' :: u.RawQuery.data else []
  let fragment := if u.Fragment != "" then '#' :: u.EscapedFragment else []
  ⟨body ++ query ++ fragment⟩

/-- `url.QueryEscape(s)`. -/
def QueryEscape (s : String) : List Char := escape s.data .encodeQueryComponent

/-- The map assignment `m[key] = values`. -/
def Values.set : Values → String → List String → Values
  | [], k, vs => [(k, vs)]
  | (k0, vs0) :: m, k, vs =>
    if k0 == k then (k0, vs) :: m else (k0, vs0) :: Values.set m k vs

/-- The order of Go strings: byte by byte, a proper prefix first. -/
def lessString : List Char → List Char → Bool
  | _, [] => false
  | [], _ :: _ => true
  | a :: as, b :: bs => a.toNat < b.toNat || (a == b && lessString as bs)

/-- Puts an entry into a list of entries sorted by key. -/
def insertSorted (e : String × List String) : Values → Values
  | [] => [e]
  | x :: xs => if lessString e.1.data x.1.data then e :: x :: xs else x :: insertSorted e xs

/-- The entries of the map in the order of `sort.Strings(keys)`. -/
def Values.sorted (v : Values) : Values := v.foldr insertSorted []

/-- The texts `key=value` that `Encode` writes for one key. -/
def encodeEntry (e : String × List String) : List (List Char) :=
  e.2.map fun value => QueryEscape e.1 ++ '=' :: QueryEscape value

/-- `v.Encode()`: the values in `key=value` form, escaped, sorted by key
and joined by `&`. -/
def Values.Encode (v : Values) : String :=
  ⟨List.intercalate ['&'] ((v.sorted.map encodeEntry).flatten)⟩

end url

/-! ## `net/http`: building a request -/

namespace http

/-- `httpguts.IsTokenRune`: the characters of an HTTP token. -/
def isToken (c : Char) : Bool :=
  url.isAlpha c || url.isDigit c || "!#$%&\x27*+-.^_\x60|~".data.contains c

/-- `validMethod(method)`. -/
def validMethod (method : String) : Bool :=
  !method.data.isEmpty && method.data.all isToken

/-- `strings.LastIndex(s, sep)` for a one-byte separator, `-1` when `sep`
does not occur. -/
def lastIndex (sep : Char) (s : List Char) : Int :=
  match url.cutLast sep s with
  | some (before, _) => before.length
  | none => -1

/-- `hasPort(s)`. -/
def hasPort (s : List Char) : Bool := lastIndex ':' s > lastIndex ']' s

/-- `removeEmptyPort(host)`: a host with a port loses a colon at its end. -/
def removeEmptyPort (host : String) : String :=
  if hasPort host.data && host.data.getLast? == some ':' then ⟨host.data.dropLast⟩ else host

/-- The part of `http.Request` the client sets: method, URL, host, header
and the bytes its body yields. -/
structure Request where
  Method : String
  URL : url.URL
  Host : String
  Header : url.Values
  Body : String
  deriving DecidableEq, Repr

/-- `http.NewRequest(method, url, body)` for a body that is a
`*bytes.Buffer` holding `body`. -/
def NewRequest (method urlText body : String) : Except GoError Request :=
  let method1 := if method == "" then "GET" else method
  if !validMethod method1 then .error (.httpInvalidMethod method1)
  else
    match url.Parse urlText with
    | .error e => .error e
    | .ok u =>
      .ok { Method := method1, URL := { u with Host := removeEmptyPort u.Host },
            Host := removeEmptyPort u.Host, Header := [], Body := body }

end http

/-! ## `encoding/json`: encoding (`encode.go`) -/

namespace json

/-- `htmlSafeSet[b]` for an ASCII byte: every byte from the space on but
the double quote, the backslash, `<`, `>` and `&`. -/
def htmlSafe (c : Char) : Bool :=
  32 ≤ c.toNat && c != '"' && c != '\\' && c != '<' && c != '>' && c != '&'

/-- What `appendString` with `escapeHTML` writes for one character of a
valid UTF-8 string: the character, a two-byte escape, or a `\u` escape for
the other control characters, for `<`, `>`, `&` and for U+2028, U+2029. -/
def encodeChar (c : Char) : List Char :=
  if c.toNat < 128 then
    if htmlSafe c then [c]
    else if c == '\\' || c == '"' then ['\\', c]
    else if c.toNat == 8 then ['\\', 'b']
    else if c.toNat == 12 then ['\\', 'f']
    else if c.toNat == 10 then ['\\', 'n']
    else if c.toNat == 13 then ['\\', 'r']
    else if c.toNat == 9 then ['\\', 't']
    else ['\\', 'u', '0', '0', hexDigit (c.toNat / 16), hexDigit (c.toNat % 16)]
  else if c.toNat == 8232 || c.toNat == 8233 then
    ['\\', 'u', '2', '0', '2', hexDigit (c.toNat % 16)]
  else [c]

/-- The characters `appendString` writes between the quotes. -/
def encodeChars : List Char → List Char
  | [] => []
  | c :: cs => encodeChar c ++ encodeChars cs

/-- The JSON string literal the encoder writes for a Go string. -/
def encodeString (s : String) : String := ⟨'"' :: (encodeChars s.data ++ ['"'])⟩

/-- The encoder's text for a `bool`. -/
def encodeBool (b : Bool) : String := if b then "true" else "false"

/-- The encoder's text for a `[]string`: `null` for the nil slice, else
the elements in brackets. -/
def encodeStrings (v : Option (List String)) : String :=
  match v with
  | none => "null"
  | some elems => "[" ++ ",".intercalate (elems.map encodeString) ++ "]"

/-- A field of a struct as the encoder meets it: its JSON name, whether
it is left out (the tag says `omitempty` and the value is empty) and the
encoding of its value. -/
structure FieldText where
  name : String
  omitted : Bool
  text : String
  deriving DecidableEq, Repr

/-- The encoder's text for a struct: the fields that are not left out, in
the order of their declaration, as `"name":value` between braces.  The
names are those of the structs of this repository, which hold nothing the
encoder would escape. -/
def encodeStruct (fields : List FieldText) : String :=
  "\x7b" ++ ",".intercalate
    ((fields.filter fun f => !f.omitted).map fun f => "\"" ++ f.name ++ "\":" ++ f.text)
    ++ "\x7d"

/-- What `encoding/json` knows of the type `T` of a value to encode: the
text it writes for a value, or the error it reports. -/
structure SourceType (T : Type) where
  encode : T → Except GoError String

/-- The encoder's text for a non-nil `interface{}`: `null` for a nil
pointer, else the text of the value held or pointed to. -/
def encodeInterface {T : Type} (ty : SourceType T) (v : Target T) : Except GoError String :=
  match v with
  | .nilPointer => .ok "null"
  | .pointer x => ty.encode x
  | .nonPointer x => ty.encode x

end json

/-! ## `client/client.go`: requests -/

/-- `contentType`. -/
def contentType : String := "application/vnd.api+json"

/-- Pagination is a structure required to build query parameters for
pagination.  The tags are `url:"page[number],omitempty"` and
`url:"page[size],omitempty"`. -/
structure Pagination where
  Page : Int
  PerPage : Int
  deriving DecidableEq, Repr

namespace query

/-- `query.Values(opt)` of `go-querystring` for a `Pagination`: each field
that is not zero is added under the name of its tag, in decimal. -/
def Values (opt : Pagination) : url.Values :=
  let v1 : url.Values :=
    if opt.Page = 0 then [] else url.Values.add [] "page[number]" (fmt.decimal opt.Page)
  if opt.PerPage = 0 then v1 else url.Values.add v1 "page[size]" (fmt.decimal opt.PerPage)

end query

/-- The loop `for k, v := range newValues { origValues[k] = v }`. -/
def setAll (origValues : url.Values) : url.Values → url.Values
  | [] => origValues
  | (k, v) :: newValues => setAll (origValues.set k v) newValues

/-- `addOptions(s, opt)` for an `opt` of type `*Pagination`, `none` for
the nil pointer: the path with the query parameters of `opt` added. -/
def addOptions (s : String) (opt : Option Pagination) : String × Option GoError :=
  match opt with
  | none => (s, none)
  | some p =>
    match url.Parse s with
    | .error err => (s, some err)
    | .ok origURL =>
      let origValues := origURL.Query
      let newValues := query.Values p
      (({ origURL with RawQuery := (setAll origValues newValues).Encode }).String, none)

/-- `(*Client).NewRequest(ctx, method, urlStr, body)` for a client with
the given `BaseURL` (`none` for nil): the two results, or the panic of
resolving against a nil `BaseURL`.  `body` is `none` for the nil
interface. -/
def NewRequest {T : Type} (ty : json.SourceType T) (BaseURL : Option url.URL)
    (method urlStr : String) (body : Option (json.Target T)) :
    Except Panic (Option http.Request × Option GoError) :=
  match url.URL.Parse BaseURL urlStr with
  | .error p => .error p
  | .ok (.error err) => .ok (none, some err)
  | .ok (.ok u) =>
    let encoded : Except GoError String :=
      match body with
      | none => .ok ""
      | some b =>
        -- `json.NewEncoder(buf).Encode(requestBody)`: the struct, then a newline
        match json.encodeInterface ty b with
        | .error err => .error err
        | .ok text => .ok (json.encodeStruct [⟨"data", false, text⟩] ++ "\n")
    match encoded with
    | .error err => .ok (none, some err)
    | .ok buf =>
      match http.NewRequest method u.String buf with
      | .error err => .ok (none, some err)
      | .ok req =>
        .ok (some { req with
          Header := (req.Header.add "Content-Type" contentType).add "Accept" contentType },
          none)

/-- How `encoding/json` encodes a `foo`. -/
def fooSource : json.SourceType foo where
  encode x := .ok (json.encodeStruct [⟨"A", false, json.encodeString x.A⟩])

/-! ## `models/account.go` and its JSON form -/

namespace models

/-- AccountAttributes represents account attributes.  The slice
`AlternativeBankAccountNames` is `none` when nil. -/
structure AccountAttributes where
  Country : String
  BaseCurrency : String
  AccountNumber : String
  BankID : String
  BankIDCode : String
  Bic : String
  Iban : String
  Title : String
  FirstName : String
  BankAccountName : String
  AlternativeBankAccountNames : Option (List String)
  AccountClassification : String
  JointAccount : Bool
  AccountMatchingOptOut : Bool
  SecondaryIdentification : String
  deriving DecidableEq, Repr

/-- Account represents a bank account that is registered with Form3.  The
field `Type` of the source is `Type_` here. -/
structure Account where
  Attributes : AccountAttributes
  ID : String
  OrganisationID : String
  Type_ : String
  Version : Int
  deriving DecidableEq, Repr

/-- The zero value of `AccountAttributes`. -/
def AccountAttributes.zero : AccountAttributes :=
  ⟨"", "", "", "", "", "", "", "", "", "", none, "", false, false, ""⟩

/-- The zero value of `Account`, as `&models.Account{}` points to. -/
def Account.zero : Account := ⟨AccountAttributes.zero, "", "", "", 0⟩

/-- The fields of an `AccountAttributes` as the encoder meets them, with
the names and `omitempty` options of their tags. -/
def AccountAttributes.fields (a : AccountAttributes) : List json.FieldText :=
  [⟨"country", false, json.encodeString a.Country⟩,
   ⟨"base_currency", a.BaseCurrency == "", json.encodeString a.BaseCurrency⟩,
   ⟨"account_number", a.AccountNumber == "", json.encodeString a.AccountNumber⟩,
   ⟨"bank_id", a.BankID == "", json.encodeString a.BankID⟩,
   ⟨"bank_id_code", a.BankIDCode == "", json.encodeString a.BankIDCode⟩,
   ⟨"bic", a.Bic == "", json.encodeString a.Bic⟩,
   ⟨"iban", a.Iban == "", json.encodeString a.Iban⟩,
   ⟨"title", a.Title == "", json.encodeString a.Title⟩,
   ⟨"first_name", a.FirstName == "", json.encodeString a.FirstName⟩,
   ⟨"bank_account_name", a.BankAccountName == "", json.encodeString a.BankAccountName⟩,
   ⟨"alternative_bank_account_names", (a.AlternativeBankAccountNames.getD []).isEmpty,
     json.encodeStrings a.AlternativeBankAccountNames⟩,
   ⟨"account_classification", a.AccountClassification == "",
     json.encodeString a.AccountClassification⟩,
   ⟨"joint_account", !a.JointAccount, json.encodeBool a.JointAccount⟩,
   ⟨"account_matching_opt_out", !a.AccountMatchingOptOut,
     json.encodeBool a.AccountMatchingOptOut⟩,
   ⟨"secondary_identification", a.SecondaryIdentification == "",
     json.encodeString a.SecondaryIdentification⟩]

/-- The fields of an `Account` as the encoder meets them. -/
def Account.fields (a : Account) : List json.FieldText :=
  [⟨"attributes", false, json.encodeStruct a.Attributes.fields⟩,
   ⟨"id", false, json.encodeString a.ID⟩,
   ⟨"organisation_id", false, json.encodeString a.OrganisationID⟩,
   ⟨"type", false, json.encodeString a.Type_⟩,
   ⟨"version", false, fmt.decimal a.Version⟩]

/-- How `encoding/json` encodes an `Account`. -/
def accountSource : json.SourceType Account where
  encode a := .ok (json.encodeStruct a.fields)

end models

namespace json

/-- Decoding a JSON value into a field of type `bool`. -/
def decodeBool (v : JValue) (cur : Bool) : Bool × Option GoError :=
  match v with
  | .bool b => (b, none)
  | .null => (cur, none)
  | other => (cur, some (.jsonType (describe other) "bool"))

/-- The loop of `d.array` for a `[]string`: the element at each index is
decoded into the element the slice holds there, or into an empty string
when the slice is shorter. -/
def decodeStringElems : List JValue → List String → Option GoError →
    List String × Option GoError
  | [], _, saved => ([], saved)
  | v :: vs, cur, saved =>
    let r := decodeString v (cur.headD "")
    let rest := decodeStringElems vs cur.tail (saveError saved r.2)
    (r.1 :: rest.1, rest.2)

/-- Decoding a JSON value into a field of type `[]string`: an array gives
a slice of its length (empty, not nil, for `[]`), `null` the nil slice, any
other value is a type error. -/
def decodeStrings (v : JValue) (cur : Option (List String)) (saved : Option GoError) :
    Option (List String) × Option GoError :=
  match v with
  | .array elems =>
    let r := decodeStringElems elems (cur.getD []) saved
    (some r.1, r.2)
  | .null => (none, saved)
  | other => (cur, saveError saved (some (.jsonType (describe other) "[]string")))

/-- The JSON names of the fields of `AccountAttributes`. -/
def attributeFields : List String :=
  ["country", "base_currency", "account_number", "bank_id", "bank_id_code", "bic", "iban",
   "title", "first_name", "bank_account_name", "alternative_bank_account_names",
   "account_classification", "joint_account", "account_matching_opt_out",
   "secondary_identification"]

/-- Decoding a JSON value into the field of `AccountAttributes` with the
given JSON name. -/
def decodeAttribute (field : String) (v : JValue) (a : models.AccountAttributes)
    (saved : Option GoError) : models.AccountAttributes × Option GoError :=
  if field == "country" then
    ({ a with Country := (decodeString v a.Country).1 },
      saveError saved (decodeString v a.Country).2)
  else if field == "base_currency" then
    ({ a with BaseCurrency := (decodeString v a.BaseCurrency).1 },
      saveError saved (decodeString v a.BaseCurrency).2)
  else if field == "account_number" then
    ({ a with AccountNumber := (decodeString v a.AccountNumber).1 },
      saveError saved (decodeString v a.AccountNumber).2)
  else if field == "bank_id" then
    ({ a with BankID := (decodeString v a.BankID).1 },
      saveError saved (decodeString v a.BankID).2)
  else if field == "bank_id_code" then
    ({ a with BankIDCode := (decodeString v a.BankIDCode).1 },
      saveError saved (decodeString v a.BankIDCode).2)
  else if field == "bic" then
    ({ a with Bic := (decodeString v a.Bic).1 }, saveError saved (decodeString v a.Bic).2)
  else if field == "iban" then
    ({ a with Iban := (decodeString v a.Iban).1 }, saveError saved (decodeString v a.Iban).2)
  else if field == "title" then
    ({ a with Title := (decodeString v a.Title).1 },
      saveError saved (decodeString v a.Title).2)
  else if field == "first_name" then
    ({ a with FirstName := (decodeString v a.FirstName).1 },
      saveError saved (decodeString v a.FirstName).2)
  else if field == "bank_account_name" then
    ({ a with BankAccountName := (decodeString v a.BankAccountName).1 },
      saveError saved (decodeString v a.BankAccountName).2)
  else if field == "alternative_bank_account_names" then
    ({ a with AlternativeBankAccountNames :=
        (decodeStrings v a.AlternativeBankAccountNames saved).1 },
      (decodeStrings v a.AlternativeBankAccountNames saved).2)
  else if field == "account_classification" then
    ({ a with AccountClassification := (decodeString v a.AccountClassification).1 },
      saveError saved (decodeString v a.AccountClassification).2)
  else if field == "joint_account" then
    ({ a with JointAccount := (decodeBool v a.JointAccount).1 },
      saveError saved (decodeBool v a.JointAccount).2)
  else if field == "account_matching_opt_out" then
    ({ a with AccountMatchingOptOut := (decodeBool v a.AccountMatchingOptOut).1 },
      saveError saved (decodeBool v a.AccountMatchingOptOut).2)
  else
    ({ a with SecondaryIdentification := (decodeString v a.SecondaryIdentification).1 },
      saveError saved (decodeString v a.SecondaryIdentification).2)

/-- The loop of `d.object` for the struct `AccountAttributes`. -/
def decodeAttributesMembers : Members → models.AccountAttributes → Option GoError →
    models.AccountAttributes × Option GoError
  | [], a, saved => (a, saved)
  | (key, _, v) :: ms, a, saved =>
    match findField attributeFields key with
    | none => decodeAttributesMembers ms a saved
    | some field =>
      decodeAttributesMembers ms (decodeAttribute field v a saved).1
        (decodeAttribute field v a saved).2

/-- `d.value` for a field of type `AccountAttributes`. -/
def decodeAttributes (v : JValue) (a : models.AccountAttributes) (saved : Option GoError) :
    models.AccountAttributes × Option GoError :=
  match v with
  | .object ms => decodeAttributesMembers ms a saved
  | .null => (a, saved)
  | other => (a, saveError saved (some (.jsonType (describe other) "models.AccountAttributes")))

/-- The JSON names of the fields of `Account`. -/
def accountFields : List String := ["attributes", "id", "organisation_id", "type", "version"]

/-- Decoding a JSON value into the field of `Account` with the given JSON
name. -/
def decodeAccountField (field : String) (v : JValue) (a : models.Account)
    (saved : Option GoError) : models.Account × Option GoError :=
  if field == "attributes" then
    ({ a with Attributes := (decodeAttributes v a.Attributes saved).1 },
      (decodeAttributes v a.Attributes saved).2)
  else if field == "id" then
    ({ a with ID := (decodeString v a.ID).1 }, saveError saved (decodeString v a.ID).2)
  else if field == "organisation_id" then
    ({ a with OrganisationID := (decodeString v a.OrganisationID).1 },
      saveError saved (decodeString v a.OrganisationID).2)
  else if field == "type" then
    ({ a with Type_ := (decodeString v a.Type_).1 },
      saveError saved (decodeString v a.Type_).2)
  else
    ({ a with Version := (decodeInt v a.Version).1 },
      saveError saved (decodeInt v a.Version).2)

/-- The loop of `d.object` for the struct `Account`. -/
def decodeAccountMembers : Members → models.Account → Option GoError →
    models.Account × Option GoError
  | [], a, saved => (a, saved)
  | (key, _, v) :: ms, a, saved =>
    match findField accountFields key with
    | none => decodeAccountMembers ms a saved
    | some field =>
      decodeAccountMembers ms (decodeAccountField field v a saved).1
        (decodeAccountField field v a saved).2

/-- `d.value` for a target of type `Account`. -/
def decodeAccount (v : JValue) (a : models.Account) (saved : Option GoError) :
    models.Account × Option GoError :=
  match v with
  | .object ms => decodeAccountMembers ms a saved
  | .null => (a, saved)
  | other => (a, saveError saved (some (.jsonType (describe other) "models.Account")))

/-- The loop of `d.array` for a `[]models.Account`. -/
def decodeAccountElems : List JValue → List models.Account → Option GoError →
    List models.Account × Option GoError
  | [], _, saved => ([], saved)
  | v :: vs, cur, saved =>
    let r := decodeAccount v (cur.headD models.Account.zero) saved
    let rest := decodeAccountElems vs cur.tail r.2
    (r.1 :: rest.1, rest.2)

end json

/-- How `encoding/json` decodes into an `Account`. -/
def accountType : json.TargetType models.Account where
  name := "models.Account"
  decode v a := json.decodeAccount v a none

/-- How `encoding/json` decodes into a `[]models.Account`, `none` for the
nil slice. -/
def accountsType : json.TargetType (Option (List models.Account)) where
  name := "[]models.Account"
  decode v cur :=
    match v with
    | .array elems =>
      let r := json.decodeAccountElems elems (cur.getD []) none
      (some r.1, r.2)
    | .null => (none, none)
    | other => (cur, some (.jsonType (json.describe other) "[]models.Account"))

/-! ## `client/account.go` -/

/-- `(*AccountService).Delete(ctx, id)` for a client with the given
`BaseURL` whose HTTP client answers the request `req` with `send req`: the
two results, or the panic.  The decode target handed to `Do` is the nil
slice `accounts` itself, not a pointer to it. -/
def AccountService.Delete (codec : json.LibraryCodec) (BaseURL : Option url.URL)
    (send : http.Request → Except GoError HTTPResponse) (id : String) :
    Except Panic (Option Response × Option GoError) :=
  let path := fmt.Sprintf "v1/organisation/accounts/%s?version=0" [.str id]
  match NewRequest models.accountSource BaseURL "DELETE" path none with
  | .error p => .error p
  | .ok (_, some err) => .ok (none, some err)
  | .ok (none, none) => .error .nilDereference
  | .ok (some req, none) =>
    match Do codec accountsType (send req) (some (.nonPointer none)) with
    | .error p => .error p
    | .ok r => .ok (r.resp, r.err)

/-- The body `{"data":null}`. -/
def bodyDataNull : String := "\x7b\"data\":null\x7d"

/-- The base URL `http://localhost:8080`. -/
def baseLocal : url.URL := ⟨"http", "", none, "localhost:8080", "", "", false, false, "", "", ""⟩

/-- The request `Delete` builds for the account `account-id` against
`http://localhost:8080`. -/
def deleteRequest : http.Request :=
  { Method := "DELETE",
    URL := { baseLocal with Path := "/v1/organisation/accounts/account-id",
                            RawQuery := "version=0" },
    Host := "localhost:8080",
    Header := [("Content-Type", [contentType]), ("Accept", [contentType])],
    Body := "" }

/-- The base URL `http://coolurl.com` of `TestNewRequest`. -/
def baseCool : url.URL := ⟨"http", "", none, "coolurl.com", "", "", false, false, "", "", ""⟩

/-- The request body `TestNewRequest` expects for `foo{A: "B"}`. -/
def bodyOfTestNewRequest : String := "\x7b\"data\":\x7b\"A\":\"B\"\x7d\x7d\n"

/-- The account of `TestAccountService_CreateRequest`. -/
def accountOfTest : models.Account :=
  { Attributes := { models.AccountAttributes.zero with AccountNumber := "1234", Country := "GB" },
    ID := "account-id", OrganisationID := "organisation-id", Type_ := "account-type",
    Version := 0 }

/-- The request body `TestAccountService_CreateRequest` expects, with the
newline the test cuts off. -/
def bodyOfTestCreate : String :=
  "\x7b\"data\":\x7b\"attributes\":\x7b\"country\":\"GB\",\"account_number\":\"1234\"\x7d," ++
  "\"id\":\"account-id\",\"organisation_id\":\"organisation-id\"," ++
  "\"type\":\"account-type\",\"version\":0\x7d\x7d\n"

namespace url

/-- The characters `QueryEscape` writes: letters, digits and `- _ . ~ + %`. -/
def isQueryChar (c : Char) : Bool :=
  isAlpha c || isDigit c || "-_.~+%".data.contains c

/-- The text is a byte string: every character stands for one byte. -/
def isBytes (s : List Char) : Prop := ∀ c ∈ s, c.toNat < 256

/-- A map as `ParseQuery` builds it: no key twice, no key without a
value, keys and values byte strings. -/
structure Values.WellFormed (m : Values) : Prop where
  nodup : (m.map Prod.fst).Nodup
  nonempty : ∀ e ∈ m, e.2 ≠ []
  bytes : ∀ e ∈ m, isBytes e.1.data ∧ ∀ v ∈ e.2, isBytes v.data

/-- The text `key=value` that `Encode` writes for one value. -/
def encodePair (k v : String) : List Char := QueryEscape k ++ '=' :: QueryEscape v

end url

namespace url

/-- The characters of a plain path: letters, digits, `- _ . ~` and the
slash. -/
def isPathChar (c : Char) : Bool :=
  isAlpha c || isDigit c || c == '-' || c == '_' || c == '.' || c == '~' || c == '/'

/-- A plain path: plain characters only and no element `.` or `..`. -/
def isPlainPath (s : List Char) : Bool :=
  s.all isPathChar && (splitSlash s).all fun e => e != ['.'] && e != ['.', '.']

/-- The characters of a plain host name: letters, digits, `-` and `.`. -/
def isHostChar (c : Char) : Bool := isAlpha c || isDigit c || c == '-' || c == '.'

/-- A plain host: a non-empty name of plain characters, alone or followed
by a colon and a non-empty decimal port. -/
def isPlainHost (h : List Char) : Bool :=
  !(cut ':' h).1.isEmpty && (cut ':' h).1.all isHostChar &&
    (if (cut ':' h).2.2 then !(cut ':' h).2.1.isEmpty && (cut ':' h).2.1.all isDigit else true)

/-- The path `resolvePath` gives for a plain reference against a plain
base path: the reference when it begins with a slash, else the base path
up to its last slash followed by the reference. -/
def joinPath (base ref : List Char) : List Char :=
  if ref.head? == some '/' then ref
  else
    match cutLast '/' base with
    | some (before, _) => before ++ '/' :: ref
    | none => '/' :: ref

/-- The URL that holds a scheme, a host and a path and nothing else. -/
def plainURL (scheme host path : String) : URL :=
  ⟨scheme, "", none, host, path, "", false, false, "", "", ""⟩

end url

namespace json

/-- The scanner and the decoder read the text `t`, met where a value of
an object or an array is due and at most `d` levels deep, as the value `v`:
they end in a state in which a following `,`, `}` or `]` ends the value,
and the decoder then holds `v` with the bytes `t`. -/
def Reads (d : Nat) (t : List Char) (v : JValue) : Prop :=
  ∀ (et : Bool) (ps : List ParseState) (err : Option String) (st : List Frame)
    (tp : Option JValue) (rest : List Char),
    ps ≠ [] → ps.length + d ≤ maxNestingDepth →
    ∃ (stp : Step) (b1 : Builder),
      scanBuild ⟨.beginValue, et, ps, err⟩ ⟨[], st, tp⟩ (t ++ rest) =
        scanBuild ⟨stp, et, ps, err⟩ b1 rest ∧
      (∀ c, c = ',' ∨ c = '}' ∨ c = ']' →
        Scanner.next ⟨stp, et, ps, err⟩ c = stateEndValue ⟨stp, et, ps, err⟩ c) ∧
      b1.endLiteral = Builder.attach ⟨[], st, tp⟩ v t

/-- A name the encoder writes as it is: ASCII characters that need no
escape. -/
def isPlainName (name : String) : Bool :=
  name.data.all fun c => c.toNat < 128 && htmlSafe c

/-- The text of one member of an object as the encoder writes it. -/
def memberText (m : String × String × JValue) : List Char :=
  '"' :: (m.1.data ++ '"' :: ':' :: m.2.1.data)

/-- The text of an object with the given members as the encoder writes
it. -/
def objectText (ms : Members) : List Char :=
  '\x7b' :: (List.intercalate [','] (ms.map memberText) ++ ['\x7d'])

/-- The members the decoder reads from what the encoder wrote for the
fields of a struct, each field given with the value its text stands for. -/
def membersOf (fields : List (FieldText × JValue)) : Members :=
  (fields.filter fun p => !p.1.omitted).map fun p => (p.1.name, p.1.text, p.2)

end json

namespace models

/-- The fields of an `AccountAttributes` as the encoder writes them, each
with the JSON value its text stands for. -/
def AccountAttributes.parsed (a : AccountAttributes) : List (json.FieldText × json.JValue) :=
  [(⟨"country", false, json.encodeString a.Country⟩, .string a.Country),
   (⟨"base_currency", a.BaseCurrency == "", json.encodeString a.BaseCurrency⟩, .string a.BaseCurrency),
   (⟨"account_number", a.AccountNumber == "", json.encodeString a.AccountNumber⟩, .string a.AccountNumber),
   (⟨"bank_id", a.BankID == "", json.encodeString a.BankID⟩, .string a.BankID),
   (⟨"bank_id_code", a.BankIDCode == "", json.encodeString a.BankIDCode⟩, .string a.BankIDCode),
   (⟨"bic", a.Bic == "", json.encodeString a.Bic⟩, .string a.Bic),
   (⟨"iban", a.Iban == "", json.encodeString a.Iban⟩, .string a.Iban),
   (⟨"title", a.Title == "", json.encodeString a.Title⟩, .string a.Title),
   (⟨"first_name", a.FirstName == "", json.encodeString a.FirstName⟩, .string a.FirstName),
   (⟨"bank_account_name", a.BankAccountName == "", json.encodeString a.BankAccountName⟩, .string a.BankAccountName),
   (⟨"alternative_bank_account_names", (a.AlternativeBankAccountNames.getD []).isEmpty,
     json.encodeStrings a.AlternativeBankAccountNames⟩,
    .array ((a.AlternativeBankAccountNames.getD []).map .string)),
   (⟨"account_classification", a.AccountClassification == "", json.encodeString a.AccountClassification⟩, .string a.AccountClassification),
   (⟨"joint_account", !a.JointAccount, json.encodeBool a.JointAccount⟩, .bool a.JointAccount),
   (⟨"account_matching_opt_out", !a.AccountMatchingOptOut, json.encodeBool a.AccountMatchingOptOut⟩, .bool a.AccountMatchingOptOut),
   (⟨"secondary_identification", a.SecondaryIdentification == "", json.encodeString a.SecondaryIdentification⟩, .string a.SecondaryIdentification)]

/-- The fields of an `Account` as the encoder writes them, each with the
JSON value its text stands for. -/
def Account.parsed (a : Account) : List (json.FieldText × json.JValue) :=
  [(⟨"attributes", false, json.encodeStruct a.Attributes.fields⟩,
    .object (json.membersOf a.Attributes.parsed)),
   (⟨"id", false, json.encodeString a.ID⟩, .string a.ID),
   (⟨"organisation_id", false, json.encodeString a.OrganisationID⟩, .string a.OrganisationID),
   (⟨"type", false, json.encodeString a.Type_⟩, .string a.Type_),
   (⟨"version", false, fmt.decimal a.Version⟩, .number (fmt.decimal a.Version))]

end models

/-- An account whose slice of alternative names is `[]string{}`, empty
without being nil; every other field is zero. -/
def accountWithEmptyNames : models.Account :=
  { models.Account.zero with
    Attributes := { models.AccountAttributes.zero with AlternativeBankAccountNames := some [] } }

/-- The request body `NewRequest` writes for `accountWithEmptyNames`, which
is the one it writes for the zero account. -/
def bodyOfEmptyNames : String :=
  "\x7b\"data\":\x7b\"attributes\":\x7b\"country\":\"\"\x7d," ++
  "\"id\":\"\",\"organisation_id\":\"\",\"type\":\"\",\"version\":0\x7d\x7d\n"

/-- The request `NewRequest` builds for `POST v1/organisation/accounts`
against `http://coolurl.com` with the body `accountWithEmptyNames`. -/
def requestOfEmptyNames : http.Request :=
  { Method := "POST",
    URL := { baseCool with Path := "/v1/organisation/accounts" },
    Host := "coolurl.com",
    Header := [("Content-Type", [contentType]), ("Accept", [contentType])],
    Body := bodyOfEmptyNames }

namespace url

/-- The characters a query text may hold for `url.Parse` to take it as the
query: every character but the control characters and `#`. -/
def isQueryTextChar (c : Char) : Bool := !(c.toNat < 32 || c.toNat == 127) && c != '#'

/-- The text of a reference made of a path and, when a query is given, of
`?` and the query. -/
def refText (path : String) (query : Option String) : String :=
  match query with
  | none => path
  | some q => ⟨path.data ++ '?' :: q.data⟩

/-- A lower-case letter. -/
def isLower (c : Char) : Bool := 97 ≤ c.toNat && c.toNat ≤ 122

/-- A scheme as `url.Parse` gives it: a lower-case letter followed by
lower-case letters, digits, `+`, `-` and `.`. -/
def isLowerScheme (s : List Char) : Bool :=
  match s with
  | [] => false
  | c :: cs => isLower c && cs.all fun d => isLower d || isDigit d || d == '+' || d == '-' || d == '.'

/-- The URL that holds a scheme, a host, a path and the query of a
reference with that query, and nothing else: `ForceQuery` is set for the
empty query. -/
def queryURL (scheme host path : String) (query : Option String) : URL :=
  ⟨scheme, "", none, host, path, "", false, query == some "", query.getD "", "", ""⟩

end url

/-! # Theorems -/

/-! ## Properties of the `strconv` model -/

namespace strconv

theorem digitsValue_ge (cs : List Char) (n : Nat) : n ≤ digitsValue cs n := by
  induction cs generalizing n with
  | nil => simp [digitsValue]
  | cons c cs ih =>
    have h := ih (n * 10 + (c.toNat - 48))
    simp only [digitsValue, List.foldl_cons] at h ⊢
    omega

theorem digit?_eq_some {c : Char} {d : Nat} (h : digit? c = some d) : d = c.toNat - 48 := by
  unfold digit? at h
  split at h
  · exact (Option.some.inj h).symm
  · cases h

/-- The digit loop succeeds exactly on digit-only text whose value fits
`uint64`, and then yields that value. -/
theorem parseUintLoop_ok_iff (cs : List Char) (n v : Nat) (hn : n ≤ maxUint64) :
    parseUintLoop cs n = .ok v ↔
      (cs.all fun d => (digit? d).isSome) = true ∧ digitsValue cs n = v ∧ v ≤ maxUint64 := by
  induction cs generalizing n with
  | nil =>
    simp only [parseUintLoop, Except.ok.injEq, List.all_nil, digitsValue, List.foldl_nil,
      true_and]
    constructor
    · intro h; exact ⟨h, h ▸ hn⟩
    · intro h; exact h.1
  | cons c cs ih =>
    unfold parseUintLoop
    cases hd : digit? c with
    | none => simp [hd]
    | some d =>
      have hd' := digit?_eq_some hd
      simp only [List.all_cons, hd, Option.isSome_some, Bool.true_and, digitsValue,
        List.foldl_cons]
      have hmono := digitsValue_ge cs (n * 10 + (c.toNat - 48))
      simp only [digitsValue] at hmono
      have hc : maxUint64 / 10 + 1 = 1844674407370955162 := by decide
      have hm : maxUint64 = 18446744073709551615 := by decide
      subst hd'
      by_cases h1 : n ≥ maxUint64 / 10 + 1
      · simp only [h1, ↓reduceIte, reduceCtorEq, false_iff, not_and, not_le]
        intro _ hv
        omega
      · simp only [h1, ↓reduceIte]
        by_cases h2 : n * 10 + (c.toNat - 48) > maxUint64
        · simp only [h2, ↓reduceIte, reduceCtorEq, false_iff, not_and, not_le]
          intro _ hv
          omega
        · simp only [h2, ↓reduceIte]
          rw [ih _ (by omega)]
          simp [digitsValue]

theorem ParseUint_ok_iff (ds : List Char) (v : Nat) :
    ParseUint ds = .ok v ↔
      ds ≠ [] ∧ (ds.all fun d => (digit? d).isSome) = true ∧ digitsValue ds 0 = v
        ∧ v ≤ maxUint64 := by
  cases ds with
  | nil => simp [ParseUint]
  | cons c cs =>
    simp only [ParseUint, ne_eq, reduceCtorEq, not_false_eq_true, true_and]
    exact parseUintLoop_ok_iff (c :: cs) 0 v (Nat.zero_le _)

/-- What `ParseInt` does with the digits left after the sign. -/
theorem ParseInt_cons (c : Char) (rest : List Char) :
    ParseInt (c :: rest) =
      match ParseUint (if c == '+' ∨ c == '-' then rest else c :: rest) with
      | .error .invalid => (0, some .invalid)
      | .error .range => (if (c == '-') = true then minInt else maxInt, some .range)
      | .ok un =>
        if !(c == '-') ∧ un ≥ 2 ^ (intSize - 1) then (maxInt, some .range)
        else if (c == '-') = true ∧ un > 2 ^ (intSize - 1) then (minInt, some .range)
        else (if (c == '-') = true then -(un : Int) else (un : Int), none) := by
  rfl

/-- `ParseInt` succeeds with `n` exactly when the digits after the sign
parse to an unsigned `un` with `n = ±un` inside the `int` range. -/
theorem ParseInt_ok_iff (c : Char) (rest : List Char) (n : Int) :
    ParseInt (c :: rest) = (n, none) ↔
      ∃ un, ParseUint (if c == '+' ∨ c == '-' then rest else c :: rest) = .ok un ∧
        n = (if (c == '-') = true then -(un : Int) else (un : Int)) ∧
        minInt ≤ n ∧ n ≤ maxInt := by
  rw [ParseInt_cons]
  have hmin : minInt = -9223372036854775808 := by decide
  have hmax : maxInt = 9223372036854775807 := by decide
  have hpow : (2 : Nat) ^ (intSize - 1) = 9223372036854775808 := by decide
  cases hp : ParseUint (if c == '+' ∨ c == '-' then rest else c :: rest) with
  | error e => cases e <;> simp
  | ok un =>
    simp only [hpow, Except.ok.injEq, exists_eq_left']
    by_cases hneg : (c == '-') = true
    · simp only [hneg, Bool.not_true, Bool.false_eq_true, false_and, ↓reduceIte, true_and]
      by_cases h : un > 9223372036854775808
      · simp only [h, ↓reduceIte, Prod.mk.injEq, reduceCtorEq, and_false, false_iff]
        omega
      · simp only [h, ↓reduceIte, Prod.mk.injEq, and_true]
        constructor
        · intro h'; subst h'; omega
        · intro h'; exact h'.1.symm
    · simp only [Bool.not_eq_true] at hneg
      simp only [hneg, Bool.not_false, true_and, false_and, ↓reduceIte, Bool.false_eq_true]
      by_cases h : un ≥ 9223372036854775808
      · simp only [h, ↓reduceIte, Prod.mk.injEq, reduceCtorEq, and_false, false_iff]
        omega
      · simp only [h, ↓reduceIte, Prod.mk.injEq, and_true]
        constructor
        · intro h'; subst h'; omega
        · intro h'; exact h'.1.symm

/-- `Atoi` returns `n` without error exactly for the decimal integer
texts whose value `n` lies in the `int` range. -/
theorem Atoi_ok_iff (s : String) (n : Int) :
    Atoi s = (n, none) ↔
      isDecimalInteger s = true ∧ decimalValue s = n ∧ minInt ≤ n ∧ n ≤ maxInt := by
  have hA : Atoi s = (n, none) ↔ ParseInt s.data = (n, none) := by
    unfold Atoi
    rcases hp : ParseInt s.data with ⟨i, _ | e⟩ <;> simp
  rw [hA]
  unfold isDecimalInteger decimalValue
  cases hs : s.data with
  | nil => simp [ParseInt]
  | cons c rest =>
    rw [ParseInt_ok_iff]
    simp only [ParseUint_ok_iff]
    have hm : maxUint64 = 18446744073709551615 := by decide
    have hmax : maxInt = 9223372036854775807 := by decide
    by_cases hneg : c = '-'
    · subst hneg
      simp only [beq_self_eq_true, or_true, ↓reduceIte, ne_eq, List.isEmpty_eq_true,
        Bool.and_eq_true, Bool.not_eq_true', decide_eq_false_iff_not]
      constructor
      · rintro ⟨un, ⟨h1, h2, h3, _⟩, h5, h6, h7⟩
        exact ⟨⟨by simpa using h1, h2⟩, by rw [h3, h5], h6, h7⟩
      · rintro ⟨⟨h1, h2⟩, h3, h4, h5⟩
        refine ⟨digitsValue rest 0, ⟨by simpa using h1, h2, rfl, ?_⟩, h3.symm, h4, h5⟩
        have : minInt = -9223372036854775808 := by decide
        omega
    · have hneg' : (c == '-') = false := by simpa using hneg
      by_cases hpos : c = '+'
      · subst hpos
        simp only [beq_self_eq_true, true_or, ↓reduceIte, ne_eq, hneg', Bool.false_eq_true,
          List.isEmpty_eq_true, Bool.and_eq_true, Bool.not_eq_true', decide_eq_false_iff_not]
        constructor
        · rintro ⟨un, ⟨h1, h2, h3, _⟩, h5, h6, h7⟩
          exact ⟨⟨by simpa using h1, h2⟩, by rw [h3, h5], h6, h7⟩
        · rintro ⟨⟨h1, h2⟩, h3, h4, h5⟩
          refine ⟨digitsValue rest 0, ⟨by simpa using h1, h2, rfl, ?_⟩, h3.symm, h4, h5⟩
          omega
      · have hpos' : (c == '+') = false := by simpa using hpos
        simp only [hpos', hneg', Bool.false_eq_true, or_self, ↓reduceIte, ne_eq, reduceCtorEq,
          not_false_eq_true, true_and, List.isEmpty_cons, Bool.not_false, Bool.true_and]
        constructor
        · rintro ⟨un, ⟨h2, h3, _⟩, h5, h6, h7⟩
          exact ⟨h2, by rw [h3, h5], h6, h7⟩
        · rintro ⟨h2, h3, h4, h5⟩
          refine ⟨digitsValue (c :: rest) 0, ⟨h2, rfl, ?_⟩, h3.symm, h4, h5⟩
          omega

end strconv

/-! ## Properties of the `fmt` model -/

namespace fmt

theorem digit?_digitChar (d : Nat) (h : d < 10) :
    strconv.digit? (Nat.digitChar d) = some d := by
  interval_cases d <;> rfl

/-- The digits `Nat.toDigitsCore` puts in front of `ds` are decimal digits
and denote `n`. -/
theorem toDigitsCore_spec (fuel n : Nat) (ds : List Char) (hf : n < fuel) :
    ∃ pre : List Char, Nat.toDigitsCore 10 fuel n ds = pre ++ ds ∧ pre ≠ [] ∧
      (pre.all fun d => (strconv.digit? d).isSome) = true ∧
      ∀ a, strconv.digitsValue pre a = a * 10 ^ pre.length + n := by
  induction fuel generalizing n ds with
  | zero => omega
  | succ fuel ih =>
    unfold Nat.toDigitsCore
    have hd := digit?_digitChar (n % 10) (Nat.mod_lt _ (by decide))
    have hv := strconv.digit?_eq_some hd
    by_cases h0 : n / 10 = 0
    · simp only [h0, ↓reduceIte]
      refine ⟨[Nat.digitChar (n % 10)], rfl, by simp, by simp [hd], fun a => ?_⟩
      simp only [strconv.digitsValue, List.foldl_cons, List.foldl_nil, List.length_singleton,
        pow_one]
      omega
    · simp only [h0, ↓reduceIte]
      obtain ⟨pre, hpre, hne, hall, hval⟩ := ih (n / 10) (Nat.digitChar (n % 10) :: ds)
        (by omega)
      refine ⟨pre ++ [Nat.digitChar (n % 10)], by simp [hpre], by simp, ?_, fun a => ?_⟩
      · simp [hall, hd]
      · have := hval a
        simp only [strconv.digitsValue] at this ⊢
        rw [List.foldl_append, this]
        simp only [List.foldl_cons, List.foldl_nil, List.length_append, List.length_singleton,
          pow_succ]
        have hsplit : n = n / 10 * 10 + n % 10 := by omega
        nlinarith [hsplit]

/-- The decimal text of a natural number: digits only, at least one,
denoting the number. -/
theorem toDigits_spec (n : Nat) :
    Nat.toDigits 10 n ≠ [] ∧
    ((Nat.toDigits 10 n).all fun d => (strconv.digit? d).isSome) = true ∧
    strconv.digitsValue (Nat.toDigits 10 n) 0 = n := by
  obtain ⟨pre, hpre, hne, hall, hval⟩ := toDigitsCore_spec (n + 1) n [] (by omega)
  unfold Nat.toDigits
  rw [hpre, List.append_nil]
  exact ⟨hne, hall, by simpa using hval 0⟩

/-- What `%d` prints is the decimal integer text that `strconv.Atoi` reads
back as the same `int`. -/
theorem Atoi_decimal (i : Int) (h1 : minInt ≤ i) (h2 : i ≤ maxInt) :
    strconv.Atoi (decimal i) = (i, none) := by
  rw [strconv.Atoi_ok_iff]
  obtain ⟨hne, hall, hval⟩ := toDigits_spec i.natAbs
  refine ⟨?_, ?_, h1, h2⟩
  · unfold decimal strconv.isDecimalInteger
    by_cases hneg : i < 0
    · simp only [hneg, ↓reduceIte, beq_self_eq_true, or_true]
      simp [hall, hne]
    · simp only [hneg, ↓reduceIte]
      rcases hd : Nat.toDigits 10 i.natAbs with _ | ⟨c, rest⟩
      · exact absurd hd hne
      · rw [hd] at hall
        have hc : (strconv.digit? c).isSome = true := by
          simp only [List.all_cons, Bool.and_eq_true] at hall
          exact hall.1
        have hplus : (c == '+') = false := by
          rw [beq_eq_false_iff_ne]
          intro hx; subst hx; revert hc; decide
        have hminus : (c == '-') = false := by
          rw [beq_eq_false_iff_ne]
          intro hx; subst hx; revert hc; decide
        simp only [hplus, hminus, Bool.false_eq_true, or_self, ↓reduceIte, List.isEmpty_cons,
          Bool.not_false, Bool.true_and]
        exact hall
  · unfold decimal strconv.decimalValue
    by_cases hneg : i < 0
    · simp only [hneg, ↓reduceIte, beq_self_eq_true]
      rw [hval]
      omega
    · simp only [hneg, ↓reduceIte]
      rcases hd : Nat.toDigits 10 i.natAbs with _ | ⟨c, rest⟩
      · exact absurd hd hne
      · rw [hd] at hall hval
        have hc : (strconv.digit? c).isSome = true := by
          simp only [List.all_cons, Bool.and_eq_true] at hall
          exact hall.1
        have hplus : (c == '+') = false := by
          rw [beq_eq_false_iff_ne]
          intro hx; subst hx; revert hc; decide
        have hminus : (c == '-') = false := by
          rw [beq_eq_false_iff_ne]
          intro hx; subst hx; revert hc; decide
        simp only [hplus, hminus, Bool.false_eq_true, ↓reduceIte]
        rw [hval]
        omega

end fmt

/-! ## Properties of the `encoding/json` model -/

namespace json

/-- The decoder is driven by the scanner: run together, the scanner ends in
the state `scanAll` gives, or with the same error. -/
theorem scanBuild_scanner (s : Scanner) (b : Builder) (cs : List Char) :
    (scanBuild s b cs).map Prod.fst = scanAll s cs := by
  induction cs generalizing s b with
  | nil => rfl
  | cons c cs ih =>
    unfold scanBuild scanAll
    rcases h : s.next c with ⟨s1, op⟩
    cases op <;> simp only [h] <;> first | rfl | exact ih _ _

/-- `parse` fails exactly when `checkValid` reports an error, and with
that error. -/
theorem parse_error_iff (data : String) (e : GoError) :
    parse data = .error e ↔ checkValid data = some e := by
  unfold parse checkValid
  have h := scanBuild_scanner Scanner.reset ⟨[], [], none⟩ data.data
  rcases hb : scanBuild Scanner.reset ⟨[], [], none⟩ data.data with err | ⟨s, b⟩
  · rw [hb] at h
    simp only [Except.map] at h
    rw [← h]
    simp
  · rw [hb] at h
    simp only [Except.map] at h
    rw [← h]
    simp only
    cases he : s.eof with
    | some e2 => simp
    | none =>
      simp only
      cases (if s.endTop = true then b.endLiteral else b.next ' ' (s.next ' ').2).top <;> simp

/-- Whenever `checkValid` accepts the data, `parse` yields a value. -/
theorem parse_ok_of_checkValid (data : String) (h : checkValid data = none) :
    ∃ v, parse data = .ok v := by
  cases hp : parse data with
  | ok v => exact ⟨v, rfl⟩
  | error e =>
    rw [(parse_error_iff data e).1 hp] at h
    cases h

end json

/-! ## Pagination links (`response.go`) -/

theorem wrapInt_of_range (x : Int) (h1 : minInt ≤ x) (h2 : x ≤ maxInt) : wrapInt x = x := by
  have hmin : minInt = -9223372036854775808 := by decide
  have hmax : maxInt = 9223372036854775807 := by decide
  have hp1 : (2 : Int) ^ (intSize - 1) = 9223372036854775808 := by decide
  have hp2 : (2 : Int) ^ intSize = 18446744073709551616 := by decide
  unfold wrapInt
  rw [hp1, hp2]
  omega

/-- `pageForURL` succeeds with `N` exactly when the text parses as a
request URI and `Atoi` accepts the first `page[number]` value as `N`. -/
theorem pageForURL_ok_iff (urlText : String) (N : Int) :
    pageForURL urlText = (N, none) ↔
      ∃ u, url.ParseRequestURI urlText = .ok u ∧
        strconv.Atoi (u.Query.Get "page[number]") = (N, none) := by
  unfold pageForURL
  cases hp : url.ParseRequestURI urlText with
  | error e => simp
  | ok u =>
    simp only [Except.ok.injEq, exists_eq_left']
    rcases ha : strconv.Atoi (u.Query.Get "page[number]") with ⟨i, _ | e⟩ <;> simp

/-- On failure `pageForURL` returns the page `0`. -/
theorem pageForURL_err_zero (urlText : String) (h : (pageForURL urlText).2 ≠ none) :
    (pageForURL urlText).1 = 0 := by
  unfold pageForURL at h ⊢
  cases hp : url.ParseRequestURI urlText with
  | error e => rfl
  | ok u =>
    simp only [hp] at h ⊢
    rcases ha : strconv.Atoi (u.Query.Get "page[number]") with ⟨i, _ | e⟩
    · simp [ha] at h
    · rfl

/-- With a non-empty `Prev`, `CurrentPage` is `pageForURL` of `Prev` with
one added to a page found. -/
theorem CurrentPage_of_prev (l : Links) (hprev : l.Prev ≠ "") :
    Links.CurrentPage (some l) =
      match pageForURL l.Prev with
      | (_, some err) => (0, some err)
      | (prevPage, none) => (wrapInt (prevPage + 1), none) := by
  simp [Links.CurrentPage, hprev]

/-- C1 (amended).  For every Links whose Prev is non-empty and is parsed by
`pageForURL` to the integer `N` (so `url.ParseRequestURI` succeeds and the
first `page[number]` value is the decimal integer `N`), `CurrentPage`
returns `N + 1` with no error when `N` is below the largest `int`,
whatever the other four links hold; at the largest `int` the addition
wraps around and the result is the smallest `int`. -/
theorem currentPage_prev_succ (l : Links) (N : Int) (hprev : l.Prev ≠ "")
    (hpage : pageForURL l.Prev = (N, none)) :
    (∃ u, url.ParseRequestURI l.Prev = .ok u ∧
      strconv.isDecimalInteger (u.Query.Get "page[number]") = true ∧
      strconv.decimalValue (u.Query.Get "page[number]") = N) ∧
    (N < maxInt → Links.CurrentPage (some l) = (N + 1, none)) ∧
    (N = maxInt → Links.CurrentPage (some l) = (minInt, none)) := by
  obtain ⟨u, hu, ha⟩ := (pageForURL_ok_iff _ _).1 hpage
  obtain ⟨hdec, hval, hlo, hhi⟩ := (strconv.Atoi_ok_iff _ _).1 ha
  refine ⟨⟨u, hu, hdec, hval⟩, ?_, ?_⟩
  · intro hlt
    rw [CurrentPage_of_prev l hprev, hpage]
    simp only
    rw [wrapInt_of_range (N + 1) (by omega) (by omega)]
  · intro heq
    rw [CurrentPage_of_prev l hprev, hpage]
    subst heq
    decide

/-- C1, witness: the previous link of page 3 in the repository's test. -/
theorem currentPage_prev_succ_witness :
    Links.CurrentPage (some ⟨"/subscriptions?page[number]=1&page[size]=2",
      "/subscriptions?page[number]=13&page[size]=2",
      "/subscriptions?page[number]=2&page[size]=2",
      "/subscriptions?page[number]=4&page[size]=2",
      "/subscriptions?page[number]=3&page[size]=2"⟩) = (2 + 1, none) :=
  (currentPage_prev_succ _ 2 (by decide) (by decide)).2.1 (by decide)

/-- C1, counterexample: a previous link naming page `2^63 - 1` parses to
that integer, and `CurrentPage` returns `-2^63`, not `2^63`. -/
theorem currentPage_prev_succ_overflow :
    (Links.mk "" "" "/x?page[number]=9223372036854775807" "" "").Prev ≠ "" ∧
    pageForURL "/x?page[number]=9223372036854775807" = (9223372036854775807, none) ∧
    Links.CurrentPage (some ⟨"", "", "/x?page[number]=9223372036854775807", "", ""⟩)
      = (-9223372036854775808, none) ∧
    Links.CurrentPage (some ⟨"", "", "/x?page[number]=9223372036854775807", "", ""⟩)
      ≠ (9223372036854775807 + 1, none) := by
  decide

/-- C2.  `CurrentPage` returns 1 with no error for the nil Links and for
every Links with an empty Prev and a non-empty Next, whatever First, Last
and Self hold. -/
theorem currentPage_first (l : Option Links)
    (h : l = none ∨ ∃ x, l = some x ∧ x.Prev = "" ∧ x.Next ≠ "") :
    Links.CurrentPage l = (1, none) := by
  rcases h with h | ⟨x, h, hp, hn⟩
  · subst h; rfl
  · subst h; simp [Links.CurrentPage, hp, hn]

/-- C2, witness: the nil Links and the first page of the repository's test. -/
theorem currentPage_first_witness :
    Links.CurrentPage none = (1, none) ∧
    Links.CurrentPage (some ⟨"/subscriptions?page[number]=1&page[size]=2",
      "/subscriptions?page[number]=13&page[size]=2", "",
      "/subscriptions?page[number]=2&page[size]=2",
      "/subscriptions?page[number]=1&page[size]=2"⟩) = (1, none) :=
  ⟨currentPage_first none (Or.inl rfl),
   currentPage_first _ (Or.inr ⟨_, rfl, by decide, by decide⟩)⟩

/-- C3.  `IsLastPage` is a total Boolean function: it is true exactly for
the nil Links and the Links with an empty Next, false for every Links with
a non-empty Next, and two Links with the same Next get the same answer
whatever their Prev, First, Last and Self. -/
theorem isLastPage_iff (l : Option Links) :
    (Links.IsLastPage l = true ↔ (l = none ∨ ∃ x, l = some x ∧ x.Next = "")) ∧
    (Links.IsLastPage l = false ↔ ∃ x, l = some x ∧ x.Next ≠ "") ∧
    (∀ x first last prev self, l = some x →
      Links.IsLastPage (some ⟨first, last, prev, x.Next, self⟩) = Links.IsLastPage l) := by
  cases l with
  | none => simp [Links.IsLastPage]
  | some x => simp [Links.IsLastPage]

/-- C5.  For every non-nil Links whose Prev and Next are both empty,
`CurrentPage` returns 0 with no error, whatever First, Last and Self hold;
for the nil Links it returns 1. -/
theorem currentPage_no_links (l : Links) (hp : l.Prev = "") (hn : l.Next = "") :
    Links.CurrentPage (some l) = (0, none) ∧ Links.CurrentPage none = (1, none) := by
  simp [Links.CurrentPage, hp, hn]

/-- C5, witness: a single-page result that carries only `self`. -/
theorem currentPage_no_links_witness :
    Links.CurrentPage (some ⟨"", "", "", "", "/accounts?page[number]=0"⟩) = (0, none) ∧
    Links.CurrentPage none = (1, none) :=
  currentPage_no_links ⟨"", "", "", "", "/accounts?page[number]=0"⟩ rfl rfl

theorem Values_Get_of_lookup_none (m : url.Values) (key : String)
    (h : m.lookup key = none) : m.Get key = "" := by
  simp [url.Values.Get, h]

/-- C4 (amended).  For every Links with a non-empty Prev, `CurrentPage`
fails exactly when Prev cannot be parsed as a request URI, or its
`page[number]` query parameter is absent, or the first value of that
parameter is not a decimal integer in the range of `int`; on every failure
the returned page is 0. -/
theorem currentPage_fails_iff (l : Links) (hprev : l.Prev ≠ "") :
    ((Links.CurrentPage (some l)).2 ≠ none ↔
      ((∃ e, url.ParseRequestURI l.Prev = .error e) ∨
       (∃ u, url.ParseRequestURI l.Prev = .ok u ∧
          (u.Query.lookup "page[number]" = none ∨
           ¬ (strconv.isDecimalInteger (u.Query.Get "page[number]") = true ∧
              minInt ≤ strconv.decimalValue (u.Query.Get "page[number]") ∧
              strconv.decimalValue (u.Query.Get "page[number]") ≤ maxInt))))) ∧
    ((Links.CurrentPage (some l)).2 ≠ none → (Links.CurrentPage (some l)).1 = 0) := by
  rw [CurrentPage_of_prev l hprev]
  have hzero := pageForURL_err_zero l.Prev
  have hiff := pageForURL_ok_iff l.Prev
  rcases hpg : pageForURL l.Prev with ⟨n, _ | e⟩
  · -- `pageForURL` succeeded
    obtain ⟨u, hu, ha⟩ := (hiff n).1 hpg
    obtain ⟨hdec, hval, hlo, hhi⟩ := (strconv.Atoi_ok_iff _ _).1 ha
    refine ⟨?_, by simp⟩
    simp only [ne_eq, not_true_eq_false, false_iff, not_or, not_exists]
    refine ⟨fun e he => (by rw [hu] at he; cases he), fun u2 hu2 => ?_⟩
    rw [hu] at hu2
    obtain ⟨h1, h2⟩ := hu2
    cases h1
    rcases h2 with h2 | h2
    · rw [Values_Get_of_lookup_none _ _ h2] at hdec
      exact absurd hdec (by decide)
    · exact h2 ⟨hdec, by rw [hval]; exact hlo, by rw [hval]; exact hhi⟩
  · -- `pageForURL` failed
    refine ⟨?_, fun _ => rfl⟩
    simp only [ne_eq, reduceCtorEq, not_false_eq_true, true_iff]
    cases hu : url.ParseRequestURI l.Prev with
    | error e2 => exact Or.inl ⟨e2, rfl⟩
    | ok u =>
      refine Or.inr ⟨u, rfl, Or.inr ?_⟩
      rintro ⟨hdec, hlo, hhi⟩
      have ha := (strconv.Atoi_ok_iff (u.Query.Get "page[number]") _).2 ⟨hdec, rfl, hlo, hhi⟩
      have := (hiff _).2 ⟨u, hu, ha⟩
      rw [hpg] at this
      cases this

/-- C4, witness: the two failing previous links of the repository's test,
a text that is no request URI and a link without `page[number]`. -/
theorem currentPage_fails_iff_witness :
    ((Links.CurrentPage (some ⟨"", "", "some-malformed-url", "", ""⟩)).2 ≠ none ∧
     (Links.CurrentPage (some ⟨"", "", "some-malformed-url", "", ""⟩)).1 = 0) ∧
    ((Links.CurrentPage (some ⟨"", "", "/subscriptions?page[size]=2", "", ""⟩)).2 ≠ none ∧
     (Links.CurrentPage (some ⟨"", "", "/subscriptions?page[size]=2", "", ""⟩)).1 = 0) :=
  have h1 := currentPage_fails_iff ⟨"", "", "some-malformed-url", "", ""⟩ (by decide)
  have h2 := currentPage_fails_iff ⟨"", "", "/subscriptions?page[size]=2", "", ""⟩ (by decide)
  have f1 := h1.1.2 (Or.inl ⟨_, rfl⟩)
  have f2 := h2.1.2 (Or.inr ⟨_, rfl, Or.inl (by decide)⟩)
  ⟨⟨f1, h1.2 f1⟩, ⟨f2, h2.2 f2⟩⟩

/-- C4, counterexample: the previous link parses as a request URI and its
`page[number]` parameter is present and is a decimal integer, `2^63`, yet
`CurrentPage` fails, because the integer does not fit `int`. -/
theorem currentPage_fails_on_big_integer :
    (∃ u, url.ParseRequestURI "/x?page[number]=9223372036854775808" = .ok u ∧
      u.Query.lookup "page[number]" = some ["9223372036854775808"] ∧
      strconv.isDecimalInteger (u.Query.Get "page[number]") = true ∧
      strconv.decimalValue (u.Query.Get "page[number]") = 9223372036854775808) ∧
    Links.CurrentPage (some ⟨"", "", "/x?page[number]=9223372036854775808", "", ""⟩) =
      (0, some (.num "Atoi" "9223372036854775808" "value out of range")) :=
  ⟨⟨_, rfl, by decide, by decide, by decide⟩, by decide⟩

/-! ## Error classification (`client.go`, `response.go`) -/

/-- C6.  For a response with status code `c` and any body, `checkResponse`
returns, without panic; the error it returns is nil exactly when
`200 <= c <= 299`, and for every other status code it is a non-nil
`*ErrorResponse`. -/
theorem checkResponse_nil_iff (codec : json.LibraryCodec) (c : Int) (body : Body) :
    ∃ e http, checkResponse codec ⟨c, some body⟩ = .ok (e, http) ∧
      (e = none ↔ 200 ≤ c ∧ c ≤ 299) ∧
      (¬ (200 ≤ c ∧ c ≤ 299) → ∃ errorResponse, e = some errorResponse) := by
  unfold checkResponse
  by_cases hc : 200 ≤ c ∧ c ≤ 299
  · exact ⟨none, ⟨c, some body⟩, by simp [hc], by simp [hc], fun h => absurd hc h⟩
  · simp only [hc, ↓reduceIte, false_iff]
    by_cases hd : (ReadAll body).2 = none ∧ (ReadAll body).1.length > 0
    · simp only [hd, and_self, ↓reduceIte]
      cases hu : (json.UnmarshalErrorResponse codec (ReadAll body).1
          { Response := some ⟨c, some body⟩, StatusCode := c, Code := "", Message := "" }
          ⟨c, some body⟩).err with
      | none => exact ⟨_, _, rfl, by simp, fun _ => ⟨_, rfl⟩⟩
      | some e => exact ⟨_, _, rfl, by simp, fun _ => ⟨_, rfl⟩⟩
    · simp only [hd, ↓reduceIte]
      exact ⟨_, _, rfl, by simp, fun _ => ⟨_, rfl⟩⟩

/-- For a status code outside 200..299 `checkResponse` decodes a body that
was read without error and is not empty, and returns the `ErrorResponse`
found, with the raw body as `Message` when decoding failed. -/
theorem checkResponse_decodes (codec : json.LibraryCodec) (c : Int) (data : String)
    (closeErr : Option IOError) (hc : ¬ (200 ≤ c ∧ c ≤ 299)) (hd : data ≠ "") :
    checkResponse codec ⟨c, some ⟨data, none, closeErr⟩⟩ =
      match (json.UnmarshalErrorResponse codec data
          ⟨some ⟨c, some ⟨data, none, closeErr⟩⟩, c, "", ""⟩
          ⟨c, some ⟨data, none, closeErr⟩⟩) with
      | ⟨e, http, some _⟩ => .ok (some { e with Message := data }, http)
      | ⟨e, http, none⟩ => .ok (some e, http) := by
  have hlen : data.length > 0 := by
    rcases data with ⟨_ | ⟨x, xs⟩⟩
    · exact absurd rfl hd
    · simp [String.length]
  simp only [checkResponse, hc, ↓reduceIte, ReadAll, hlen, and_self]
  rcases json.UnmarshalErrorResponse codec data
      ⟨some ⟨c, some ⟨data, none, closeErr⟩⟩, c, "", ""⟩
      ⟨c, some ⟨data, none, closeErr⟩⟩ with ⟨e, http, _ | err⟩ <;> rfl

/-- Where C8 holds: for a status code outside 200..299, a body that cannot
be read, is empty, is not valid JSON, or is a JSON value other than an
object or `null` gives the `ErrorResponse` with the HTTP status, an empty
`Code` and the raw body (the empty text when the body could not be read)
as `Message`. -/
theorem checkResponse_raw_message (codec : json.LibraryCodec) (c : Int) (body : Body)
    (hc : ¬ (200 ≤ c ∧ c ≤ 299))
    (h : body.readErr ≠ none ∨ body.data = "" ∨ (∃ e, json.parse body.data = .error e) ∨
      (∃ v, json.parse body.data = .ok v ∧ (∀ ms, v ≠ .object ms) ∧ v ≠ .null)) :
    checkResponse codec ⟨c, some body⟩ =
      .ok (some ⟨some ⟨c, some body⟩, c, "", if body.readErr = none then body.data else ""⟩,
           ⟨c, some body⟩) := by
  rcases body with ⟨data, readErr, closeErr⟩
  cases readErr with
  | some e => simp [checkResponse, hc, ReadAll]
  | none =>
    by_cases hd : data = ""
    · subst hd
      simp [checkResponse, hc, ReadAll]
    · rw [checkResponse_decodes codec c data closeErr hc hd]
      rcases h with h | h | ⟨e, h⟩ | ⟨v, h, hobj, hnull⟩
      · exact absurd rfl h
      · exact absurd h hd
      · simp only at h
        simp [json.UnmarshalErrorResponse, h]
      · simp only at h
        cases v with
        | null => exact absurd rfl hnull
        | object ms => exact absurd rfl (hobj ms)
        | bool b => simp [json.UnmarshalErrorResponse, h, json.decodeErrorResponse, json.saveError]
        | number l => simp [json.UnmarshalErrorResponse, h, json.decodeErrorResponse, json.saveError]
        | string l => simp [json.UnmarshalErrorResponse, h, json.decodeErrorResponse, json.saveError]
        | array l => simp [json.UnmarshalErrorResponse, h, json.decodeErrorResponse, json.saveError]

/-- Members none of whose keys selects the field `Response` or the field
`StatusCode` leave both as they are, and decoding runs to the end. -/
theorem decodeErrorMembers_keeps (codec : json.LibraryCodec) (ms : json.Members)
    (st : json.Decoding ErrorResponse)
    (h : ∀ m ∈ ms,
      json.findField ["Response", "StatusCode", "error_code", "error_message"] m.1
          ≠ some "Response" ∧
      json.findField ["Response", "StatusCode", "error_code", "error_message"] m.1
          ≠ some "StatusCode") :
    (json.decodeErrorMembers codec ms st).2 = none ∧
    (json.decodeErrorMembers codec ms st).1.value.StatusCode = st.value.StatusCode ∧
    (json.decodeErrorMembers codec ms st).1.resp = st.resp := by
  induction ms generalizing st with
  | nil => simp [json.decodeErrorMembers]
  | cons m ms ih =>
    rcases m with ⟨key, raw, v⟩
    have hm := h (key, raw, v) (List.mem_cons_self _ _)
    have ih' := fun st' => ih st' (fun m' hm' => h m' (List.mem_cons_of_mem _ hm'))
    unfold json.decodeErrorMembers
    cases hf : json.findField ["Response", "StatusCode", "error_code", "error_message"] key with
    | none => exact ih' st
    | some field =>
      simp only [hf] at hm ⊢
      have h1 : (field == "Response") = false := by
        simpa using fun hx => hm.1 (by rw [hx])
      have h2 : (field == "StatusCode") = false := by
        simpa using fun hx => hm.2 (by rw [hx])
      simp only [h1, h2, Bool.false_eq_true, ↓reduceIte]
      split <;> exact ih' _

/-- Where the `StatusCode` part of C7 holds: for a status code `c` outside
200..299 and a body that is a JSON object without a member whose key
selects the field `Response` or `StatusCode`, the `ErrorResponse` carries
`c` and points to the response. -/
theorem checkResponse_statusCode_kept (codec : json.LibraryCodec) (c : Int) (data : String)
    (closeErr : Option IOError) (ms : json.Members) (hc : ¬ (200 ≤ c ∧ c ≤ 299))
    (hp : json.parse data = .ok (.object ms))
    (h : ∀ m ∈ ms,
      json.findField ["Response", "StatusCode", "error_code", "error_message"] m.1
          ≠ some "Response" ∧
      json.findField ["Response", "StatusCode", "error_code", "error_message"] m.1
          ≠ some "StatusCode") :
    ∃ e, checkResponse codec ⟨c, some ⟨data, none, closeErr⟩⟩ =
        .ok (some e, ⟨c, some ⟨data, none, closeErr⟩⟩) ∧
      e.StatusCode = c ∧ e.Response = some ⟨c, some ⟨data, none, closeErr⟩⟩ := by
  have hd : data ≠ "" := by
    intro hd
    subst hd
    have he : json.parse "" = .error (.jsonSyntaxErr "unexpected end of JSON input") := rfl
    rw [he] at hp
    cases hp
  rw [checkResponse_decodes codec c data closeErr hc hd]
  have hk := decodeErrorMembers_keeps codec ms
    ⟨⟨some ⟨c, some ⟨data, none, closeErr⟩⟩, c, "", ""⟩,
     ⟨some ⟨c, some ⟨data, none, closeErr⟩⟩, true, ⟨c, some ⟨data, none, closeErr⟩⟩⟩, none⟩ h
  obtain ⟨hk1, hk2, hk3⟩ := hk
  simp only [json.UnmarshalErrorResponse, hp, json.decodeErrorResponse, hk1, hk3]
  split
  · rename_i e http err heq
    simp only [json.Unmarshalled.mk.injEq] at heq
    obtain ⟨he, hh, _⟩ := heq
    refine ⟨_, by rw [← hh], ?_, ?_⟩
    · rw [← he]; exact hk2
    · rw [← he]
  · rename_i e http heq
    simp only [json.Unmarshalled.mk.injEq] at heq
    obtain ⟨he, hh, _⟩ := heq
    refine ⟨_, by rw [← hh], ?_, ?_⟩
    · rw [← he]; exact hk2
    · rw [← he]

/-- The repository's test of an error response: status 500 with the body
`bodyOfTest` gives an `ErrorResponse` with the HTTP status, an empty
`Code` and the message of the body, whose text is the one the test
expects. -/
theorem checkResponse_test_body (codec : json.LibraryCodec) :
    checkResponse codec ⟨500, some ⟨bodyOfTest, none, none⟩⟩ =
      .ok (some ⟨some ⟨500, some ⟨bodyOfTest, none, none⟩⟩, 500, "", "custom error message"⟩,
           ⟨500, some ⟨bodyOfTest, none, none⟩⟩) ∧
    ErrorResponse.Error ⟨some ⟨500, some ⟨bodyOfTest, none, none⟩⟩, 500, "",
      "custom error message"⟩ = "code: 500, message: custom error message" :=
  ⟨rfl, by decide⟩

/-- A body that is not JSON, at status 503: the `ErrorResponse` has the
HTTP status, an empty `Code` and the body as `Message`. -/
theorem checkResponse_raw_message_example (codec : json.LibraryCodec) :
    checkResponse codec ⟨503, some ⟨"Service Unavailable", none, none⟩⟩ =
      .ok (some ⟨some ⟨503, some ⟨"Service Unavailable", none, none⟩⟩, 503, "",
            "Service Unavailable"⟩,
           ⟨503, some ⟨"Service Unavailable", none, none⟩⟩) :=
  checkResponse_raw_message codec 503 ⟨"Service Unavailable", none, none⟩ (by decide)
    (Or.inr (Or.inr (Or.inl ⟨_, rfl⟩)))

/-- C7, the code at the failing input: for status 500 and a body whose
JSON object has a member `StatusCode`, the `ErrorResponse` carries that
member's number, 404, as its `StatusCode`, not the HTTP status, and its
error text names 404. -/
theorem checkResponse_statusCode_from_body (codec : json.LibraryCodec) :
    checkResponse codec
        ⟨500, some ⟨bodyWithStatusCode,
          none, none⟩⟩ =
      .ok (some { Response := some ⟨500, some
                    ⟨bodyWithStatusCode,
                      none, none⟩⟩,
                  StatusCode := 404, Code := "E", Message := "m" },
           ⟨500, some ⟨bodyWithStatusCode,
             none, none⟩⟩) ∧
    ErrorResponse.Error { Response := none, StatusCode := 404, Code := "E", Message := "m" } =
      "code: 404, message: m" := by
  constructor
  · rfl
  · decide

/-- C8, the code at the failing input: for status 500 and a body whose
`error_code` is a string and whose `error_message` is a number, decoding
fails with a type error after `Code` has been set; the `ErrorResponse`
keeps `Code = "E1"` next to the raw body as `Message`. -/
theorem checkResponse_keeps_partial_decode (codec : json.LibraryCodec) :
    (json.UnmarshalErrorResponse codec bodyWithNumberMessage
        { Response := some ⟨500, some ⟨bodyWithNumberMessage,
            none, none⟩⟩, StatusCode := 500, Code := "", Message := "" }
        ⟨500, some ⟨bodyWithNumberMessage, none, none⟩⟩).err =
      some (.jsonType "number" "string") ∧
    checkResponse codec
        ⟨500, some ⟨bodyWithNumberMessage, none, none⟩⟩ =
      .ok (some { Response := some ⟨500, some
                    ⟨bodyWithNumberMessage, none, none⟩⟩,
                  StatusCode := 500, Code := "E1",
                  Message := bodyWithNumberMessage },
           ⟨500, some ⟨bodyWithNumberMessage, none, none⟩⟩) := by
  constructor
  · rfl
  · rfl

/-- `String` append, on the characters. -/
theorem String_append_data (a b : String) : a ++ b = ⟨a.data ++ b.data⟩ := rfl

/-- C9.  For every ErrorResponse `e`, `e.Error()` is the text `code: `,
then the decimal text of `e.StatusCode`, then `, message: `, then
`e.Message`, also for an empty Message; it does not depend on `e.Code` or
`e.Response`.  The decimal text is the one `strconv.Atoi` reads back as
the same `int`. -/
theorem ErrorResponse_Error_eq (e : ErrorResponse) :
    e.Error = "code: " ++ fmt.decimal e.StatusCode ++ ", message: " ++ e.Message ∧
    (e.Message = "" → e.Error = "code: " ++ fmt.decimal e.StatusCode ++ ", message: ") ∧
    (∀ (response : Option HTTPResponse) (code : String),
      ErrorResponse.Error { e with Response := response, Code := code } = e.Error) ∧
    (minInt ≤ e.StatusCode → e.StatusCode ≤ maxInt →
      strconv.Atoi (fmt.decimal e.StatusCode) = (e.StatusCode, none)) := by
  have h : e.Error = "code: " ++ fmt.decimal e.StatusCode ++ ", message: " ++ e.Message := by
    simp only [String_append_data]
    simp [ErrorResponse.Error, fmt.Sprintf, fmt.sprintfLoop, fmt.formatArg]
  refine ⟨h, ?_, fun _ _ => rfl, fmt.Atoi_decimal _⟩
  intro hm
  rw [h, hm]
  simp [String_append_data]

/-- C9, witness: the error of the repository's test. -/
theorem ErrorResponse_Error_eq_witness :
    ErrorResponse.Error ⟨none, 500, "", "error message"⟩ =
      "code: 500, message: error message" :=
  (ErrorResponse_Error_eq _).1.trans (by decide)

/-! ## `Client.Do` -/

/-- C10.  For a response with a status code in 200..299 whose body reads
as zero bytes without error, `Do` returns no error for every decode target
`v` (the nil interface, a pointer or a value that is no pointer), calls
`json.Unmarshal` not once, leaves `v` as it is, and returns the Response
made by `NewResponse`, whose Data and Links are empty; the body is closed
and an error of `Close` is not returned. -/
theorem Do_no_content {T : Type} (codec : json.LibraryCodec) (ty : json.TargetType T)
    (c : Int) (closeErr : Option IOError) (v : Option (json.Target T))
    (hc : 200 ≤ c ∧ c ≤ 299) :
    Do codec ty (.ok ⟨c, some ⟨"", none, closeErr⟩⟩) v =
      .ok { resp := some { Response := some ⟨c, some ⟨"", none, closeErr⟩⟩, Data := "",
                           Links := ⟨"", "", "", "", ""⟩ },
            err := none, v := v, unmarshalled := [], closed := true } := by
  simp [Do, checkResponse, hc, ReadAll, Do.deferred, NewResponse]

/-- C10, witness: status 204 with an empty body, as `Delete` meets it in
the repository's test, for a target that is no pointer, a pointer and the
nil interface. -/
theorem Do_no_content_witness :
    (Do json.refusingCodec fooType (.ok ⟨204, some ⟨"", none, none⟩⟩)
        (some (.nonPointer ⟨"x"⟩))).map (fun r => (r.err, r.v, r.unmarshalled)) =
      .ok (none, some (.nonPointer ⟨"x"⟩), []) ∧
    (Do json.refusingCodec fooType (.ok ⟨204, some ⟨"", none, none⟩⟩)
        (some (.pointer ⟨"x"⟩))).map (fun r => (r.err, r.v, r.unmarshalled)) =
      .ok (none, some (.pointer ⟨"x"⟩), []) ∧
    (Do json.refusingCodec fooType (.ok ⟨204, some ⟨"", none, none⟩⟩)
        none).map (fun r => (r.err, r.v, r.unmarshalled)) = .ok (none, none, []) := by
  refine ⟨?_, ?_, ?_⟩
  · rw [Do_no_content json.refusingCodec fooType 204 none _ (by decide)]; rfl
  · rw [Do_no_content json.refusingCodec fooType 204 none _ (by decide)]; rfl
  · rw [Do_no_content json.refusingCodec fooType 204 none _ (by decide)]; rfl

/-- For a status code in 200..299 and a body that reads without error and
is not empty, `Do` decodes the body into the `Response` and, when that
succeeds and `v` is not nil, the `Data` into `v`. -/
theorem Do_decodes {T : Type} (codec : json.LibraryCodec) (ty : json.TargetType T)
    (c : Int) (data : String) (closeErr : Option IOError) (v : Option (json.Target T))
    (hc : 200 ≤ c ∧ c ≤ 299) (hd : data ≠ "") :
    Do codec ty (.ok ⟨c, some ⟨data, none, closeErr⟩⟩) v =
      match json.UnmarshalResponse codec data (NewResponse ⟨c, some ⟨data, none, closeErr⟩⟩)
          ⟨c, some ⟨data, none, closeErr⟩⟩, v with
      | ⟨r, http, some e⟩, _ => Do.deferred http ⟨some r, some e, v, [data], false⟩
      | ⟨r, http, none⟩, none => Do.deferred http ⟨some r, none, none, [data], false⟩
      | ⟨r, http, none⟩, some target =>
        Do.deferred http ⟨some r, (json.Unmarshal ty r.Data target).2,
          some (json.Unmarshal ty r.Data target).1, [data, r.Data], false⟩ := by
  have hlen : ¬ data.length = 0 := by
    rcases data with ⟨_ | ⟨x, xs⟩⟩
    · exact absurd rfl hd
    · simp [String.length]
  simp only [Do, checkResponse, hc, and_self, ↓reduceIte, ReadAll, ne_eq, not_true_eq_false,
    hlen, or_self]
  rcases json.UnmarshalResponse codec data (NewResponse ⟨c, some ⟨data, none, closeErr⟩⟩)
      ⟨c, some ⟨data, none, closeErr⟩⟩ with ⟨r, http, _ | e⟩
  · cases v <;> rfl
  · rfl

/-- C12.  For a response with a status code in 200..299 whose body is not
empty and is not valid JSON, `Do` returns the error of the JSON scanner,
which is not nil, leaves the decode target as it is and the `Response` as
`NewResponse` made it; only the envelope was handed to `json.Unmarshal`. -/
theorem Do_invalid_json {T : Type} (codec : json.LibraryCodec) (ty : json.TargetType T)
    (c : Int) (data : String) (closeErr : Option IOError) (v : Option (json.Target T))
    (e : GoError) (hc : 200 ≤ c ∧ c ≤ 299) (hd : data ≠ "")
    (he : json.checkValid data = some e) :
    Do codec ty (.ok ⟨c, some ⟨data, none, closeErr⟩⟩) v =
      .ok { resp := some (NewResponse ⟨c, some ⟨data, none, closeErr⟩⟩), err := some e,
            v := v, unmarshalled := [data], closed := true } := by
  rw [Do_decodes codec ty c data closeErr v hc hd]
  have hp := (json.parse_error_iff data e).2 he
  simp [json.UnmarshalResponse, hp, Do.deferred]

/-- C12, witness: the body `not-a-json` at status 200, with the error text
the repository's tests expect. -/
theorem Do_invalid_json_witness :
    Do json.refusingCodec fooType (.ok ⟨200, some ⟨bodyNotJSON, none, none⟩⟩)
        (some (.pointer ⟨"x"⟩)) =
      .ok { resp := some (NewResponse ⟨200, some ⟨bodyNotJSON, none, none⟩⟩),
            err := some (.jsonSyntaxErr
              "invalid character 'o' in literal null (expecting 'u')"),
            v := some (.pointer ⟨"x"⟩), unmarshalled := [bodyNotJSON], closed := true } :=
  Do_invalid_json json.refusingCodec fooType 200 bodyNotJSON none _ _ (by decide)
    (by decide) (by decide)

/-- Where C18 holds: a failure of the transport, of the read of the body,
of the decoding of the envelope or of the decoding of `Data` into the
target is returned by `Do` as its error. -/
theorem Do_returns_failures {T : Type} (codec : json.LibraryCodec) (ty : json.TargetType T)
    (c : Int) (data : String) (closeErr : Option IOError) (v : Option (json.Target T))
    (hc : 200 ≤ c ∧ c ≤ 299) :
    (∀ err, Do codec ty (.error err) v = .ok ⟨none, some err, v, [], false⟩) ∧
    (∀ e, ∃ r, Do codec ty (.ok ⟨c, some ⟨data, some e, closeErr⟩⟩) v = .ok r ∧
      r.err = some (.io e)) ∧
    (data ≠ "" →
      ∀ e, (json.UnmarshalResponse codec data (NewResponse ⟨c, some ⟨data, none, closeErr⟩⟩)
          ⟨c, some ⟨data, none, closeErr⟩⟩).err = some e →
        ∀ r, Do codec ty (.ok ⟨c, some ⟨data, none, closeErr⟩⟩) v = .ok r → r.err = some e) ∧
    (data ≠ "" →
      (json.UnmarshalResponse codec data (NewResponse ⟨c, some ⟨data, none, closeErr⟩⟩)
          ⟨c, some ⟨data, none, closeErr⟩⟩).err = none →
        ∀ target r, Do codec ty (.ok ⟨c, some ⟨data, none, closeErr⟩⟩) (some target) = .ok r →
          r.err = (json.Unmarshal ty
            (json.UnmarshalResponse codec data (NewResponse ⟨c, some ⟨data, none, closeErr⟩⟩)
              ⟨c, some ⟨data, none, closeErr⟩⟩).value.Data target).2) := by
  refine ⟨fun _ => rfl, fun e => ?_, fun hd e he r hr => ?_, fun hd he target r hr => ?_⟩
  · simp [Do, checkResponse, hc, ReadAll, Do.deferred]
  · rw [Do_decodes codec ty c data closeErr v hc hd] at hr
    rcases hu : json.UnmarshalResponse codec data
        (NewResponse ⟨c, some ⟨data, none, closeErr⟩⟩) ⟨c, some ⟨data, none, closeErr⟩⟩
      with ⟨r0, http, err⟩
    rw [hu] at he hr
    simp only at he
    subst he
    simp only [Do.deferred] at hr
    cases hb : http.Body with
    | none => simp [hb] at hr
    | some b =>
      simp only [hb, Except.ok.injEq] at hr
      rw [← hr]
  · rw [Do_decodes codec ty c data closeErr (some target) hc hd] at hr
    rcases hu : json.UnmarshalResponse codec data
        (NewResponse ⟨c, some ⟨data, none, closeErr⟩⟩) ⟨c, some ⟨data, none, closeErr⟩⟩
      with ⟨r0, http, err⟩
    rw [hu] at he hr
    simp only at he
    subst he
    simp only [Do.deferred] at hr
    cases hb : http.Body with
    | none => simp [hb] at hr
    | some b =>
      simp only [hb, Except.ok.injEq] at hr
      rw [← hr]

/-- C18, the code at the failing input: for a response with status 204
and an empty body whose `Close` fails with `e`, `Do` returns the nil
error: the failure of `Close` is not returned. -/
theorem Do_swallows_close_error {T : Type} (codec : json.LibraryCodec)
    (ty : json.TargetType T) (e : IOError) (v : Option (json.Target T)) :
    Do codec ty (.ok ⟨204, some ⟨"", none, some e⟩⟩) v =
      .ok { resp := some (NewResponse ⟨204, some ⟨"", none, some e⟩⟩), err := none, v := v,
            unmarshalled := [], closed := true } := by
  simp [Do, checkResponse, ReadAll, Do.deferred, NewResponse]

/-- Where C19 holds: for a status code outside 200..299, when the decoding
of the error body has left the `Body` of the response in place, `Do`
returns the error of `checkResponse` with a `Response` whose Data and
Links are empty, calls `json.Unmarshal` on no envelope and leaves `v` as
it is. -/
theorem Do_status_error {T : Type} (codec : json.LibraryCodec) (ty : json.TargetType T)
    (resp http : HTTPResponse) (e : ErrorResponse) (b : Body) (v : Option (json.Target T))
    (hcheck : checkResponse codec resp = .ok (some e, http)) (hb : http.Body = some b) :
    Do codec ty (.ok resp) v =
      .ok { resp := some { Response := some http, Data := "", Links := ⟨"", "", "", "", ""⟩ },
            err := some (.api e), v := v, unmarshalled := [], closed := true } := by
  simp [Do, hcheck, Do.deferred, hb, NewResponse]

/-- C19, the code at the failing input: when the library sets the `Body`
of a `http.Response` to nil for the member `"Body": null`, as
`encoding/json` does, then for a status code outside 200..299 and the body
`bodyNilsBody` the call of `Do` does not return: decoding the error body
reaches the response through `errorResponse.Response`, and the deferred
`resp.Body.Close()` panics. -/
theorem Do_status_error_panics {T : Type} (codec : json.LibraryCodec)
    (ty : json.TargetType T) (c : Int) (closeErr : Option IOError)
    (v : Option (json.Target T)) (hc : ¬ (200 ≤ c ∧ c ≤ 299))
    (hcodec : ∀ r, codec.decodeHTTPResponse [("Body", "null", .null)] r =
      (⟨r.StatusCode, none⟩, .ok)) :
    Do codec ty (.ok ⟨c, some ⟨bodyNilsBody, none, closeErr⟩⟩) v = .error .nilDereference := by
  have hcheck : checkResponse codec ⟨c, some ⟨bodyNilsBody, none, closeErr⟩⟩ =
      .ok (some ⟨some ⟨c, none⟩, c, "", ""⟩, ⟨c, none⟩) := by
    rw [checkResponse_decodes codec c bodyNilsBody closeErr hc (by decide)]
    have hp : json.parse bodyNilsBody =
        .ok (.object [("Response", "\x7b\"Body\":null\x7d",
          .object [("Body", "null", .null)])]) := rfl
    simp only [json.UnmarshalErrorResponse, hp, json.decodeErrorResponse,
      json.decodeErrorMembers]
    have hf : json.findField ["Response", "StatusCode", "error_code", "error_message"]
        "Response" = some "Response" := rfl
    simp [hf, json.withResponse, json.decodeResponsePtr, hcodec, json.decodeErrorMembers]
  simp [Do, hcheck, Do.deferred]

/-- C19, witness: status 500 with the body `bodyNilsBody`. -/
theorem Do_status_error_panics_witness :
    Do json.bodyCodec fooType (.ok ⟨500, some ⟨bodyNilsBody, none, none⟩⟩)
      (some (.pointer ⟨"x"⟩)) = .error .nilDereference :=
  Do_status_error_panics json.bodyCodec fooType 500 none _ (by decide) (fun _ => rfl)

/-! ## Decoding of the envelope -/

namespace json

theorem saveError_assoc (a b c : Option GoError) :
    saveError (saveError a b) c = saveError a (saveError b c) := by
  cases a <;> cases b <;> rfl

theorem saveError_none (a : Option GoError) : saveError a none = a := by
  cases a <;> rfl

theorem decodeString_fst (v : JValue) (cur : String) :
    (decodeString v cur).1 = (match v with | .string s => s | _ => cur) := by
  cases v <;> rfl

theorem decodeString_snd (v : JValue) (cur : String) :
    (decodeString v cur).2 = stringError v := by
  cases v <;> rfl

/-- The field `findField` selects is one of the names. -/
theorem findField_mem (names : List String) (key field : String)
    (h : findField names key = some field) : field ∈ names := by
  unfold findField at h
  cases h1 : names.find? (fun n => n == key) with
  | some n =>
    simp only [h1, Option.some.injEq] at h
    subst h
    exact List.mem_of_find?_eq_some h1
  | none =>
    simp only [h1] at h
    exact List.mem_of_find?_eq_some h

/-- The loop over the members of a `links` object gives every field its
last string and saves the first type error. -/
theorem decodeLinksMembers_eq (ls : Members) (l : Links) (saved : Option GoError) :
    decodeLinksMembers ls l saved =
      ({ First := lastString linkFields "first" ls l.First,
         Last := lastString linkFields "last" ls l.Last,
         Prev := lastString linkFields "prev" ls l.Prev,
         Next := lastString linkFields "next" ls l.Next,
         Self := lastString linkFields "self" ls l.Self },
       saveError saved (linkErrors ls)) := by
  induction ls generalizing l saved with
  | nil => simp [decodeLinksMembers, lastString, linkErrors, saveError_none]
  | cons m ls ih =>
    rcases m with ⟨key, raw, v⟩
    unfold decodeLinksMembers
    simp only [lastString, linkErrors, selects]
    have hlf : findField ["first", "last", "prev", "next", "self"] key
        = findField linkFields key := rfl
    rw [hlf]
    have hcases : findField linkFields key = none ∨
        ∃ f, findField linkFields key = some f := by
      cases findField linkFields key <;> simp
    rcases hcases with hf | ⟨field, hf⟩
    · simp only [hf, ih, Option.isSome_none, Bool.false_eq_true, ↓reduceIte]
      simp [saveError]
    · have hmem := findField_mem _ _ _ hf
      simp only [linkFields, List.mem_cons, List.mem_singleton, List.not_mem_nil,
        or_false] at hmem
      simp only [hf, Option.isSome_some, ↓reduceIte, ih, decodeString_fst, decodeString_snd,
        saveError_assoc]
      rcases hmem with h | h | h | h | h <;> subst h <;> simp

/-- The loop over the members of the envelope, when no key selects the
field `Response`: `Data` gets the bytes of the last `data` member, `Links`
the strings of the `links` members, the first type error is saved and
decoding runs to the end. -/
theorem decodeResponseMembers_eq (codec : LibraryCodec) (ms : Members)
    (st : Decoding Response)
    (h : ∀ m ∈ ms, selects envelopeFields "Response" m.1 = false) :
    decodeResponseMembers codec ms st =
      (⟨{ Response := st.value.Response, Data := lastData ms st.value.Data,
          Links := linksOf ms st.value.Links },
        st.resp, saveError st.saved (envelopeErrors ms)⟩, none) := by
  induction ms generalizing st with
  | nil => simp [decodeResponseMembers, lastData, linksOf, envelopeErrors, saveError_none]
  | cons m ms ih =>
    rcases m with ⟨key, raw, v⟩
    have hm := h (key, raw, v) (List.mem_cons_self _ _)
    have ih' := fun st' => ih st' (fun m' hm' => h m' (List.mem_cons_of_mem _ hm'))
    unfold decodeResponseMembers
    simp only [lastData, linksOf, envelopeErrors, selects] at hm ⊢
    have hlf : findField ["Response", "data", "links"] key = findField envelopeFields key := rfl
    rw [hlf]
    have hcases : findField envelopeFields key = none ∨
        ∃ f, findField envelopeFields key = some f := by
      cases findField envelopeFields key <;> simp
    rcases hcases with hf | ⟨field, hf⟩
    · simp only [hf, ih']
      simp [saveError]
    · have hmem := findField_mem _ _ _ hf
      simp only [envelopeFields, List.mem_cons, List.mem_singleton, List.not_mem_nil,
        or_false] at hmem
      simp only [hf] at hm ⊢
      rcases hmem with h1 | h1 | h1 <;> subst h1
      · simp at hm
      · simp [ih', saveError]
      · cases v <;>
          simp only [ih', decodeLinks, decodeLinksMembers_eq, saveError_assoc, beq_self_eq_true,
            ↓reduceIte] <;>
          cases st.saved <;> simp [saveError]

/-- `json.Unmarshal` of a JSON object without a `Response` member into a
`Response`. -/
theorem UnmarshalResponse_object (codec : LibraryCodec) (data : String) (r : Response)
    (http : HTTPResponse) (ms : Members) (hp : parse data = .ok (.object ms))
    (h : ∀ m ∈ ms, selects envelopeFields "Response" m.1 = false) :
    UnmarshalResponse codec data r http =
      ⟨{ Response := r.Response, Data := lastData ms r.Data, Links := linksOf ms r.Links },
       http, envelopeErrors ms⟩ := by
  simp [UnmarshalResponse, hp, decodeResponse, decodeResponseMembers_eq codec ms _ h, saveError]

end json

namespace json

/-- Without a member whose key selects `data` the bytes stay as they are. -/
theorem lastData_absent (ms : Members) (cur : String)
    (h : ∀ m ∈ ms, selects envelopeFields "data" m.1 = false) : lastData ms cur = cur := by
  induction ms generalizing cur with
  | nil => rfl
  | cons m ms ih =>
    rcases m with ⟨key, raw, v⟩
    have hm := h (key, raw, v) (List.mem_cons_self _ _)
    simp only at hm
    simp only [lastData, hm, Bool.false_eq_true, ↓reduceIte]
    exact ih cur (fun m' hm' => h m' (List.mem_cons_of_mem _ hm'))

/-- A member whose key selects `data` and after which no such member
comes gives its bytes. -/
theorem lastData_member (before after : Members) (key raw : String) (v : JValue)
    (cur : String) (hk : selects envelopeFields "data" key = true)
    (h : ∀ m ∈ after, selects envelopeFields "data" m.1 = false) :
    lastData (before ++ (key, raw, v) :: after) cur = raw := by
  induction before generalizing cur with
  | nil => simp [lastData, hk, lastData_absent after raw h]
  | cons m before ih =>
    rcases m with ⟨k, r, w⟩
    simp only [List.cons_append, lastData]
    exact ih _

/-- Without a member whose key selects the field the string stays as it
is. -/
theorem lastString_absent (names : List String) (field : String) (ms : Members)
    (cur : String) (h : ∀ m ∈ ms, selects names field m.1 = false) :
    lastString names field ms cur = cur := by
  induction ms generalizing cur with
  | nil => rfl
  | cons m ms ih =>
    rcases m with ⟨key, raw, v⟩
    have hm := h (key, raw, v) (List.mem_cons_self _ _)
    simp only at hm
    simp only [lastString, hm, Bool.false_eq_true, ↓reduceIte]
    exact ih cur (fun m' hm' => h m' (List.mem_cons_of_mem _ hm'))

/-- A member whose key selects the field, whose value is a string and
after which no member selects the field gives that string. -/
theorem lastString_member (names : List String) (field : String) (before after : Members)
    (key raw s cur : String) (hk : selects names field key = true)
    (h : ∀ m ∈ after, selects names field m.1 = false) :
    lastString names field (before ++ (key, raw, .string s) :: after) cur = s := by
  induction before generalizing cur with
  | nil => simp [lastString, hk, lastString_absent names field after s h]
  | cons m before ih =>
    rcases m with ⟨k, r, w⟩
    simp only [List.cons_append, lastString]
    exact ih _

end json

/-- C14 (amended).  For a response with a status code in 200..299 whose
body is a JSON object without a member whose key selects the field
`Response`, the `Response` that `Do` returns, with or without an error,
has as `Data` the bytes of the last member whose key is `data` or equal to
it under case folding (empty when there is none), and as `Links` the
strings the `links` members hold for `first`, `last`, `prev`, `next` and
`self`, each empty when no member gives it a string. -/
theorem Do_envelope {T : Type} (codec : json.LibraryCodec) (ty : json.TargetType T)
    (c : Int) (data : String) (closeErr : Option IOError) (v : Option (json.Target T))
    (ms : json.Members) (hc : 200 ≤ c ∧ c ≤ 299) (hp : json.parse data = .ok (.object ms))
    (h : ∀ m ∈ ms, json.selects json.envelopeFields "Response" m.1 = false) :
    ∃ r, Do codec ty (.ok ⟨c, some ⟨data, none, closeErr⟩⟩) v = .ok r ∧
      r.resp = some { Response := some ⟨c, some ⟨data, none, closeErr⟩⟩,
                      Data := json.lastData ms "",
                      Links := json.linksOf ms ⟨"", "", "", "", ""⟩ } ∧
      r.closed = true := by
  have hd : data ≠ "" := by
    intro hd
    subst hd
    have he : json.parse "" = .error (.jsonSyntaxErr "unexpected end of JSON input") := rfl
    rw [he] at hp
    cases hp
  rw [Do_decodes codec ty c data closeErr v hc hd,
    json.UnmarshalResponse_object codec data _ _ ms hp h]
  cases he : json.envelopeErrors ms with
  | some e => exact ⟨_, rfl, rfl, rfl⟩
  | none =>
    cases v with
    | none => exact ⟨_, rfl, rfl, rfl⟩
    | some target => exact ⟨_, rfl, rfl, rfl⟩

/-- C14, witness: the body of `TestDo` gives the bytes of its `data`
member as `Data`, empty `Links`, no error and the target `foo{"a"}`. -/
theorem Do_envelope_witness :
    (∃ r, Do json.refusingCodec fooType (.ok ⟨200, some ⟨bodyOfTestDo, none, none⟩⟩)
        (some (.pointer ⟨""⟩)) = .ok r ∧
      r.resp = some { Response := some ⟨200, some ⟨bodyOfTestDo, none, none⟩⟩,
                      Data := "\x7b\"A\":\"a\"\x7d", Links := ⟨"", "", "", "", ""⟩ } ∧
      r.closed = true) ∧
    (Do json.refusingCodec fooType (.ok ⟨200, some ⟨bodyOfTestDo, none, none⟩⟩)
        (some (.pointer ⟨""⟩))).map (fun r => (r.err, r.v)) =
      .ok (none, some (.pointer ⟨"a"⟩)) :=
  ⟨Do_envelope json.refusingCodec fooType 200 bodyOfTestDo none (some (.pointer ⟨""⟩))
      [("data", "\x7b\"A\":\"a\"\x7d", .object [("A", "\"a\"", .string "a")]),
       ("links", "\x7b\x7d", .object [])]
      (by decide) rfl (by decide), rfl⟩

/-- C14, counterexample: the body `{"DATA":7}` has one member, whose name
is not `data`, and yet the `Response` that `Do` returns has the bytes `7`
as `Data`, not the empty text. -/
theorem Do_envelope_folds_key :
    json.parse bodyUpperData = .ok (.object [("DATA", "7", .number "7")]) ∧
    ("DATA" : String) ≠ "data" ∧
    (Do json.refusingCodec fooType (.ok ⟨200, some ⟨bodyUpperData, none, none⟩⟩)
        none).map (fun r => r.resp.map (fun x => x.Data)) = .ok (some "7") :=
  ⟨rfl, by decide, rfl⟩

/-- C11 (amended).  For a response with a status code in 200..299 whose
body is a JSON object without a member whose key selects the field `data`
or the field `Response`, and for every decode target that is not nil, `Do`
returns an error and leaves the target as it is: the type error of the
first `links` member that is neither `null` nor an object of strings, and
without such a member the syntax error `unexpected end of JSON input`,
which `json.Unmarshal` reports for the empty `Data`. -/
theorem Do_no_data {T : Type} (codec : json.LibraryCodec) (ty : json.TargetType T)
    (c : Int) (data : String) (closeErr : Option IOError) (target : json.Target T)
    (ms : json.Members) (hc : 200 ≤ c ∧ c ≤ 299) (hp : json.parse data = .ok (.object ms))
    (h : ∀ m ∈ ms, json.selects json.envelopeFields "Response" m.1 = false ∧
      json.selects json.envelopeFields "data" m.1 = false) :
    ∃ r, Do codec ty (.ok ⟨c, some ⟨data, none, closeErr⟩⟩) (some target) = .ok r ∧
      r.err = some (match json.envelopeErrors ms with
        | some typeError => typeError
        | none => .jsonSyntaxErr "unexpected end of JSON input") ∧
      r.v = some target := by
  have hd : data ≠ "" := by
    intro hd
    subst hd
    have he : json.parse "" = .error (.jsonSyntaxErr "unexpected end of JSON input") := rfl
    rw [he] at hp
    cases hp
  rw [Do_decodes codec ty c data closeErr _ hc hd,
    json.UnmarshalResponse_object codec data _ _ ms hp (fun m hm => (h m hm).1),
    json.lastData_absent ms _ (fun m hm => (h m hm).2)]
  have he : json.parse "" = .error (.jsonSyntaxErr "unexpected end of JSON input") := rfl
  cases hee : json.envelopeErrors ms with
  | some e => exact ⟨_, rfl, rfl, rfl⟩
  | none =>
    refine ⟨_, rfl, ?_, ?_⟩
    · simp [NewResponse, json.Unmarshal, he]
    · simp [NewResponse, json.Unmarshal, he]

/-- C11, witness: the body `{}` of the repository's tests gives the error
`unexpected end of JSON input`. -/
theorem Do_no_data_witness :
    ∃ r, Do json.refusingCodec fooType (.ok ⟨200, some ⟨bodyEmptyObject, none, none⟩⟩)
        (some (.pointer ⟨"x"⟩)) = .ok r ∧
      r.err = some (.jsonSyntaxErr "unexpected end of JSON input") ∧
      r.v = some (.pointer ⟨"x"⟩) :=
  Do_no_data json.refusingCodec fooType 200 bodyEmptyObject none (.pointer ⟨"x"⟩) []
    (by decide) rfl (by simp)

/-- C11, counterexample: the body `{"links":5}` is a JSON object without a
`data` member, and the error `Do` returns is the type error of `links`,
not `unexpected end of JSON input`. -/
theorem Do_no_data_type_error :
    json.parse bodyLinksNumber = .ok (.object [("links", "5", .number "5")]) ∧
    (Do json.refusingCodec fooType (.ok ⟨200, some ⟨bodyLinksNumber, none, none⟩⟩)
        (some (.pointer ⟨"x"⟩))).map (fun r => r.err) =
      .ok (some (.jsonType "number" "client.Links")) ∧
    GoError.jsonType "number" "client.Links" ≠
      GoError.jsonSyntaxErr "unexpected end of JSON input" :=
  ⟨rfl, rfl, by decide⟩

/-! ## Requests and `Delete` -/

/-- `Delete` hands the request to the HTTP client and returns what `Do`
returns for the nil slice as target. -/
theorem Delete_eq_Do (codec : json.LibraryCodec) (BaseURL : Option url.URL)
    (send : http.Request → Except GoError HTTPResponse) (id : String) (req : http.Request)
    (hreq : NewRequest models.accountSource BaseURL "DELETE"
      (fmt.Sprintf "v1/organisation/accounts/%s?version=0" [.str id]) none = .ok (some req, none)) :
    AccountService.Delete codec BaseURL send id =
      match Do codec accountsType (send req) (some (.nonPointer none)) with
      | .error p => .error p
      | .ok r => .ok (r.resp, r.err) := by
  simp only [AccountService.Delete, hreq]

/-- With a non-pointer target and a status code in 200..299, `Do` returns
no error only for the empty body. -/
theorem Do_nonPointer {T : Type} (codec : json.LibraryCodec) (ty : json.TargetType T)
    (c : Int) (data : String) (closeErr : Option IOError) (x : T)
    (hc : 200 ≤ c ∧ c ≤ 299) (r : DoResult T)
    (h : Do codec ty (.ok ⟨c, some ⟨data, none, closeErr⟩⟩) (some (.nonPointer x)) = .ok r) :
    r.err = none ↔ data = "" := by
  by_cases hd : data = ""
  · subst hd
    simp [Do, checkResponse, hc, ReadAll, Do.deferred] at h
    subst h
    simp
  · rw [Do_decodes codec ty c data closeErr _ hc hd] at h
    simp only [hd, iff_false]
    generalize json.UnmarshalResponse codec data (NewResponse ⟨c, some ⟨data, none, closeErr⟩⟩)
        ⟨c, some ⟨data, none, closeErr⟩⟩ = u at h
    rcases u with ⟨r0, http, _ | e⟩
    · simp only [Do.deferred] at h
      cases hb : http.Body with
      | none => simp [hb] at h
      | some b =>
        simp only [hb] at h
        cases h
        simp only [json.Unmarshal]
        cases json.parse r0.Data <;> simp
    · simp only [Do.deferred] at h
      cases hb : http.Body with
      | none => simp [hb] at h
      | some b =>
        simp only [hb] at h
        cases h
        simp

/-- C20, the code at the failing input: when the library sets the `Body`
of a `http.Response` to nil for the member `"Body": null`, as
`encoding/json` does, and the server answers the request of `Delete` with a
status code in 200..299 and the body `bodyNilsBody`, then `Delete` does not
return an error: decoding the envelope reaches the response through the
field `Response`, and the deferred `resp.Body.Close()` of `Do` panics. -/
theorem Delete_panics (codec : json.LibraryCodec) (BaseURL : Option url.URL)
    (send : http.Request → Except GoError HTTPResponse) (id : String) (req : http.Request)
    (c : Int) (closeErr : Option IOError)
    (hreq : NewRequest models.accountSource BaseURL "DELETE"
      (fmt.Sprintf "v1/organisation/accounts/%s?version=0" [.str id]) none = .ok (some req, none))
    (hsend : send req = .ok ⟨c, some ⟨bodyNilsBody, none, closeErr⟩⟩)
    (hc : 200 ≤ c ∧ c ≤ 299)
    (hcodec : ∀ r, codec.decodeHTTPResponse [("Body", "null", .null)] r =
      (⟨r.StatusCode, none⟩, .ok)) :
    AccountService.Delete codec BaseURL send id = .error .nilDereference := by
  rw [Delete_eq_Do codec BaseURL send id req hreq, hsend,
    Do_decodes codec accountsType c bodyNilsBody closeErr _ hc (by decide)]
  have hp : json.parse bodyNilsBody =
      .ok (.object [("Response", "\x7b\"Body\":null\x7d",
        .object [("Body", "null", .null)])]) := rfl
  have hf : json.findField ["Response", "data", "links"] "Response" = some "Response" := rfl
  have he : json.parse "" = .error (.jsonSyntaxErr "unexpected end of JSON input") := rfl
  simp [json.UnmarshalResponse, hp, json.decodeResponse, json.decodeResponseMembers, hf,
    json.withResponse, json.decodeResponsePtr, hcodec, NewResponse, Do.deferred]


/-- The steps of `NewRequest` when none of them fails. -/
theorem NewRequest_steps {T : Type} (ty : json.SourceType T) (BaseURL : Option url.URL)
    (method urlStr : String) (body : Option (json.Target T)) (u : url.URL) (buf : String)
    (req : http.Request)
    (hu : url.URL.Parse BaseURL urlStr = .ok (.ok u))
    (hbody : (match body with
      | none => Except.ok ""
      | some b =>
        match json.encodeInterface ty b with
        | .error err => .error err
        | .ok text => .ok (json.encodeStruct [⟨"data", false, text⟩] ++ "\n")) = .ok buf)
    (hreq : http.NewRequest method u.String buf = .ok req) :
    NewRequest ty BaseURL method urlStr body =
      .ok (some { req with
        Header := (req.Header.add "Content-Type" contentType).add "Accept" contentType },
        none) := by
  simp only [NewRequest, hu]
  cases body with
  | none =>
    simp only at hbody
    cases hbody
    simp only [hreq]
  | some b =>
    simp only at hbody
    cases hb : json.encodeInterface ty b with
    | error e => simp [hb] at hbody
    | ok text =>
      simp only [hb] at hbody ⊢
      cases hbody
      simp only [hreq]



theorem deleteRequest_built :
    NewRequest models.accountSource (some baseLocal) "DELETE"
      (fmt.Sprintf "v1/organisation/accounts/%s?version=0" [.str "account-id"]) none =
      .ok (some deleteRequest, none) := by
  have h0 : fmt.Sprintf "v1/organisation/accounts/%s?version=0" [.str "account-id"] =
      "v1/organisation/accounts/account-id?version=0" := by decide
  rw [h0]
  exact NewRequest_steps models.accountSource (some baseLocal) "DELETE" _ none
    { baseLocal with Path := "/v1/organisation/accounts/account-id", RawQuery := "version=0" }
    "" ⟨"DELETE", { baseLocal with Path := "/v1/organisation/accounts/account-id",
                                   RawQuery := "version=0" }, "localhost:8080", [], ""⟩
    rfl rfl rfl

/-- C20, witness: the account `account-id`, a server at
`http://localhost:8080` that answers 200 with the body `bodyNilsBody`. -/
theorem Delete_panics_witness :
    AccountService.Delete json.bodyCodec (some baseLocal)
      (fun _ => .ok ⟨200, some ⟨bodyNilsBody, none, none⟩⟩) "account-id" =
      .error .nilDereference :=
  Delete_panics json.bodyCodec (some baseLocal) _ "account-id" deleteRequest 200 none
    deleteRequest_built rfl (by decide) (fun _ => rfl)

/-- Whenever `Delete` returns for a response with a status code in
200..299, it returns no error exactly for the empty body. -/
theorem Delete_error_iff (codec : json.LibraryCodec) (BaseURL : Option url.URL)
    (send : http.Request → Except GoError HTTPResponse) (id : String) (req : http.Request)
    (c : Int) (data : String) (closeErr : Option IOError)
    (hreq : NewRequest models.accountSource BaseURL "DELETE"
      (fmt.Sprintf "v1/organisation/accounts/%s?version=0" [.str id]) none = .ok (some req, none))
    (hsend : send req = .ok ⟨c, some ⟨data, none, closeErr⟩⟩)
    (hc : 200 ≤ c ∧ c ≤ 299) (r : Option Response × Option GoError)
    (h : AccountService.Delete codec BaseURL send id = .ok r) :
    r.2 = none ↔ data = "" := by
  rw [Delete_eq_Do codec BaseURL send id req hreq, hsend] at h
  cases hdo : Do codec accountsType (.ok ⟨c, some ⟨data, none, closeErr⟩⟩)
      (some (.nonPointer none)) with
  | error p => simp [hdo] at h
  | ok res =>
    simp only [hdo] at h
    cases h
    exact Do_nonPointer codec accountsType c data closeErr none hc res hdo

/-- The envelope `{"data":null}` at status 200 makes `Delete` return an
`InvalidUnmarshalError`, and the empty body at status 204 no error. -/
theorem Delete_examples :
    (AccountService.Delete json.refusingCodec (some baseLocal)
      (fun _ => .ok ⟨200, some ⟨bodyDataNull, none, none⟩⟩) "account-id").map (fun r => r.2) =
      .ok (some (.jsonInvalidUnmarshal "[]models.Account")) ∧
    (AccountService.Delete json.refusingCodec (some baseLocal)
      (fun _ => .ok ⟨204, some ⟨"", none, none⟩⟩) "account-id").map (fun r => r.2) =
      .ok none := by
  rw [Delete_eq_Do _ _ _ _ deleteRequest deleteRequest_built,
    Delete_eq_Do _ _ _ _ deleteRequest deleteRequest_built]
  exact ⟨rfl, rfl⟩

/-! ## The body of a request -/

/-- `http.NewRequest` for a valid method and a URL text that parses. -/
theorem http_NewRequest_ok (method urlText body : String) (u : url.URL)
    (hmethod : http.validMethod (if method == "" then "GET" else method) = true)
    (hparse : url.Parse urlText = .ok u) :
    http.NewRequest method urlText body =
      .ok { Method := if method == "" then "GET" else method,
            URL := { u with Host := http.removeEmptyPort u.Host },
            Host := http.removeEmptyPort u.Host, Header := [], Body := body } := by
  simp only [http.NewRequest, hmethod, hparse, Bool.not_true, Bool.false_eq_true, ↓reduceIte]

/-- The encoding of the struct with the one field `data`. -/
theorem encodeStruct_single (text : String) :
    json.encodeStruct [⟨"data", false, text⟩] = "\x7b\"data\":" ++ text ++ "\x7d" := by
  apply String.ext
  simp [json.encodeStruct, String.intercalate, String.intercalate.go]

/-- C15.  Whenever `urlStr` resolves against the base URL and the method
and the resolved URL are accepted by `http.NewRequest`: for the nil body
`NewRequest` returns a request whose body is zero bytes; for a body whose
JSON encoding is `text` it returns a request whose body is the object
with the single key `data` and the value `text`, followed by one newline;
and when the body cannot be encoded it returns the encoder's error and no
request. -/
theorem NewRequest_body {T : Type} (ty : json.SourceType T) (BaseURL : Option url.URL)
    (method urlStr : String) (u u2 : url.URL)
    (hu : url.URL.Parse BaseURL urlStr = .ok (.ok u))
    (hmethod : http.validMethod (if method == "" then "GET" else method) = true)
    (hparse : url.Parse u.String = .ok u2) :
    (∃ req, NewRequest ty BaseURL method urlStr none = .ok (some req, none) ∧ req.Body = "") ∧
    (∀ b text, json.encodeInterface ty b = .ok text →
      ∃ req, NewRequest ty BaseURL method urlStr (some b) = .ok (some req, none) ∧
        req.Body = "\x7b\"data\":" ++ text ++ "\x7d\n") ∧
    (∀ b err, json.encodeInterface ty b = .error err →
      NewRequest ty BaseURL method urlStr (some b) = .ok (none, some err)) := by
  refine ⟨?_, fun b text hb => ?_, fun b err hb => ?_⟩
  · exact ⟨_, NewRequest_steps ty BaseURL method urlStr none u "" _ hu rfl
      (http_NewRequest_ok method _ "" u2 hmethod hparse), rfl⟩
  · refine ⟨_, NewRequest_steps ty BaseURL method urlStr (some b) u
      (json.encodeStruct [⟨"data", false, text⟩] ++ "\n") _ hu
      (by simp only [hb]) (http_NewRequest_ok method _ _ u2 hmethod hparse), ?_⟩
    simp only [encodeStruct_single]
    apply String.ext
    simp
  · simp [NewRequest, hu, hb]

/-- C15, witness: `TestNewRequest`, the body `foo{A: "B"}` sent with `GET`
to `/foo` of `http://coolurl.com`, and the account of
`TestAccountService_CreateRequest`, whose empty `omitempty` fields are left
out and whose other fields come in the order of their declaration. -/
theorem NewRequest_body_witness :
    (∃ req, NewRequest fooSource (some baseCool) "GET" "/foo" (some (.pointer ⟨"B"⟩)) =
        .ok (some req, none) ∧ req.Body = bodyOfTestNewRequest) ∧
    (∃ req, NewRequest models.accountSource (some baseCool) "POST" "v1/organisation/accounts"
        (some (.pointer accountOfTest)) = .ok (some req, none) ∧
      req.Body = bodyOfTestCreate) ∧
    (∃ req, NewRequest fooSource (some baseCool) "GET" "/foo" none = .ok (some req, none) ∧
      req.Body = "") :=
  ⟨(NewRequest_body fooSource (some baseCool) "GET" "/foo" { baseCool with Path := "/foo" }
      { baseCool with Path := "/foo" } rfl (by decide) rfl).2.1 (.pointer ⟨"B"⟩)
      "\x7b\"A\":\"B\"\x7d" rfl,
   (NewRequest_body models.accountSource (some baseCool) "POST" "v1/organisation/accounts"
      { baseCool with Path := "/v1/organisation/accounts" }
      { baseCool with Path := "/v1/organisation/accounts" } rfl (by decide) rfl).2.1
      (.pointer accountOfTest) _ rfl,
   (NewRequest_body fooSource (some baseCool) "GET" "/foo" { baseCool with Path := "/foo" }
      { baseCool with Path := "/foo" } rfl (by decide) rfl).1⟩

/-! ## Escaping and the query of a URL -/

namespace url

theorem upperhex_spec (d : Nat) (h : d < 16) :
    ishex (upperhex d) = true ∧ unhex (upperhex d) = d := by
  interval_cases d <;> exact ⟨by decide, by decide⟩

theorem isQueryChar_upperhex (d : Nat) (h : d < 16) : isQueryChar (upperhex d) = true := by
  interval_cases d <;> decide

theorem shouldEscape_query_false (c : Char)
    (h : shouldEscape c .encodeQueryComponent = false) :
    isQueryChar c = true ∧ c ≠ '%' ∧ c ≠ '+' := by
  unfold shouldEscape at h
  unfold isQueryChar
  by_cases h1 : (isAlpha c || isDigit c) = true
  · refine ⟨by simp [h1], ?_, ?_⟩ <;> (rintro rfl; revert h1; decide)
  · simp only [h1, Bool.false_eq_true, ↓reduceIte] at h
    have hm : (Encoding.encodeQueryComponent == Encoding.encodeHost
        || Encoding.encodeQueryComponent == Encoding.encodeZone) = false := by decide
    simp only [hm, Bool.false_and, Bool.false_eq_true, ↓reduceIte] at h
    by_cases h2 : "-_.~".data.contains c = true
    · have hc : c = '-' ∨ c = '_' ∨ c = '.' ∨ c = '~' := by
        rw [show "-_.~".data = ['-', '_', '.', '~'] from rfl] at h2
        simpa using h2
      rcases hc with rfl | rfl | rfl | rfl <;> decide
    · simp only [h2, Bool.false_eq_true, ↓reduceIte] at h
      by_cases h3 : "$&+,/:;=?@".data.contains c = true
      · simp [h3] at h
      · simp only [h3, Bool.false_eq_true, ↓reduceIte] at h
        have hf : (Encoding.encodeQueryComponent == Encoding.encodeFragment) = false := by decide
        simp [hf] at h

/-- Every character `escape` writes for a query component is a letter, a
digit or one of `- _ . ~ + %`. -/
theorem escape_query_chars (s : List Char) (hs : ∀ c ∈ s, c.toNat < 256) :
    ∀ c ∈ escape s .encodeQueryComponent, isQueryChar c = true := by
  induction s with
  | nil => simp [escape]
  | cons x xs ih =>
    have hx := hs x (List.mem_cons_self _ _)
    have ih' := ih (fun c hc => hs c (List.mem_cons_of_mem _ hc))
    unfold escape
    by_cases h1 : (x == ' ' && Encoding.encodeQueryComponent == Encoding.encodeQueryComponent) = true
    · simp only [h1, ↓reduceIte]
      intro c hc
      rcases List.mem_cons.1 hc with rfl | hc
      · decide
      · exact ih' c hc
    · simp only [h1, Bool.false_eq_true, ↓reduceIte]
      by_cases h2 : shouldEscape x .encodeQueryComponent = true
      · simp only [h2, ↓reduceIte]
        intro c hc
        simp only [List.mem_cons] at hc
        rcases hc with rfl | rfl | rfl | hc
        · decide
        · exact isQueryChar_upperhex _ (by omega)
        · exact isQueryChar_upperhex _ (by omega)
        · exact ih' c hc
      · simp only [h2, Bool.false_eq_true, ↓reduceIte]
        intro c hc
        rcases List.mem_cons.1 hc with rfl | hc
        · exact (shouldEscape_query_false c (by simpa using h2)).1
        · exact ih' c hc

theorem unescapeCheck_plain (c : Char) (rest : List Char) (hc : c ≠ '%') :
    unescapeCheck .encodeQueryComponent (c :: rest) =
      unescapeCheck .encodeQueryComponent rest := by
  conv => lhs; unfold unescapeCheck
  simp [hc]

theorem unescapeCheck_hex (a b : Char) (rest : List Char) (ha : ishex a = true)
    (hb : ishex b = true) :
    unescapeCheck .encodeQueryComponent ('%' :: a :: b :: rest) =
      unescapeCheck .encodeQueryComponent rest := by
  conv => lhs; unfold unescapeCheck
  simp [ha, hb]

theorem unescapeBuild_plain (c : Char) (rest : List Char) (hc : c ≠ '%') (hp : c ≠ '+') :
    unescapeBuild .encodeQueryComponent (c :: rest) =
      c :: unescapeBuild .encodeQueryComponent rest := by
  conv => lhs; unfold unescapeBuild
  simp [hc, hp]

theorem unescapeBuild_plus (rest : List Char) :
    unescapeBuild .encodeQueryComponent ('+' :: rest) =
      ' ' :: unescapeBuild .encodeQueryComponent rest := by
  conv => lhs; unfold unescapeBuild
  simp

theorem unescapeBuild_hex (a b : Char) (rest : List Char) :
    unescapeBuild .encodeQueryComponent ('%' :: a :: b :: rest) =
      Char.ofNat (unhex a * 16 + unhex b) :: unescapeBuild .encodeQueryComponent rest := by
  conv => lhs; unfold unescapeBuild
  simp
/-- `unescape` undoes `QueryEscape` on byte strings. -/
theorem unescape_escape_query (s : List Char) (hs : ∀ c ∈ s, c.toNat < 256) :
    unescape (escape s .encodeQueryComponent) .encodeQueryComponent = .ok s := by
  have key : unescapeCheck .encodeQueryComponent (escape s .encodeQueryComponent) = none ∧
      unescapeBuild .encodeQueryComponent (escape s .encodeQueryComponent) = s := by
    induction s with
    | nil => exact ⟨rfl, rfl⟩
    | cons x xs ih =>
      have hx := hs x (List.mem_cons_self _ _)
      obtain ⟨ih1, ih2⟩ := ih (fun c hc => hs c (List.mem_cons_of_mem _ hc))
      unfold escape
      by_cases h1 : (x == ' ' && Encoding.encodeQueryComponent == Encoding.encodeQueryComponent) = true
      · simp only [h1, ↓reduceIte]
        have hx' : x = ' ' := by simpa using h1
        subst hx'
        exact ⟨by rw [unescapeCheck_plain _ _ (by decide), ih1],
          by rw [unescapeBuild_plus, ih2]⟩
      · simp only [h1, Bool.false_eq_true, ↓reduceIte]
        by_cases h2 : shouldEscape x .encodeQueryComponent = true
        · simp only [h2, ↓reduceIte]
          obtain ⟨ha1, ha2⟩ := upperhex_spec (x.toNat / 16) (by omega)
          obtain ⟨hb1, hb2⟩ := upperhex_spec (x.toNat % 16) (by omega)
          refine ⟨by rw [unescapeCheck_hex _ _ _ ha1 hb1, ih1], ?_⟩
          rw [unescapeBuild_hex, ha2, hb2, ih2, Nat.div_add_mod' x.toNat 16]
          simp
        · simp only [h2, Bool.false_eq_true, ↓reduceIte]
          obtain ⟨_, hp, hq⟩ := shouldEscape_query_false x (by simpa using h2)
          exact ⟨by rw [unescapeCheck_plain _ _ hp, ih1],
            by rw [unescapeBuild_plain _ _ hp hq, ih2]⟩
  simp [unescape, key.1, key.2]

end url

namespace url

theorem settings_piece (p rest : List Char) (hp : '&' ∉ p) :
    settings (p ++ '&' :: rest) = p :: settings rest := by
  induction p with
  | nil => simp [settings]
  | cons c p ih =>
    have hc : c ≠ '&' := fun h => hp (h ▸ List.mem_cons_self _ _)
    have ih' := ih (fun h => hp (List.mem_cons_of_mem _ h))
    simp [settings, hc, ih']

theorem settings_single (p : List Char) (hne : p ≠ []) (hp : '&' ∉ p) :
    settings p = [p] := by
  induction p with
  | nil => exact absurd rfl hne
  | cons c p ih =>
    have hc : c ≠ '&' := fun h => hp (h ▸ List.mem_cons_self _ _)
    cases p with
    | nil => simp [settings, hc]
    | cons d p =>
      have ih' := ih (by simp) (fun h => hp (List.mem_cons_of_mem _ h))
      simp only [settings, hc, beq_iff_eq, ↓reduceIte] at ih' ⊢
      rw [ih']

/-- The loop of `parseQuery` cuts the text that `Encode` joins with `&`
into the pieces joined. -/
theorem settings_intercalate (P : List (List Char)) (h : ∀ p ∈ P, p ≠ [] ∧ '&' ∉ p) :
    settings (List.intercalate ['&'] P) = P := by
  induction P with
  | nil => rfl
  | cons p P ih =>
    cases P with
    | nil =>
      simp only [List.intercalate, List.intersperse, List.flatten_cons, List.flatten_nil,
        List.append_nil]
      exact settings_single p (h p (List.mem_cons_self _ _)).1 (h p (List.mem_cons_self _ _)).2
    | cons q Q =>
      have ih' := ih (fun x hx => h x (List.mem_cons_of_mem _ hx))
      have e : List.intercalate ['&'] (p :: q :: Q) =
          p ++ '&' :: List.intercalate ['&'] (q :: Q) := by
        simp [List.intercalate, List.intersperse]
      rw [e, settings_piece p _ (h p (List.mem_cons_self _ _)).2, ih']

theorem cut_append (sep : Char) (a b : List Char) (h : sep ∉ a) :
    cut sep (a ++ sep :: b) = (a, b, true) := by
  induction a with
  | nil => simp [cut]
  | cons c a ih =>
    have hc : c ≠ sep := fun e => h (e ▸ List.mem_cons_self _ _)
    have ih' := ih (fun e => h (List.mem_cons_of_mem _ e))
    simp [cut, hc, ih']

theorem not_isQueryChar_mem (c : Char) (s : List Char) (hc : isQueryChar c = false)
    (hs : ∀ x ∈ s, isQueryChar x = true) : c ∉ s := by
  intro h
  rw [hs c h] at hc
  cases hc

theorem encodePair_spec (k v : String) (hk : isBytes k.data) (hv : isBytes v.data) :
    encodePair k v ≠ [] ∧ '&' ∉ encodePair k v ∧ (encodePair k v).contains ';' = false ∧
    cut '=' (encodePair k v) = (QueryEscape k, QueryEscape v, true) := by
  have ck := escape_query_chars k.data hk
  have cv := escape_query_chars v.data hv
  refine ⟨by simp [encodePair], ?_, ?_, ?_⟩
  · simp only [encodePair, List.mem_append, List.mem_cons, not_or]
    exact ⟨not_isQueryChar_mem _ _ (by decide) ck, by decide,
      not_isQueryChar_mem _ _ (by decide) cv⟩
  · have : ';' ∉ encodePair k v := by
      simp only [encodePair, List.mem_append, List.mem_cons, not_or]
      exact ⟨not_isQueryChar_mem _ _ (by decide) ck, by decide,
        not_isQueryChar_mem _ _ (by decide) cv⟩
    simpa using this
  · exact cut_append '=' _ _ (not_isQueryChar_mem _ _ (by decide) ck)

/-- One step of the loop of `parseQuery` on a text that `Encode` wrote. -/
theorem parseQuery_encodePair (k v : String) (rest : List (List Char)) (m : Values)
    (hk : isBytes k.data) (hv : isBytes v.data) :
    parseQuery (encodePair k v :: rest) m = parseQuery rest (m.add k v) := by
  obtain ⟨hne, _, hsemi, hcut⟩ := encodePair_spec k v hk hv
  have h1 : (encodePair k v).isEmpty = false := by
    cases h : encodePair k v with
    | nil => exact absurd h hne
    | cons _ _ => rfl
  rw [parseQuery]
  simp only [hsemi, h1, hcut, Bool.false_eq_true, ↓reduceIte, QueryEscape,
    unescape_escape_query k.data hk, unescape_escape_query v.data hv]

/-- The loop of `parseQuery` on the texts `Encode` wrote for one key. -/
theorem parseQuery_encodeEntry (k : String) (vs : List String) (rest : List (List Char))
    (m : Values) (hk : isBytes k.data) (hv : ∀ v ∈ vs, isBytes v.data) :
    parseQuery (encodeEntry (k, vs) ++ rest) m =
      parseQuery rest (vs.foldl (fun acc v => acc.add k v) m) := by
  induction vs generalizing m with
  | nil => rfl
  | cons v vs ih =>
    have e : encodeEntry (k, v :: vs) ++ rest =
        encodePair k v :: (encodeEntry (k, vs) ++ rest) := by
      simp [encodeEntry, encodePair]
    rw [e, parseQuery_encodePair k v _ m hk (hv v (List.mem_cons_self _ _)),
      ih _ (fun x hx => hv x (List.mem_cons_of_mem _ hx))]
    rfl

end url
namespace url

theorem Values_add_new (m : Values) (k v : String) (h : k ∉ m.map Prod.fst) :
    Values.add m k v = m ++ [(k, [v])] := by
  induction m with
  | nil => rfl
  | cons e m ih =>
    rcases e with ⟨k0, vs⟩
    have h0 : k0 ≠ k := fun e => h (by simp [e])
    have ih' := ih (fun hm => h (by simp [hm]))
    simp [Values.add, h0, ih']

theorem Values_add_last (m : Values) (k v : String) (l : List String)
    (h : k ∉ m.map Prod.fst) :
    Values.add (m ++ [(k, l)]) k v = m ++ [(k, l ++ [v])] := by
  induction m with
  | nil => simp [Values.add]
  | cons e m ih =>
    rcases e with ⟨k0, vs⟩
    have h0 : k0 ≠ k := fun e => h (by simp [e])
    have ih' := ih (fun hm => h (by simp [hm]))
    simp [Values.add, h0, ih']

theorem Values_add_all (m : Values) (k : String) (l vs : List String)
    (h : k ∉ m.map Prod.fst) :
    vs.foldl (fun acc v => Values.add acc k v) (m ++ [(k, l)]) = m ++ [(k, l ++ vs)] := by
  induction vs generalizing l with
  | nil => simp
  | cons v vs ih =>
    simp only [List.foldl_cons, Values_add_last m k v l h, ih]
    simp

/-- Adding the values of the entries of a map one after the other builds
the map again. -/
theorem Values_rebuild (E acc : Values) (hE : (E.map Prod.fst).Nodup)
    (hne : ∀ e ∈ E, e.2 ≠ []) (hd : ∀ k ∈ acc.map Prod.fst, k ∉ E.map Prod.fst) :
    E.foldl (fun a e => e.2.foldl (fun b v => Values.add b e.1 v) a) acc = acc ++ E := by
  induction E generalizing acc with
  | nil => simp
  | cons e E ih =>
    rcases e with ⟨k, vs⟩
    have hk : k ∉ acc.map Prod.fst := fun h => hd k h (by simp)
    have hvs := hne (k, vs) (List.mem_cons_self _ _)
    cases vs with
    | nil => exact absurd rfl hvs
    | cons v vs =>
      simp only [List.map_cons, List.nodup_cons] at hE
      simp only [List.foldl_cons, Values_add_new acc k v hk, Values_add_all acc k [v] vs hk]
      rw [ih (acc ++ [(k, [v] ++ vs)]) hE.2 (fun e he => hne e (List.mem_cons_of_mem _ he))]
      · simp
      · intro k' hk'
        simp only [List.map_append, List.map_cons, List.map_nil, List.mem_append,
          List.mem_singleton] at hk'
        rcases hk' with hk' | rfl
        · exact fun h => hd k' hk' (List.mem_cons_of_mem _ h)
        · exact hE.1

theorem parseQuery_entries (E : Values) (m : Values)
    (hb : ∀ e ∈ E, isBytes e.1.data ∧ ∀ v ∈ e.2, isBytes v.data) :
    parseQuery ((E.map encodeEntry).flatten) m =
      E.foldl (fun a e => e.2.foldl (fun b v => Values.add b e.1 v) a) m := by
  induction E generalizing m with
  | nil => rfl
  | cons e E ih =>
    rcases e with ⟨k, vs⟩
    obtain ⟨hk, hv⟩ := hb (k, vs) (List.mem_cons_self _ _)
    simp only [List.map_cons, List.flatten_cons, List.foldl_cons]
    rw [parseQuery_encodeEntry k vs _ m hk hv, ih _ (fun e he => hb e (List.mem_cons_of_mem _ he))]

theorem encodeEntry_pieces (E : Values)
    (hb : ∀ e ∈ E, isBytes e.1.data ∧ ∀ v ∈ e.2, isBytes v.data) :
    ∀ p ∈ (E.map encodeEntry).flatten, p ≠ [] ∧ '&' ∉ p := by
  intro p hp
  simp only [List.mem_flatten, List.mem_map] at hp
  obtain ⟨l, ⟨e, he, rfl⟩, hp⟩ := hp
  simp only [encodeEntry, List.mem_map] at hp
  obtain ⟨v, hv, rfl⟩ := hp
  obtain ⟨h1, h2, _, _⟩ := encodePair_spec e.1 v (hb e he).1 ((hb e he).2 v hv)
  exact ⟨h1, h2⟩

/-- `ParseQuery` reads a map that `Encode` wrote and whose entries are in
order as that map. -/
theorem parseQuery_encode (E : Values) (hE : (E.map Prod.fst).Nodup)
    (hne : ∀ e ∈ E, e.2 ≠ [])
    (hb : ∀ e ∈ E, isBytes e.1.data ∧ ∀ v ∈ e.2, isBytes v.data) :
    parseQuery (settings (List.intercalate ['&'] ((E.map encodeEntry).flatten))) [] = E := by
  rw [settings_intercalate _ (encodeEntry_pieces E hb), parseQuery_entries E [] hb,
    Values_rebuild E [] hE hne (by simp)]
  simp

theorem insertSorted_perm (e : String × List String) (xs : Values) :
    (insertSorted e xs).Perm (e :: xs) := by
  induction xs with
  | nil => exact List.Perm.refl _
  | cons x xs ih =>
    unfold insertSorted
    split
    · exact List.Perm.refl _
    · exact (List.Perm.cons x ih).trans (List.Perm.swap e x xs)

theorem sorted_perm (m : Values) : m.sorted.Perm m := by
  induction m with
  | nil => exact List.Perm.refl _
  | cons e m ih =>
    exact (insertSorted_perm e (Values.sorted m)).trans (List.Perm.cons e ih)

theorem lookup_cons (k k0 : String) (v : List String) (xs : Values) :
    List.lookup k ((k0, v) :: xs) = if k == k0 then some v else xs.lookup k := by
  cases h : k == k0 <;> simp [List.lookup, h]

theorem lookup_insertSorted (e : String × List String) (xs : Values) (k : String)
    (h : e.1 ∉ xs.map Prod.fst) :
    (insertSorted e xs).lookup k = if k == e.1 then some e.2 else xs.lookup k := by
  induction xs with
  | nil =>
    rcases e with ⟨ke, ve⟩
    exact lookup_cons k ke ve []
  | cons x xs ih =>
    have hx : e.1 ≠ x.1 := fun he => h (by simp [he])
    have ih' := ih (fun hm => h (by simp [hm]))
    rcases e with ⟨ke, ve⟩
    rcases x with ⟨kx, vx⟩
    unfold insertSorted
    split
    · exact lookup_cons k ke ve _
    · rw [lookup_cons, ih', lookup_cons]
      by_cases h1 : k = kx
      · subst h1
        have : (k == ke) = false := by simpa using fun he => hx he.symm
        simp [this]
      · have : (k == kx) = false := by simpa using h1
        simp [this]

/-- Sorting the entries by key does not change what a key stands for. -/
theorem lookup_sorted (m : Values) (k : String) (h : (m.map Prod.fst).Nodup) :
    m.sorted.lookup k = m.lookup k := by
  induction m with
  | nil => rfl
  | cons e m ih =>
    simp only [List.map_cons, List.nodup_cons] at h
    have hn : e.1 ∉ (Values.sorted m).map Prod.fst := by
      intro hm
      exact h.1 (((sorted_perm m).map Prod.fst).mem_iff.1 hm)
    have e1 : Values.sorted (e :: m) = insertSorted e (Values.sorted m) := rfl
    rw [e1, lookup_insertSorted e _ k hn, ih h.2]
    rcases e with ⟨ke, ve⟩
    rw [lookup_cons]

/-- The query of a URL whose `RawQuery` is the encoding of a well-formed
map is that map with its entries sorted by key. -/
theorem Query_Encode (u : URL) (m : Values) (h : m.WellFormed) :
    URL.Query { u with RawQuery := m.Encode } = m.sorted := by
  have hp := sorted_perm m
  have hE : (m.sorted.map Prod.fst).Nodup := ((hp.map Prod.fst).nodup_iff).2 h.nodup
  have hne : ∀ e ∈ m.sorted, e.2 ≠ [] := fun e he => h.nonempty e (hp.mem_iff.1 he)
  have hb : ∀ e ∈ m.sorted, isBytes e.1.data ∧ ∀ v ∈ e.2, isBytes v.data :=
    fun e he => h.bytes e (hp.mem_iff.1 he)
  simp only [URL.Query, Values.Encode]
  exact parseQuery_encode m.sorted hE hne hb

theorem lookup_set (m : Values) (k k' : String) (vs : List String) :
    (Values.set m k' vs).lookup k = if k == k' then some vs else m.lookup k := by
  induction m with
  | nil => exact lookup_cons k k' vs []
  | cons e m ih =>
    rcases e with ⟨k0, vs0⟩
    unfold Values.set
    by_cases h0 : k0 = k'
    · subst h0
      simp only [beq_self_eq_true, ↓reduceIte]
      rw [lookup_cons, lookup_cons]
      by_cases h1 : k = k0
      · subst h1; simp
      · have : (k == k0) = false := by simpa using h1
        simp [this]
    · have hb : (k0 == k') = false := by simpa using h0
      simp only [hb, Bool.false_eq_true, ↓reduceIte]
      rw [lookup_cons, lookup_cons, ih]
      by_cases h1 : k = k0
      · subst h1
        have : (k == k') = false := by simpa using h0
        simp [this]
      · have : (k == k0) = false := by simpa using h1
        simp [this]

end url
namespace url

theorem toNat_ofNat_small (n : Nat) (h : n < 256) : (Char.ofNat n).toNat = n := by
  have hv : n.isValidChar := Or.inl (by omega)
  simp only [Char.ofNat, hv, ↓reduceDIte, Char.ofNatAux, Char.toNat]
  show (UInt32.ofNat' n _).toNat = n
  simp [UInt32.ofNat', UInt32.toNat]

theorem unhex_lt (c : Char) : unhex c < 16 := by
  unfold unhex isDigit
  split
  · rename_i h; simp at h; omega
  · split
    · rename_i h; simp at h; omega
    · split
      · rename_i h; simp at h; omega
      · omega

theorem isBytes_cons (c : Char) (s : List Char) :
    isBytes (c :: s) ↔ c.toNat < 256 ∧ isBytes s := by
  simp [isBytes]

theorem isBytes_unescapeBuild (mode : Encoding) (n : Nat) :
    ∀ s : List Char, s.length ≤ n → isBytes s → isBytes (unescapeBuild mode s) := by
  induction n with
  | zero =>
    intro s hl _
    have : s = [] := List.length_eq_zero.1 (by omega)
    subst this
    simp [unescapeBuild, isBytes]
  | succ n ih =>
    intro s hl hs
    cases s with
    | nil => simp [unescapeBuild, isBytes]
    | cons c rest =>
      obtain ⟨hc, hrest⟩ := (isBytes_cons c rest).1 hs
      unfold unescapeBuild
      by_cases h1 : c = '%'
      · simp only [h1, beq_self_eq_true, ↓reduceIte]
        split
        · rename_i h1 h2 rest2
          obtain ⟨_, hr⟩ := (isBytes_cons _ _).1 hrest
          obtain ⟨_, hr2⟩ := (isBytes_cons _ _).1 hr
          refine (isBytes_cons _ _).2 ⟨?_, ih rest2 (by simp at hl; omega) hr2⟩
          have := unhex_lt h1
          have := unhex_lt h2
          rw [toNat_ofNat_small _ (by omega)]
          omega
        · simp [isBytes]
      · have hb : (c == '%') = false := by simpa using h1
        simp only [hb, Bool.false_eq_true, ↓reduceIte]
        split
        · exact (isBytes_cons _ _).2 ⟨by decide, ih rest (by simp at hl; omega) hrest⟩
        · exact (isBytes_cons _ _).2 ⟨hc, ih rest (by simp at hl; omega) hrest⟩

theorem isBytes_unescape (mode : Encoding) (s p : List Char) (h : unescape s mode = .ok p)
    (hs : isBytes s) : isBytes p := by
  unfold unescape at h
  split at h
  · cases h
  · cases h
    exact isBytes_unescapeBuild mode _ s (Nat.le_refl _) hs

theorem isBytes_cut (sep : Char) (s : List Char) (hs : isBytes s) :
    isBytes (cut sep s).1 ∧ isBytes (cut sep s).2.1 := by
  induction s with
  | nil => simp [cut, isBytes]
  | cons c s ih =>
    obtain ⟨hc, hrest⟩ := (isBytes_cons c s).1 hs
    obtain ⟨i1, i2⟩ := ih hrest
    unfold cut
    split
    · exact ⟨by simp [isBytes], hrest⟩
    · exact ⟨(isBytes_cons _ _).2 ⟨hc, i1⟩, i2⟩

theorem isBytes_settings (s : List Char) (hs : isBytes s) : ∀ p ∈ settings s, isBytes p := by
  induction s with
  | nil => simp [settings]
  | cons c s ih =>
    obtain ⟨hc, hrest⟩ := (isBytes_cons c s).1 hs
    have ih' := ih hrest
    unfold settings
    split
    · intro p hp
      rcases List.mem_cons.1 hp with rfl | hp
      · simp [isBytes]
      · exact ih' p hp
    · split
      · intro p hp
        rcases List.mem_cons.1 hp with rfl | hp
        · exact (isBytes_cons _ _).2 ⟨hc, by simp [isBytes]⟩
        · cases hp
      · rename_i x xs hx
        rw [hx] at ih'
        intro p hp
        rcases List.mem_cons.1 hp with rfl | hp
        · exact (isBytes_cons _ _).2 ⟨hc, ih' x (List.mem_cons_self _ _)⟩
        · exact ih' p (List.mem_cons_of_mem _ hp)

theorem mem_add (m : Values) (k v : String) (e : String × List String)
    (he : e ∈ Values.add m k v) :
    e ∈ m ∨ (e.1 = k ∧ (e.2 = [v] ∨ ∃ vs, (k, vs) ∈ m ∧ e.2 = vs ++ [v])) := by
  induction m with
  | nil =>
    simp only [Values.add, List.mem_singleton] at he
    subst he
    exact Or.inr ⟨rfl, Or.inl rfl⟩
  | cons x m ih =>
    rcases x with ⟨k0, vs0⟩
    unfold Values.add at he
    split at he
    · rename_i hk
      have hk' : k0 = k := by simpa using hk
      subst hk'
      rcases List.mem_cons.1 he with rfl | he
      · exact Or.inr ⟨rfl, Or.inr ⟨vs0, List.mem_cons_self _ _, rfl⟩⟩
      · exact Or.inl (List.mem_cons_of_mem _ he)
    · rcases List.mem_cons.1 he with rfl | he
      · exact Or.inl (List.mem_cons_self _ _)
      · rcases ih he with h | ⟨h1, h2⟩
        · exact Or.inl (List.mem_cons_of_mem _ h)
        · refine Or.inr ⟨h1, ?_⟩
          rcases h2 with h2 | ⟨vs, hvs, h2⟩
          · exact Or.inl h2
          · exact Or.inr ⟨vs, List.mem_cons_of_mem _ hvs, h2⟩

theorem keys_add (m : Values) (k v : String) :
    (Values.add m k v).map Prod.fst =
      if k ∈ m.map Prod.fst then m.map Prod.fst else m.map Prod.fst ++ [k] := by
  induction m with
  | nil => simp [Values.add]
  | cons x m ih =>
    rcases x with ⟨k0, vs0⟩
    unfold Values.add
    by_cases hk : k0 = k
    · subst hk
      simp
    · have hb : (k0 == k) = false := by simpa using hk
      simp only [hb, Bool.false_eq_true, ↓reduceIte, List.map_cons, ih, List.mem_cons]
      have hk' : ¬ k = k0 := fun h => hk h.symm
      by_cases hm : k ∈ m.map Prod.fst
      · simp [hm]
      · simp [hm, hk']

theorem WellFormed_nil : Values.WellFormed [] :=
  ⟨by simp, by simp, by simp⟩

theorem WellFormed_add (m : Values) (k v : String) (hm : m.WellFormed)
    (hk : isBytes k.data) (hv : isBytes v.data) : (Values.add m k v).WellFormed := by
  refine ⟨?_, ?_, ?_⟩
  · rw [keys_add]
    split
    · exact hm.nodup
    · rename_i hn
      exact List.Nodup.append hm.nodup (by simp) (by simpa using hn)
  · intro e he
    rcases mem_add m k v e he with h | ⟨_, h | ⟨vs, _, h⟩⟩
    · exact hm.nonempty e h
    · simp [h]
    · simp [h]
  · intro e he
    rcases mem_add m k v e he with h | ⟨h1, h | ⟨vs, hvs, h⟩⟩
    · exact hm.bytes e h
    · refine ⟨h1 ▸ hk, ?_⟩
      rw [h]
      intro x hx
      rcases List.mem_singleton.1 hx with rfl
      exact hv
    · refine ⟨h1 ▸ hk, ?_⟩
      rw [h]
      intro x hx
      rcases List.mem_append.1 hx with hx | hx
      · exact (hm.bytes (k, vs) hvs).2 x hx
      · rcases List.mem_singleton.1 hx with rfl
        exact hv

/-- The map `parseQuery` builds from byte strings is well formed. -/
theorem WellFormed_parseQuery (ss : List (List Char)) (m : Values) (hm : m.WellFormed)
    (hs : ∀ p ∈ ss, isBytes p) : (parseQuery ss m).WellFormed := by
  induction ss generalizing m with
  | nil => exact hm
  | cons p ss ih =>
    have hp := hs p (List.mem_cons_self _ _)
    have ih' := fun m hm => ih m hm (fun q hq => hs q (List.mem_cons_of_mem _ hq))
    unfold parseQuery
    split
    · exact ih' m hm
    · split
      · exact ih' m hm
      · obtain ⟨c1, c2⟩ := isBytes_cut '=' p hp
        simp only
        split
        · exact ih' m hm
        · rename_i key hkey
          split
          · exact ih' m hm
          · rename_i value hvalue
            exact ih' _ (WellFormed_add m _ _ hm (isBytes_unescape _ _ _ hkey c1)
              (isBytes_unescape _ _ _ hvalue c2))

theorem WellFormed_Query (u : URL) (h : isBytes u.RawQuery.data) : u.Query.WellFormed :=
  WellFormed_parseQuery _ [] WellFormed_nil (isBytes_settings _ h)

theorem mem_set (m : Values) (k : String) (vs : List String) (e : String × List String)
    (he : e ∈ Values.set m k vs) : e ∈ m ∨ e = (k, vs) := by
  induction m with
  | nil =>
    simp only [Values.set, List.mem_singleton] at he
    exact Or.inr he
  | cons x m ih =>
    rcases x with ⟨k0, vs0⟩
    unfold Values.set at he
    split at he
    · rename_i hk
      have hk' : k0 = k := by simpa using hk
      subst hk'
      rcases List.mem_cons.1 he with rfl | he
      · exact Or.inr rfl
      · exact Or.inl (List.mem_cons_of_mem _ he)
    · rcases List.mem_cons.1 he with rfl | he
      · exact Or.inl (List.mem_cons_self _ _)
      · rcases ih he with h | h
        · exact Or.inl (List.mem_cons_of_mem _ h)
        · exact Or.inr h

theorem keys_set (m : Values) (k : String) (vs : List String) :
    (Values.set m k vs).map Prod.fst =
      if k ∈ m.map Prod.fst then m.map Prod.fst else m.map Prod.fst ++ [k] := by
  induction m with
  | nil => simp [Values.set]
  | cons x m ih =>
    rcases x with ⟨k0, vs0⟩
    unfold Values.set
    by_cases hk : k0 = k
    · subst hk
      simp
    · have hb : (k0 == k) = false := by simpa using hk
      simp only [hb, Bool.false_eq_true, ↓reduceIte, List.map_cons, ih, List.mem_cons]
      have hk' : ¬ k = k0 := fun h => hk h.symm
      by_cases hm : k ∈ m.map Prod.fst
      · simp [hm]
      · simp [hm, hk']

theorem WellFormed_set (m : Values) (k : String) (vs : List String) (hm : m.WellFormed)
    (hk : isBytes k.data) (hne : vs ≠ []) (hv : ∀ v ∈ vs, isBytes v.data) :
    (Values.set m k vs).WellFormed := by
  refine ⟨?_, ?_, ?_⟩
  · rw [keys_set]
    split
    · exact hm.nodup
    · rename_i hn
      exact List.Nodup.append hm.nodup (by simp) (by simpa using hn)
  · intro e he
    rcases mem_set m k vs e he with h | rfl
    · exact hm.nonempty e h
    · exact hne
  · intro e he
    rcases mem_set m k vs e he with h | rfl
    · exact hm.bytes e h
    · exact ⟨hk, hv⟩

end url
theorem isBytes_decimal (n : Int) : url.isBytes (fmt.decimal n).data := by
  have hd : ∀ m : Nat, url.isBytes (Nat.toDigits 10 m) := by
    intro m c hc
    have hall := (fmt.toDigits_spec m).2.1
    have hcd := List.all_eq_true.1 hall c hc
    cases h : strconv.digit? c with
    | none => simp [h] at hcd
    | some d =>
      unfold strconv.digit? at h
      split at h
      · rename_i hr
        omega
      · cases h
  unfold fmt.decimal
  split
  · exact (url.isBytes_cons _ _).2 ⟨by decide, hd _⟩
  · exact hd _

/-- The map `addOptions` encodes: the query of the path with the values
of the pagination put in. -/
theorem setAll_Values (Q : url.Values) (p : Pagination) (hQ : Q.WellFormed) :
    (setAll Q (query.Values p)).WellFormed ∧
    ∀ k, (setAll Q (query.Values p)).lookup k =
      if k = "page[size]" ∧ p.PerPage ≠ 0 then some [fmt.decimal p.PerPage]
      else if k = "page[number]" ∧ p.Page ≠ 0 then some [fmt.decimal p.Page]
      else Q.lookup k := by
  have b1 : url.isBytes ("page[number]" : String).data := by unfold url.isBytes; decide
  have b2 : url.isBytes ("page[size]" : String).data := by unfold url.isBytes; decide
  have w1 := url.WellFormed_set Q "page[number]" [fmt.decimal p.Page] hQ b1 (by simp)
    (by simpa using isBytes_decimal p.Page)
  have hne : ("page[number]" : String) ≠ "page[size]" := by decide
  by_cases h1 : p.Page = 0 <;> by_cases h2 : p.PerPage = 0
  · simp [query.Values, h1, h2, setAll, hQ]
  · refine ⟨?_, fun k => ?_⟩
    · simpa [query.Values, h1, h2, setAll, url.Values.add] using
        url.WellFormed_set Q "page[size]" [fmt.decimal p.PerPage] hQ b2 (by simp)
          (by simpa using isBytes_decimal p.PerPage)
    · simp only [query.Values, h1, h2, ↓reduceIte, url.Values.add, setAll, url.lookup_set]
      by_cases hk : k = "page[size]" <;> simp [hk, h1, h2]
  · refine ⟨?_, fun k => ?_⟩
    · simpa [query.Values, h1, h2, setAll, url.Values.add] using w1
    · simp only [query.Values, h1, h2, ↓reduceIte, url.Values.add, setAll, url.lookup_set]
      by_cases hk : k = "page[number]" <;> simp [hk, h1, h2]
  · refine ⟨?_, fun k => ?_⟩
    · have : query.Values p =
          [("page[number]", [fmt.decimal p.Page]), ("page[size]", [fmt.decimal p.PerPage])] := by
        simp [query.Values, h1, h2, url.Values.add]
      rw [this]
      exact url.WellFormed_set _ "page[size]" [fmt.decimal p.PerPage] w1 b2 (by simp)
        (by simpa using isBytes_decimal p.PerPage)
    · have : query.Values p =
          [("page[number]", [fmt.decimal p.Page]), ("page[size]", [fmt.decimal p.PerPage])] := by
        simp [query.Values, h1, h2, url.Values.add]
      rw [this]
      simp only [setAll, url.lookup_set]
      by_cases hk : k = "page[size]"
      · simp [hk, h2]
      · by_cases hk2 : k = "page[number]" <;> simp [hk, hk2, h1, h2]

/-- C17, counterexample: the path `%3A b` parses, with the path `: b`; the
text `addOptions` returns for it with `Page` 1 parses to the path `./: b`,
which is not the path of `s`. -/
theorem addOptions_changes_path :
    (url.Parse "%3A b").map (fun x => x.Path) = .ok ": b" ∧
    addOptions "%3A b" (some ⟨1, 0⟩) = ("./:%20b?page%5Bnumber%5D=1", none) ∧
    (url.Parse "./:%20b?page%5Bnumber%5D=1").map (fun x => x.Path) = .ok "./: b" ∧
    ("./: b" : String) ≠ ": b" :=
  ⟨rfl, rfl, rfl, by decide⟩

/-! ## Resolving the URL of a request -/

namespace url

theorem cut_absent (sep : Char) (s : List Char) (h : sep ∉ s) : cut sep s = (s, [], false) := by
  induction s with
  | nil => rfl
  | cons c s ih =>
    have hc : c ≠ sep := fun e => h (e ▸ List.mem_cons_self _ _)
    have ih' := ih (fun e => h (List.mem_cons_of_mem _ e))
    simp [cut, hc, ih']

theorem cutLast_absent (sep : Char) (s : List Char) (h : sep ∉ s) : cutLast sep s = none := by
  induction s with
  | nil => rfl
  | cons c s ih =>
    have hc : c ≠ sep := fun e => h (e ▸ List.mem_cons_self _ _)
    have ih' := ih (fun e => h (List.mem_cons_of_mem _ e))
    simp [cutLast, hc, ih']

theorem cutLast_append (sep : Char) (a b : List Char) (h : sep ∉ b) :
    cutLast sep (a ++ sep :: b) = some (a, sep :: b) := by
  induction a with
  | nil => simp [cutLast, cutLast_absent sep b h]
  | cons c a ih => simp [cutLast, ih]

theorem cutLast_spec (sep : Char) (s before sepOn : List Char)
    (h : cutLast sep s = some (before, sepOn)) :
    s = before ++ sepOn ∧ sepOn.head? = some sep := by
  induction s generalizing before with
  | nil => cases h
  | cons c s ih =>
    unfold cutLast at h
    split at h
    · rename_i b so hb
      cases h
      obtain ⟨h1, h2⟩ := ih b hb
      exact ⟨by simp [← h1], h2⟩
    · split at h
      · rename_i hc
        cases h
        exact ⟨rfl, by simpa using hc⟩
      · cases h

theorem not_mem_of_class (p : Char → Bool) (c : Char) (s : List Char) (hc : p c = false)
    (hs : s.all p = true) : c ∉ s := by
  intro h
  rw [List.all_eq_true.1 hs c h] at hc
  cases hc

theorem isPathChar_spec (c : Char) (h : isPathChar c = true) :
    shouldEscape c .encodePath = false ∧ c ≠ '%' ∧ ¬ (c.toNat < 32 ∨ c.toNat = 127) := by
  refine ⟨?_, ?_, ?_⟩
  · unfold isPathChar at h
    unfold shouldEscape
    by_cases h1 : (isAlpha c || isDigit c) = true
    · simp [h1]
    · simp only [h1, Bool.false_eq_true, ↓reduceIte]
      simp only [Bool.not_eq_true] at h1
      simp only [h1, Bool.false_or, Bool.or_eq_true, beq_iff_eq] at h
      rcases h with (((h | h) | h) | h) | h <;> subst h <;> decide
  · rintro rfl
    revert h
    decide
  · unfold isPathChar isAlpha isDigit at h
    simp only [Bool.or_eq_true, Bool.and_eq_true, decide_eq_true_eq, beq_iff_eq] at h
    rcases h with (((((h | h) | h) | h) | h) | h) | h
    · omega
    · omega
    · subst h; decide
    · subst h; decide
    · subst h; decide
    · subst h; decide
    · subst h; decide

theorem escape_plain (s : List Char) (h : s.all isPathChar = true) :
    escape s .encodePath = s := by
  induction s with
  | nil => rfl
  | cons c s ih =>
    simp only [List.all_cons, Bool.and_eq_true] at h
    have hc := (isPathChar_spec c h.1).1
    have hm : (Encoding.encodePath == Encoding.encodeQueryComponent) = false := by decide
    simp [escape, hm, hc, ih h.2]

theorem unescape_plain (s : List Char) (h : s.all isPathChar = true) :
    unescape s .encodePath = .ok s := by
  have key : unescapeCheck .encodePath s = none ∧ unescapeBuild .encodePath s = s := by
    induction s with
    | nil => exact ⟨rfl, rfl⟩
    | cons c s ih =>
      simp only [List.all_cons, Bool.and_eq_true] at h
      have hc := (isPathChar_spec c h.1).2.1
      obtain ⟨i1, i2⟩ := ih h.2
      have hm : (Encoding.encodePath == Encoding.encodeQueryComponent) = false := by decide
      have hh : (Encoding.encodePath == Encoding.encodeHost) = false := by decide
      have hz : (Encoding.encodePath == Encoding.encodeZone) = false := by decide
      constructor
      · conv => lhs; unfold unescapeCheck
        simp [hc, hh, hz, i1]
      · conv => lhs; unfold unescapeBuild
        simp [hc, hm, i2]
  simp [unescape, key.1, key.2]

theorem setPath_plain (u : URL) (p : List Char) (h : p.all isPathChar = true) :
    u.setPath p = .ok { u with Path := ⟨p⟩, RawPath := "" } := by
  simp [URL.setPath, unescape_plain p h, escape_plain p h]

theorem getSchemeLoop_plain (rawURL pre cs : List Char) (h : cs.all isPathChar = true) :
    getSchemeLoop rawURL pre cs = .ok ([], rawURL) := by
  induction cs generalizing pre with
  | nil => rfl
  | cons c cs ih =>
    simp only [List.all_cons, Bool.and_eq_true] at h
    have hc : c ≠ ':' := by
      rintro rfl
      exact absurd h.1 (by decide)
    unfold getSchemeLoop
    split
    · exact ih _ h.2
    · split
      · split
        · rfl
        · exact ih _ h.2
      · simp [hc]

theorem stringContainsCTLByte_plain (s : List Char) (h : s.all isPathChar = true) :
    stringContainsCTLByte s = false := by
  unfold stringContainsCTLByte
  rw [← Bool.not_eq_true, List.any_eq_true]
  rintro ⟨c, hc, hx⟩
  have := (isPathChar_spec c (List.all_eq_true.1 h c hc)).2.2
  simp only [Bool.or_eq_true, decide_eq_true_eq, beq_iff_eq] at hx
  exact this hx

/-- `url.Parse` on a plain path gives the URL with that path and nothing
else. -/
theorem Parse_plain (s : String) (h : isPlainPath s.data = true) (hne : s ≠ "")
    (hnet : s.data.take 2 ≠ ['/', '/']) :
    Parse s = .ok { URL.zero with Path := s } := by
  have hall : s.data.all isPathChar = true := by
    unfold isPlainPath at h
    exact (Bool.and_eq_true _ _ ▸ h).1
  have hhash := not_mem_of_class isPathChar '#' s.data (by decide) hall
  have hq := not_mem_of_class isPathChar '?' s.data (by decide) hall
  have hcolon := not_mem_of_class isPathChar ':' s.data (by decide) hall
  have hstar : (s.data == ['*']) = false := by
    rw [← Bool.not_eq_true, beq_iff_eq]
    intro e
    rw [e] at hall
    exact absurd hall (by decide)
  have hempty : s.data.isEmpty = false := by
    rcases s with ⟨_ | ⟨c, cs⟩⟩
    · exact absurd rfl hne
    · rfl
  have hlast : (s.data.getLast? == some '?') = false := by
    rw [← Bool.not_eq_true, beq_iff_eq]
    intro e
    exact hq (List.mem_of_getLast?_eq_some e)
  have hseg : ((cut '/' s.data).1).contains ':' = false := by
    rw [← Bool.not_eq_true]
    intro hm
    have hm : ':' ∈ (cut '/' s.data).1 := by simpa using hm
    have hsub : ∀ (l : List Char) (c : Char), c ∈ (cut '/' l).1 → c ∈ l := by
      intro l
      induction l with
      | nil => intro c hc; simp [cut] at hc
      | cons x l ih =>
        intro c hc
        unfold cut at hc
        split at hc
        · simp at hc
        · rcases List.mem_cons.1 hc with rfl | hc
          · exact List.mem_cons_self _ _
          · exact List.mem_cons_of_mem _ (ih c hc)
    exact hcolon (hsub _ _ hm)
  have hnet' : (s.data.take 2 == ['/', '/']) = false := by
    rw [← Bool.not_eq_true, beq_iff_eq]
    exact hnet
  simp only [Parse, cut_absent '#' s.data hhash, parse, stringContainsCTLByte_plain s.data hall,
    hempty, hstar, getScheme, getSchemeLoop_plain s.data [] s.data hall, toLower,
    List.map_nil, hlast, cut_absent '?' s.data hq, hseg, hnet',
    setPath_plain _ s.data hall, Bool.false_eq_true, ↓reduceIte, Bool.false_and,
    Bool.and_false, List.isEmpty_nil, Bool.not_true, Bool.and_self, Bool.not_false,
    Bool.true_and, Bool.or_false]
  rfl

end url
namespace url

theorem splitSlash_ne_nil (s : List Char) : splitSlash s ≠ [] := by
  cases s with
  | nil => simp [splitSlash]
  | cons c s =>
    unfold splitSlash
    split
    · simp
    · split <;> simp

theorem splitSlash_append (a b : List Char) :
    splitSlash (a ++ '/' :: b) = splitSlash a ++ splitSlash b := by
  induction a with
  | nil => simp [splitSlash]
  | cons c a ih =>
    by_cases hc : c = '/'
    · subst hc
      simp [splitSlash, ih]
    · have hb : (c == '/') = false := by simpa using hc
      cases hs : splitSlash a with
      | nil => exact absurd hs (splitSlash_ne_nil a)
      | cons x xs =>
        simp only [List.cons_append, splitSlash, hb, Bool.false_eq_true, ↓reduceIte,
          List.append_eq, ih, hs]

theorem intercalate_splitSlash (s : List Char) : List.intercalate ['/'] (splitSlash s) = s := by
  induction s with
  | nil => rfl
  | cons c s ih =>
    by_cases hc : c = '/'
    · subst hc
      cases hs : splitSlash s with
      | nil => exact absurd hs (splitSlash_ne_nil s)
      | cons x xs =>
        rw [hs] at ih
        simp only [splitSlash, beq_self_eq_true, ↓reduceIte, hs]
        simp only [List.intercalate, List.intersperse, List.flatten_cons, List.nil_append,
          List.singleton_append] at ih ⊢
        rw [ih]
    · have hb : (c == '/') = false := by simpa using hc
      cases hs : splitSlash s with
      | nil => exact absurd hs (splitSlash_ne_nil s)
      | cons x xs =>
        rw [hs] at ih
        simp only [splitSlash, hb, Bool.false_eq_true, ↓reduceIte, hs]
        cases xs with
        | nil =>
          simp only [List.intercalate, List.intersperse, List.flatten_cons, List.flatten_nil,
            List.append_nil] at ih ⊢
          rw [ih]
        | cons y ys =>
          simp only [List.intercalate, List.intersperse, List.flatten_cons,
            List.cons_append] at ih ⊢
          rw [ih]

theorem resolveLoop_plain (segs : List (List Char)) (dst : List Char) (first : Bool)
    (hne : segs ≠ [])
    (h : (segs.all fun e => e != ['.'] && e != ['.', '.']) = true) :
    resolveLoop segs dst first =
      (if first then dst else dst ++ ['/']) ++ List.intercalate ['/'] segs := by
  induction segs generalizing dst first with
  | nil => exact absurd rfl hne
  | cons e segs ih =>
    simp only [List.all_cons, Bool.and_eq_true, bne_iff_ne, ne_eq] at h
    obtain ⟨⟨h1, h2⟩, hrest⟩ := h
    have hb1 : (e == ['.']) = false := by simpa using h1
    have hb2 : (e == ['.', '.']) = false := by simpa using h2
    cases segs with
    | nil =>
      simp [resolveLoop, resolveStep, hb1, hb2, List.intercalate, List.intersperse]
    | cons n rest =>
      have ih' := ih ((if first then dst else dst ++ ['/']) ++ e) false (by simp)
        (by simpa using hrest)
      simp only [resolveLoop, resolveStep, hb1, hb2, Bool.false_eq_true, ↓reduceIte, ih']
      simp [List.intercalate, List.intersperse]

theorem all_append_left {α : Type} (p : α → Bool) (a b : List α) (h : (a ++ b).all p = true) :
    a.all p = true := by
  rw [List.all_append, Bool.and_eq_true] at h
  exact h.1

/-- `resolvePath` for a plain reference against a plain base path that is
empty or begins with a slash. -/
theorem resolvePath_plain (base ref : List Char) (hb : isPlainPath base = true)
    (hr : isPlainPath ref = true) (hne : ref ≠ [])
    (hroot : base = [] ∨ base.head? = some '/') :
    resolvePath base ref = joinPath base ref ∧ (joinPath base ref).all isPathChar = true ∧
      (joinPath base ref).head? = some '/' := by
  unfold isPlainPath at hb hr
  rw [Bool.and_eq_true] at hb hr
  obtain ⟨hbc, hbs⟩ := hb
  obtain ⟨hrc, hrs⟩ := hr
  have hrne : ref.isEmpty = false := by
    cases ref with
    | nil => exact absurd rfl hne
    | cons _ _ => rfl
  -- the loop on a text without `.` and `..`
  have loop : ∀ full : List Char, full ≠ [] →
      ((splitSlash full).all fun e => e != ['.'] && e != ['.', '.']) = true →
      (let r := resolveLoop (splitSlash full) ['/'] true
       if r.length > 1 && (r.drop 1).head? == some '/' then r.drop 1 else r) =
        if full.head? = some '/' then full else '/' :: full := by
    intro full hf hs
    simp only [resolveLoop_plain _ ['/'] true (splitSlash_ne_nil full) hs, ↓reduceIte,
      intercalate_splitSlash, List.singleton_append, List.length_cons, List.drop_succ_cons,
      List.drop_zero]
    have hl : 0 < full.length := List.length_pos.2 hf
    by_cases hh : full.head? = some '/'
    · simp [hh, hl]
    · simp [hh]
  by_cases h1 : ref.head? = some '/'
  · have hj : joinPath base ref = ref := by simp [joinPath, h1]
    rw [hj]
    refine ⟨?_, hrc, h1⟩
    have := loop ref hne hrs
    simp only [resolvePath, hrne, Bool.false_eq_true, ↓reduceIte, h1, bne_self_eq_false]
    simpa [h1] using this
  · have hn : (ref.head? != some '/') = true := by simpa using h1
    cases hc : cutLast '/' base with
    | none =>
      have hj : joinPath base ref = '/' :: ref := by simp [joinPath, h1, hc]
      rw [hj]
      refine ⟨?_, by simpa using ⟨by decide, List.all_eq_true.1 hrc⟩, rfl⟩
      have := loop ref hne hrs
      simp only [resolvePath, hrne, Bool.false_eq_true, ↓reduceIte, hn, hc, List.nil_append]
      simpa [h1] using this
    | some val =>
      rcases val with ⟨before, sepOn⟩
      obtain ⟨hbase, hsep⟩ := cutLast_spec '/' base before sepOn hc
      have hj : joinPath base ref = before ++ '/' :: ref := by simp [joinPath, h1, hc]
      rw [hj]
      obtain ⟨tail, rfl⟩ : ∃ tail, sepOn = '/' :: tail := by
        cases sepOn with
        | nil => cases hsep
        | cons x xs => exact ⟨xs, by simp at hsep; rw [hsep]⟩
      have hbefore : before.all isPathChar = true := by
        rw [hbase] at hbc
        exact all_append_left _ _ _ hbc
      have hsegs : ((splitSlash before).all fun e => e != ['.'] && e != ['.', '.']) = true := by
        rw [hbase, splitSlash_append] at hbs
        exact all_append_left _ _ _ hbs
      have hhead : (before ++ '/' :: ref).head? = some '/' := by
        cases before with
        | nil => rfl
        | cons x xs =>
          rcases hroot with hroot | hroot
          · rw [hroot] at hbase
            cases hbase
          · rw [hbase] at hroot
            simpa using hroot
      refine ⟨?_, ?_, hhead⟩
      · have := loop (before ++ '/' :: ref) (by simp) (by
          rw [splitSlash_append, List.all_append, hsegs, hrs]
          rfl)
        simp only [resolvePath, hrne, Bool.false_eq_true, ↓reduceIte, hn, hc]
        simpa [hhead] using this
      · rw [List.all_append, hbefore]
        simpa using ⟨by decide, List.all_eq_true.1 hrc⟩

end url
namespace url

theorem cut_spec (sep : Char) (s : List Char) :
    sep ∉ (cut sep s).1 ∧
    ((cut sep s).2.2 = true → s = (cut sep s).1 ++ sep :: (cut sep s).2.1) ∧
    ((cut sep s).2.2 = false → s = (cut sep s).1) := by
  induction s with
  | nil => simp [cut]
  | cons c s ih =>
    unfold cut
    split
    · rename_i hc
      have hc' : c = sep := by simpa using hc
      simp [hc']
    · rename_i hc
      have hc' : ¬ sep = c := fun e => hc (by simp [e])
      obtain ⟨i1, i2, i3⟩ := ih
      refine ⟨by simp [hc', i1], fun h => ?_, fun h => ?_⟩
      · simp only at h ⊢
        rw [List.cons_append, ← i2 h]
      · simp only at h ⊢
        rw [← i3 h]

/-- What a plain host is made of. -/
theorem isPlainHost_spec (h : List Char) (hh : isPlainHost h = true) :
    h ≠ [] ∧ (∀ c ∈ h, isHostChar c = true ∨ c = ':') ∧ (h.getLast? == some ':') = false ∧
    (cutLast ':' h = none ∨
      ∃ name port, cutLast ':' h = some (name, ':' :: port) ∧ port.all isDigit = true) := by
  unfold isPlainHost at hh
  simp only [Bool.and_eq_true, Bool.not_eq_true'] at hh
  obtain ⟨⟨hne, hname⟩, hport⟩ := hh
  obtain ⟨s1, s2, s3⟩ := cut_spec ':' h
  have hdig : ∀ c, isDigit c = true → isHostChar c = true := by
    intro c hc
    simp [isHostChar, hc]
  have hcolon : isDigit ':' = false := by decide
  cases hf : (cut ':' h).2.2 with
  | false =>
    have e := s3 hf
    have hno : ':' ∉ h := by rw [e]; exact s1
    refine ⟨?_, ?_, ?_, Or.inl (cutLast_absent ':' h hno)⟩
    · intro hnil
      rw [hnil] at hne
      simp [cut] at hne
    · intro c hc
      rw [e] at hc
      exact Or.inl (List.all_eq_true.1 hname c hc)
    · rw [← Bool.not_eq_true, beq_iff_eq]
      intro hl
      exact hno (List.mem_of_getLast?_eq_some hl)
  | true =>
    have e := s2 hf
    simp only [hf, ↓reduceIte, Bool.and_eq_true, Bool.not_eq_true'] at hport
    obtain ⟨hpne, hpd⟩ := hport
    have hno : ':' ∉ (cut ':' h).2.1 := not_mem_of_class isDigit ':' _ hcolon hpd
    refine ⟨?_, ?_, ?_, Or.inr ⟨(cut ':' h).1, (cut ':' h).2.1, ?_, hpd⟩⟩
    · intro hnil
      rw [hnil] at hne
      simp [cut] at hne
    · intro c hc
      rw [e] at hc
      rcases List.mem_append.1 hc with hc | hc
      · exact Or.inl (List.all_eq_true.1 hname c hc)
      · rcases List.mem_cons.1 hc with rfl | hc
        · exact Or.inr rfl
        · exact Or.inl (hdig c (List.all_eq_true.1 hpd c hc))
    · rw [← Bool.not_eq_true, beq_iff_eq]
      intro hl
      rw [e] at hl
      cases hp : (cut ':' h).2.1 with
      | nil => simp [hp] at hpne
      | cons x xs =>
        rw [hp] at hl hno
        have hl' : (x :: xs).getLast? = some ':' := by
          simpa [List.getLast?_append, List.getLast?_cons_cons] using hl
        exact hno (List.mem_of_getLast?_eq_some hl')
    · conv => lhs; rw [e]
      exact cutLast_append ':' _ _ hno

theorem hostChar_spec (c : Char) (h : isHostChar c = true ∨ c = ':') :
    shouldEscapeHost c = false ∧ shouldEscape c .encodeHost = false ∧ c ≠ '%' ∧ c ≠ '/' ∧
    c ≠ '?' ∧ c ≠ '#' ∧ c ≠ '@' ∧ c ≠ '[' ∧ ¬ (c.toNat < 32 ∨ c.toNat = 127) := by
  rcases h with h | rfl
  · unfold isHostChar at h
    have hne : ∀ d : Char, isHostChar d = false → c ≠ d := by
      rintro d hd rfl
      unfold isHostChar at hd
      rw [h] at hd
      cases hd
    refine ⟨?_, ?_, hne _ (by decide), hne _ (by decide), hne _ (by decide), hne _ (by decide),
      hne _ (by decide), hne _ (by decide), ?_⟩
    · unfold shouldEscapeHost
      by_cases h1 : (isAlpha c || isDigit c) = true
      · simp [h1]
      · simp only [Bool.not_eq_true] at h1
        simp only [h1, Bool.false_or, Bool.or_eq_true, beq_iff_eq] at h
        rcases h with h | h <;> subst h <;> decide
    · unfold shouldEscape
      by_cases h1 : (isAlpha c || isDigit c) = true
      · simp [h1]
      · simp only [Bool.not_eq_true] at h1
        simp only [h1, Bool.false_or, Bool.or_eq_true, beq_iff_eq] at h
        rcases h with h | h <;> subst h <;> decide
    · unfold isAlpha isDigit at h
      simp only [Bool.or_eq_true, Bool.and_eq_true, decide_eq_true_eq, beq_iff_eq] at h
      rcases h with ((h | h) | h) | h
      · omega
      · omega
      · subst h; decide
      · subst h; decide
  · decide

theorem escape_host (h : List Char) (hh : ∀ c ∈ h, isHostChar c = true ∨ c = ':') :
    escape h .encodeHost = h := by
  induction h with
  | nil => rfl
  | cons c s ih =>
    have hc := (hostChar_spec c (hh c (List.mem_cons_self _ _))).2.1
    have hm : (Encoding.encodeHost == Encoding.encodeQueryComponent) = false := by decide
    simp [escape, hm, hc, ih (fun x hx => hh x (List.mem_cons_of_mem _ hx))]

theorem unescape_host (h : List Char) (hh : ∀ c ∈ h, isHostChar c = true ∨ c = ':') :
    unescape h .encodeHost = .ok h := by
  have key : unescapeCheck .encodeHost h = none ∧ unescapeBuild .encodeHost h = h := by
    induction h with
    | nil => exact ⟨rfl, rfl⟩
    | cons c s ih =>
      obtain ⟨h1, _, h3, _⟩ := hostChar_spec c (hh c (List.mem_cons_self _ _))
      obtain ⟨i1, i2⟩ := ih (fun x hx => hh x (List.mem_cons_of_mem _ hx))
      have hm : (Encoding.encodeHost == Encoding.encodeQueryComponent) = false := by decide
      constructor
      · conv => lhs; unfold unescapeCheck
        simp [h3, h1, i1]
      · conv => lhs; unfold unescapeBuild
        simp [h3, hm, i2]
  simp [unescape, key.1, key.2]

theorem parseAuthority_plain (h : List Char) (hh : isPlainHost h = true) :
    parseAuthority h = .ok (none, h) := by
  obtain ⟨hne, hc, _, hport⟩ := isPlainHost_spec h hh
  have hat : '@' ∉ h := fun hm => (hostChar_spec _ (hc _ hm)).2.2.2.2.2.2.1 rfl
  have hbr : (h.head? == some '[') = false := by
    rw [← Bool.not_eq_true, beq_iff_eq]
    intro e
    exact (hostChar_spec _ (hc _ (List.mem_of_mem_head? e))).2.2.2.2.2.2.2.1 rfl
  have hhost : parseHost h = .ok h := by
    unfold parseHost
    rcases hport with hp | ⟨name, port, hp, hd⟩
    · simp [hbr, hp, unescape_host h hc]
    · simp [hbr, hp, validOptionalPort, hd, unescape_host h hc]
  simp [parseAuthority, cutLast_absent '@' h hat, hhost]

theorem removeEmptyPort_plain (h : String) (hh : isPlainHost h.data = true) :
    http.removeEmptyPort h = h := by
  obtain ⟨_, _, hl, _⟩ := isPlainHost_spec h.data hh
  simp [http.removeEmptyPort, hl]

end url
namespace url

/-- The text `String()` writes for a URL with a scheme, a plain host and a
plain path that begins with a slash. -/
theorem String_plain (sch : String) (h p : List Char) (hs : sch ≠ "")
    (hh : isPlainHost h = true) (hp : p.all isPathChar = true) (hp1 : p.head? = some '/') :
    URL.String (plainURL sch ⟨h⟩ ⟨p⟩) = ⟨sch.data ++ ':' :: '/' :: '/' :: (h ++ p)⟩ := by
  obtain ⟨hne, hc, _, _⟩ := isPlainHost_spec h hh
  have hhost : (⟨h⟩ : String) ≠ "" := by
    intro e
    exact hne (congrArg String.data e)
  have hpne : p ≠ [] := by
    intro e
    rw [e] at hp1
    cases hp1
  have hstar : (⟨p⟩ : String) ≠ "*" := by
    intro e
    have := congrArg String.data e
    simp only at this
    rw [this] at hp1
    cases hp1
  have hesc : URL.EscapedPath ⟨sch, "", none, ⟨h⟩, ⟨p⟩, "", false, false, "", "", ""⟩ = p := by
    simp [URL.EscapedPath, hstar, escape_plain p hp]
  simp [URL.String, plainURL, hesc, URL.authorityText, hs, hhost, escape_host h hc, hp1, hpne]

/-- `url.Parse` reads the text of a URL with a lower-case scheme, a plain
host and a plain path back as that URL. -/
theorem Parse_text (scheme h p : List Char)
    (hsch : ∀ rest, getScheme (scheme ++ ':' :: rest) = .ok (scheme, rest))
    (hlow : toLower scheme = scheme) (hsne : scheme ≠ []) (hshash : '#' ∉ scheme)
    (hsctl : stringContainsCTLByte scheme = false) (hh : isPlainHost h = true)
    (hp : p.all isPathChar = true) (hp1 : p.head? = some '/') :
    Parse ⟨scheme ++ ':' :: '/' :: '/' :: (h ++ p)⟩ = .ok (plainURL ⟨scheme⟩ ⟨h⟩ ⟨p⟩) := by
  obtain ⟨hne, hc, _, _⟩ := isPlainHost_spec h hh
  obtain ⟨p', rfl⟩ : ∃ p', p = '/' :: p' := by
    cases p with
    | nil => cases hp1
    | cons x xs => exact ⟨xs, by simp at hp1; rw [hp1]⟩
  have hnoh : ∀ d : Char, (isHostChar d = false ∧ d ≠ ':') → d ∉ h := by
    rintro d ⟨hd, hd2⟩ hm
    rcases hc d hm with h1 | h1
    · rw [h1] at hd; cases hd
    · exact hd2 h1
  have hnop : ∀ d : Char, isPathChar d = false → d ∉ ('/' :: p') :=
    fun d hd => not_mem_of_class isPathChar d _ hd hp
  have hrestmem : ∀ d : Char, (isHostChar d = false ∧ d ≠ ':') → isPathChar d = false →
      d ∉ '/' :: '/' :: (h ++ '/' :: p') := by
    intro d h1 h2 hm
    rcases List.mem_cons.1 hm with rfl | hm
    · exact absurd h2 (by decide)
    · rcases List.mem_cons.1 hm with rfl | hm
      · exact absurd h2 (by decide)
      · rcases List.mem_append.1 hm with hm | hm
        · exact hnoh d h1 hm
        · exact hnop d h2 hm
  have hctl : stringContainsCTLByte (scheme ++ ':' :: '/' :: '/' :: (h ++ '/' :: p')) = false := by
    unfold stringContainsCTLByte at hsctl ⊢
    rw [List.any_append, hsctl, Bool.false_or, ← Bool.not_eq_true, List.any_eq_true]
    rintro ⟨c, hm, hx⟩
    simp only [Bool.or_eq_true, decide_eq_true_eq, beq_iff_eq] at hx
    rcases List.mem_cons.1 hm with rfl | hm
    · revert hx; decide
    · rcases List.mem_cons.1 hm with rfl | hm
      · revert hx; decide
      · rcases List.mem_cons.1 hm with rfl | hm
        · revert hx; decide
        · rcases List.mem_append.1 hm with hm | hm
          · exact (hostChar_spec c (hc c hm)).2.2.2.2.2.2.2.2 hx
          · exact (isPathChar_spec c (List.all_eq_true.1 hp c hm)).2.2 hx
  have hq := hrestmem '?' (by decide) (by decide)
  have hlast : (('/' :: '/' :: (h ++ '/' :: p')).getLast? == some '?') = false := by
    rw [← Bool.not_eq_true, beq_iff_eq]
    intro e
    exact hq (List.mem_of_getLast?_eq_some e)
  have hslash : '/' ∉ h := hnoh '/' (by decide)
  have hauth : parseAuthority h = .ok (none, h) := parseAuthority_plain h hh
  have hdrop : (h ++ '/' :: p').drop h.length = '/' :: p' := by simp
  have hhash : '#' ∉ scheme ++ ':' :: '/' :: '/' :: (h ++ '/' :: p') := by
    intro hm
    rcases List.mem_append.1 hm with hm | hm
    · exact hshash hm
    · rcases List.mem_cons.1 hm with hm | hm
      · revert hm; decide
      · exact hrestmem '#' (by decide) (by decide) hm
  have hstar : ((scheme ++ ':' :: '/' :: '/' :: (h ++ '/' :: p')) == ['*']) = false := by
    rw [← Bool.not_eq_true, beq_iff_eq]
    intro e
    have := congrArg List.length e
    simp at this
    omega
  have hemp : (scheme ++ ':' :: '/' :: '/' :: (h ++ '/' :: p')).isEmpty = false := by
    cases scheme <;> rfl
  have hsemp : scheme.isEmpty = false := by
    cases scheme with
    | nil => exact absurd rfl hsne
    | cons _ _ => rfl
  have hcut : cut '/' (h ++ '/' :: p') = (h, p', true) := cut_append '/' h p' hslash
  have hset : ∀ u : URL, u.setPath ('/' :: p') = .ok { u with Path := ⟨'/' :: p'⟩, RawPath := "" } :=
    fun u => setPath_plain u _ hp
  unfold Parse
  simp only [cut_absent '#' _ hhash]
  unfold parse
  simp only [hctl, hemp, hstar, hsch, hlow, hlast, cut_absent '?' _ hq, hsemp, hcut, hauth,
    hdrop, hset, Bool.false_eq_true, ↓reduceIte, Bool.false_and, Bool.not_false,
    Bool.true_or, Bool.true_and, List.head?_cons, bne_self_eq_false, List.take_succ_cons,
    List.take_zero, beq_self_eq_true, List.drop_succ_cons, List.drop_zero,
    List.isEmpty_nil, Bool.and_true, Bool.and_false, Bool.not_true]
  rfl

/-- The schemes `http` and `https` as `getScheme` reads them. -/
theorem scheme_http (sch : String) (hs : sch = "http" ∨ sch = "https") :
    (∀ rest, getScheme (sch.data ++ ':' :: rest) = .ok (sch.data, rest)) ∧
    toLower sch.data = sch.data ∧ sch.data ≠ [] ∧ '#' ∉ sch.data ∧
    stringContainsCTLByte sch.data = false ∧ sch ≠ "" := by
  rcases hs with rfl | rfl
  · exact ⟨fun _ => rfl, by decide, by decide, by decide, by decide, by decide⟩
  · exact ⟨fun _ => rfl, by decide, by decide, by decide, by decide, by decide⟩

end url
theorem String_eta (s : String) : (⟨s.data⟩ : String) = s := rfl

/-- The path `joinPath` gives, case by case. -/
theorem joinPath_cases (base ref : List Char) :
    (ref.head? = some '/' → url.joinPath base ref = ref) ∧
    (∀ dir, base = dir ++ ['/'] → ref.head? ≠ some '/' → url.joinPath base ref = base ++ ref) ∧
    (base = [] → ref.head? ≠ some '/' → url.joinPath base ref = '/' :: ref) := by
  refine ⟨fun h => by simp [url.joinPath, h], fun dir hb h => ?_, fun hb h => ?_⟩
  · subst hb
    have hc : url.cutLast '/' (dir ++ ['/']) = some (dir, ['/']) :=
      url.cutLast_append '/' dir [] (by simp)
    simp [url.joinPath, h, hc]
  · subst hb
    simp [url.joinPath, h, url.cutLast]

/-- The text `NewRequest` writes for a body that can be encoded. -/
theorem encoded_ok {T : Type} (ty : json.SourceType T) (body : Option (json.Target T)) :
    (∀ b, body = some b → ∃ text, json.encodeInterface ty b = .ok text) →
    ∃ buf, (match body with
      | none => Except.ok ""
      | some b =>
        match json.encodeInterface ty b with
        | .error err => .error err
        | .ok text => .ok (json.encodeStruct [⟨"data", false, text⟩] ++ "\n")) =
      (Except.ok buf : Except GoError String) := by
  intro henc
  cases body with
  | none => exact ⟨"", rfl⟩
  | some b =>
    obtain ⟨text, ht⟩ := henc b rfl
    exact ⟨json.encodeStruct [⟨"data", false, text⟩] ++ "\n", by simp only [ht]⟩

/-- The URL that `BaseURL.Parse(urlStr)` gives for a plain `urlStr` and a
base URL with a plain host and a plain path. -/
theorem URL_Parse_plain (base : url.URL) (urlStr : String)
    (huser : base.User = none) (hraw : base.RawPath = "")
    (hpath : url.isPlainPath base.Path.data = true)
    (hroot : base.Path.data = [] ∨ base.Path.data.head? = some '/')
    (hurl : url.isPlainPath urlStr.data = true) (hne : urlStr ≠ "")
    (hnet : urlStr.data.take 2 ≠ ['/', '/']) :
    url.URL.Parse (some base) urlStr =
      .ok (.ok (url.plainURL base.Scheme base.Host ⟨url.joinPath base.Path.data urlStr.data⟩)) ∧
    (url.joinPath base.Path.data urlStr.data).all url.isPathChar = true ∧
    (url.joinPath base.Path.data urlStr.data).head? = some '/' := by
  have hne' : urlStr.data ≠ [] := fun e => hne (String.ext e)
  obtain ⟨hres, hall, hhead⟩ := url.resolvePath_plain base.Path.data urlStr.data hpath hurl hne'
    hroot
  refine ⟨?_, hall, hhead⟩
  have hbc : base.Path.data.all url.isPathChar = true := by
    unfold url.isPlainPath at hpath
    exact (Bool.and_eq_true _ _ ▸ hpath).1
  have huc : urlStr.data.all url.isPathChar = true := by
    unfold url.isPlainPath at hurl
    exact (Bool.and_eq_true _ _ ▸ hurl).1
  have hbstar : base.Path ≠ "*" := by
    intro e
    rw [e] at hbc
    exact absurd hbc (by decide)
  have hustar : urlStr ≠ "*" := by
    intro e
    rw [e] at huc
    exact absurd huc (by decide)
  have hb : url.URL.EscapedPath base = base.Path.data := by
    simp [url.URL.EscapedPath, hraw, hbstar, url.escape_plain _ hbc]
  have hr : url.URL.EscapedPath
      ⟨"", "", none, "", urlStr, "", false, false, "", "", ""⟩ = urlStr.data := by
    simp [url.URL.EscapedPath, hustar, url.escape_plain _ huc]
  rcases base with ⟨bs, bo, bu, bh, bp, brp, boh, bfq, brq, bf, brf⟩
  simp only at huser hraw hb hres hall
  subst huser hraw
  simp only [url.URL.Parse, url.Parse_plain urlStr hurl hne hnet, url.URL.zero,
    url.URL.ResolveReference, hr, hb, hres, url.URL.withPath, url.setPath_plain _ _ hall,
    url.plainURL]
  simp [hne]

/-- C16, counterexample: against the base `http://h/api/v1` the relative
`accounts` gives a request for `http://h/api/accounts`, where the last
element of the base path is replaced, not for `http://h/api/v1/accounts`;
and `//other.com/foo`, which begins with a slash, replaces the host as
well as the path. -/
theorem NewRequest_url_replaces_segment :
    (∃ req, NewRequest fooSource (some (url.plainURL "http" "h" "/api/v1")) "GET" "accounts"
        none = .ok (some req, none) ∧
      req.URL = url.plainURL "http" "h" "/api/accounts" ∧
      req.URL.String = "http://h/api/accounts") ∧
    (∃ req, NewRequest fooSource (some (url.plainURL "http" "h" "/api/v1")) "GET"
        "//other.com/foo" none = .ok (some req, none) ∧
      req.URL = url.plainURL "http" "other.com" "/foo" ∧
      req.URL.String = "http://other.com/foo") :=
  ⟨⟨_, NewRequest_steps fooSource (some (url.plainURL "http" "h" "/api/v1")) "GET" "accounts"
      none (url.plainURL "http" "h" "/api/accounts") ""
      ⟨"GET", url.plainURL "http" "h" "/api/accounts", "h", [], ""⟩ rfl rfl rfl, rfl, rfl⟩,
   ⟨_, NewRequest_steps fooSource (some (url.plainURL "http" "h" "/api/v1")) "GET"
      "//other.com/foo" none (url.plainURL "http" "other.com" "/foo") ""
      ⟨"GET", url.plainURL "http" "other.com" "/foo", "other.com", [], ""⟩ rfl rfl rfl,
      rfl, rfl⟩⟩

/-! ## Reading back what the encoder wrote -/

namespace json

theorem scanBuild_append (xs ys : List Char) (s : Scanner) (b : Builder) :
    scanBuild s b (xs ++ ys) =
      match scanBuild s b xs with
      | .error e => .error e
      | .ok (s1, b1) => scanBuild s1 b1 ys := by
  induction xs generalizing s b with
  | nil => rfl
  | cons c cs ih =>
    simp only [List.cons_append, scanBuild]
    rcases h : s.next c with ⟨s1, op⟩
    cases op <;> simp only [List.append_eq, ih]

theorem hexDigit_spec (d : Nat) (h : d < 16) :
    url.ishex (hexDigit d) = true ∧ url.unhex (hexDigit d) = d := by
  interval_cases d <;> exact ⟨by decide, by decide⟩

/-- What the encoder writes for one character, case by case. -/
theorem encodeChar_cases (c : Char) :
    (encodeChar c = [c] ∧ c ≠ '"' ∧ c ≠ '\\' ∧ 32 ≤ c.toNat) ∨
    (∃ e, encodeChar c = ['\\', e] ∧ e ≠ 'u' ∧ escapeChar e = c ∧
      (e == 'b' || e == 'f' || e == 'n' || e == 'r' || e == 't' || e == '\\' || e == '/'
        || e == '"') = true) ∨
    (∃ h1 h2 h3 h4, encodeChar c = ['\\', 'u', h1, h2, h3, h4] ∧
      url.ishex h1 = true ∧ url.ishex h2 = true ∧ url.ishex h3 = true ∧ url.ishex h4 = true ∧
      hex4 h1 h2 h3 h4 = some c.toNat ∧ isSurrogate c.toNat = false) := by
  unfold encodeChar
  by_cases h128 : c.toNat < 128
  · simp only [h128, ↓reduceIte]
    by_cases hs : htmlSafe c = true
    · left
      simp only [hs, ↓reduceIte, true_and]
      unfold htmlSafe at hs
      simp only [Bool.and_eq_true, decide_eq_true_eq, bne_iff_ne, ne_eq] at hs
      exact ⟨hs.1.1.1.1.2, hs.1.1.1.2, hs.1.1.1.1.1⟩
    · simp only [hs, Bool.false_eq_true, ↓reduceIte]
      by_cases hq : (c == '\\' || c == '"') = true
      · right; left
        simp only [hq, ↓reduceIte]
        simp only [Bool.or_eq_true, beq_iff_eq] at hq
        rcases hq with rfl | rfl
        · exact ⟨_, rfl, by decide, by decide, by decide⟩
        · exact ⟨_, rfl, by decide, by decide, by decide⟩
      · simp only [hq, Bool.false_eq_true, ↓reduceIte]
        have hof : ∀ n : Nat, c.toNat = n → c = Char.ofNat n := fun n hn => by
          rw [← hn, Char.ofNat_toNat]
        by_cases h8 : c.toNat = 8
        · right; left
          simp only [h8, beq_self_eq_true, ↓reduceIte]
          exact ⟨_, rfl, by decide, by rw [hof 8 h8]; decide, by decide⟩
        · have b8 : (c.toNat == 8) = false := by simpa using h8
          simp only [b8, Bool.false_eq_true, ↓reduceIte]
          by_cases h12 : c.toNat = 12
          · right; left
            simp only [h12, beq_self_eq_true, ↓reduceIte]
            exact ⟨_, rfl, by decide, by rw [hof 12 h12]; decide, by decide⟩
          · have b12 : (c.toNat == 12) = false := by simpa using h12
            simp only [b12, Bool.false_eq_true, ↓reduceIte]
            by_cases h10 : c.toNat = 10
            · right; left
              simp only [h10, beq_self_eq_true, ↓reduceIte]
              exact ⟨_, rfl, by decide, by rw [hof 10 h10]; decide, by decide⟩
            · have b10 : (c.toNat == 10) = false := by simpa using h10
              simp only [b10, Bool.false_eq_true, ↓reduceIte]
              by_cases h13 : c.toNat = 13
              · right; left
                simp only [h13, beq_self_eq_true, ↓reduceIte]
                exact ⟨_, rfl, by decide, by rw [hof 13 h13]; decide, by decide⟩
              · have b13 : (c.toNat == 13) = false := by simpa using h13
                simp only [b13, Bool.false_eq_true, ↓reduceIte]
                by_cases h9 : c.toNat = 9
                · right; left
                  simp only [h9, beq_self_eq_true, ↓reduceIte]
                  exact ⟨_, rfl, by decide, by rw [hof 9 h9]; decide, by decide⟩
                · have b9 : (c.toNat == 9) = false := by simpa using h9
                  simp only [b9, Bool.false_eq_true, ↓reduceIte]
                  right; right
                  obtain ⟨a1, a2⟩ := hexDigit_spec (c.toNat / 16) (by omega)
                  obtain ⟨c1, c2⟩ := hexDigit_spec (c.toNat % 16) (by omega)
                  refine ⟨_, _, _, _, rfl, by decide, by decide, a1, c1, ?_, ?_⟩
                  · have z1 : url.ishex '0' = true := by decide
                    have z2 : url.unhex '0' = 0 := by decide
                    simp only [hex4, z1, a1, c1, Bool.and_self, ↓reduceIte, z2, a2, c2,
                      Nat.zero_mul, Nat.zero_add, Option.some.injEq]
                    omega
                  · simp only [isSurrogate, Bool.and_eq_false_imp, decide_eq_true_eq,
                      decide_eq_false_iff_not]
                    omega
  · simp only [h128, ↓reduceIte]
    by_cases hl : (c.toNat == 8232 || c.toNat == 8233) = true
    · right; right
      simp only [hl, ↓reduceIte]
      simp only [Bool.or_eq_true, beq_iff_eq] at hl
      rcases hl with hl | hl
      · rw [hl]
        exact ⟨_, _, _, _, rfl, by decide, by decide, by decide, by decide, by decide, by decide⟩
      · rw [hl]
        exact ⟨_, _, _, _, rfl, by decide, by decide, by decide, by decide, by decide, by decide⟩
    · left
      simp only [hl, Bool.false_eq_true, ↓reduceIte, true_and]
      refine ⟨?_, ?_, by omega⟩
      · rintro rfl
        exact h128 (by decide)
      · rintro rfl
        exact h128 (by decide)

end json
namespace json

theorem scanBuild_cons_continue (s s1 : Scanner) (l : List Char) (st : List Frame)
    (tp : Option JValue) (c : Char) (cs : List Char) (h : s.next c = (s1, .scanContinue)) :
    scanBuild s ⟨l, st, tp⟩ (c :: cs) = scanBuild s1 ⟨l ++ [c], st, tp⟩ cs := by
  simp only [scanBuild, h, Builder.next]

/-- The scanner and the decoder over what the encoder wrote for one
character of a string. -/
theorem scanBuild_encodeChar (c : Char) (et : Bool) (ps : List ParseState)
    (err : Option String) (l : List Char) (st : List Frame) (tp : Option JValue)
    (rest : List Char) :
    scanBuild ⟨.inString, et, ps, err⟩ ⟨l, st, tp⟩ (encodeChar c ++ rest) =
      scanBuild ⟨.inString, et, ps, err⟩ ⟨l ++ encodeChar c, st, tp⟩ rest := by
  rcases encodeChar_cases c with ⟨h, h1, h2, h3⟩ | ⟨e, h, -, -, he⟩ |
    ⟨h1, h2, h3, h4, h, x1, x2, x3, x4, -, -⟩
  · rw [h]
    have hn : Scanner.next ⟨.inString, et, ps, err⟩ c =
        (⟨.inString, et, ps, err⟩, .scanContinue) := by
      have hlt : ¬ c.toNat < 32 := by omega
      simp [Scanner.next, h1, h2, hlt]
    rw [List.singleton_append, scanBuild_cons_continue _ _ _ _ _ _ _ hn]
  · rw [h]
    have hn1 : Scanner.next ⟨.inString, et, ps, err⟩ '\\' =
        (⟨.inStringEsc, et, ps, err⟩, .scanContinue) := rfl
    have hn2 : Scanner.next ⟨.inStringEsc, et, ps, err⟩ e =
        (⟨.inString, et, ps, err⟩, .scanContinue) := by
      simp only [Scanner.next, he, ↓reduceIte]
    show scanBuild _ _ ('\\' :: e :: rest) = _
    rw [scanBuild_cons_continue _ _ _ _ _ _ _ hn1, scanBuild_cons_continue _ _ _ _ _ _ _ hn2,
      List.append_assoc]
    rfl
  · rw [h]
    have hn1 : Scanner.next ⟨.inString, et, ps, err⟩ '\\' =
        (⟨.inStringEsc, et, ps, err⟩, .scanContinue) := rfl
    have hn2 : Scanner.next ⟨.inStringEsc, et, ps, err⟩ 'u' =
        (⟨.inStringEscU 0, et, ps, err⟩, .scanContinue) := rfl
    have hn3 : Scanner.next ⟨.inStringEscU 0, et, ps, err⟩ h1 =
        (⟨.inStringEscU 1, et, ps, err⟩, .scanContinue) := by
      simp [Scanner.next, x1]
    have hn4 : Scanner.next ⟨.inStringEscU 1, et, ps, err⟩ h2 =
        (⟨.inStringEscU 2, et, ps, err⟩, .scanContinue) := by
      simp [Scanner.next, x2]
    have hn5 : Scanner.next ⟨.inStringEscU 2, et, ps, err⟩ h3 =
        (⟨.inStringEscU 3, et, ps, err⟩, .scanContinue) := by
      simp [Scanner.next, x3]
    have hn6 : Scanner.next ⟨.inStringEscU 3, et, ps, err⟩ h4 =
        (⟨.inString, et, ps, err⟩, .scanContinue) := by
      simp [Scanner.next, x4]
    show scanBuild _ _ ('\\' :: 'u' :: h1 :: h2 :: h3 :: h4 :: rest) = _
    rw [scanBuild_cons_continue _ _ _ _ _ _ _ hn1, scanBuild_cons_continue _ _ _ _ _ _ _ hn2,
      scanBuild_cons_continue _ _ _ _ _ _ _ hn3, scanBuild_cons_continue _ _ _ _ _ _ _ hn4,
      scanBuild_cons_continue _ _ _ _ _ _ _ hn5, scanBuild_cons_continue _ _ _ _ _ _ _ hn6]
    simp only [List.append_assoc]
    rfl

/-- The scanner and the decoder over the rest of a string literal the
encoder wrote, from behind its opening quote to its closing quote. -/
theorem scanBuild_encodeChars (x : List Char) (et : Bool) (ps : List ParseState)
    (err : Option String) (l : List Char) (st : List Frame) (tp : Option JValue)
    (rest : List Char) :
    scanBuild ⟨.inString, et, ps, err⟩ ⟨l, st, tp⟩ (encodeChars x ++ '"' :: rest) =
      scanBuild ⟨.endValue, et, ps, err⟩ ⟨l ++ (encodeChars x ++ ['"']), st, tp⟩ rest := by
  induction x generalizing l with
  | nil =>
    have hn : Scanner.next ⟨.inString, et, ps, err⟩ '"' =
        (⟨.endValue, et, ps, err⟩, .scanContinue) := rfl
    simp only [encodeChars, List.nil_append]
    rw [scanBuild_cons_continue _ _ _ _ _ _ _ hn]
  | cons c x ih =>
    simp only [encodeChars, List.append_assoc]
    rw [scanBuild_encodeChar, ih]
    simp only [List.append_assoc]

theorem unquote_plain (c : Char) (rest : List Char) (h : c ≠ '\\') :
    unquoteChars (c :: rest) = c :: unquoteChars rest := by
  have hb : (c == '\\') = false := by simpa using h
  conv => lhs; delta unquoteChars
  simp only [List.brecOn, List.rec, hb, Bool.false_eq_true, ↓reduceIte]
  delta unquoteChars
  rfl
theorem unquote_esc (e : Char) (rest : List Char) (h : e ≠ 'u') :
    unquoteChars ('\\' :: e :: rest) = escapeChar e :: unquoteChars rest := by
  have hb : (e == 'u') = false := by simpa using h
  conv => lhs; delta unquoteChars
  simp only [List.brecOn, List.rec, beq_self_eq_true, hb, Bool.false_eq_true, ↓reduceIte]
  delta unquoteChars
  rfl
theorem unquote_u (h1 h2 h3 h4 : Char) (r : Nat) (rest : List Char)
    (hx : hex4 h1 h2 h3 h4 = some r) (hs : isSurrogate r = false) :
    unquoteChars ('\\' :: 'u' :: h1 :: h2 :: h3 :: h4 :: rest) =
      Char.ofNat r :: unquoteChars rest := by
  conv => lhs; delta unquoteChars
  simp only [List.brecOn, List.rec, beq_self_eq_true, ↓reduceIte, hx, hs, Bool.false_eq_true]
  delta unquoteChars
  rfl
theorem unquoteChars_encodeChar (c : Char) (rest : List Char) :
    unquoteChars (encodeChar c ++ rest) = c :: unquoteChars rest := by
  rcases encodeChar_cases c with ⟨h, h1, h2, h3⟩ | ⟨e, h, hu, hc, -⟩ |
    ⟨h1, h2, h3, h4, h, -, -, -, -, hx, hs⟩
  · rw [h]
    exact unquote_plain c rest h2
  · rw [h, ← hc]
    exact unquote_esc e rest hu
  · rw [h]
    have := unquote_u h1 h2 h3 h4 c.toNat rest hx hs
    rw [Char.ofNat_toNat] at this
    exact this

/-- Unquoting what the encoder wrote for a string gives the string. -/
theorem unquoteChars_encodeChars (x : List Char) : unquoteChars (encodeChars x) = x := by
  induction x with
  | nil => rfl
  | cons c x ih =>
    simp only [encodeChars, unquoteChars_encodeChar, ih]

/-- The value of the literal the encoder writes for a string. -/
theorem literalValue_encodeString (x : String) :
    literalValue (encodeString x).data = .string x := by
  simp [encodeString, literalValue, unquoteChars_encodeChars]

end json
namespace json

theorem encodeChars_plain (name : List Char)
    (h : (name.all fun c => c.toNat < 128 && htmlSafe c) = true) : encodeChars name = name := by
  induction name with
  | nil => rfl
  | cons c cs ih =>
    simp only [List.all_cons, Bool.and_eq_true, decide_eq_true_eq] at h
    simp only [encodeChars, encodeChar, h.1.1, h.1.2, ↓reduceIte, ih h.2, List.singleton_append]

theorem endLiteral_nil (st : List Frame) (tp : Option JValue) :
    Builder.endLiteral ⟨[], st, tp⟩ = ⟨[], st, tp⟩ := rfl

theorem endLiteral_cons (c : Char) (l : List Char) (st : List Frame) (tp : Option JValue) :
    Builder.endLiteral ⟨c :: l, st, tp⟩ =
      Builder.attach ⟨[], st, tp⟩ (literalValue (c :: l)) (c :: l) := rfl

/-- The scanner and the decoder read what the encoder writes for a string
as that string. -/
theorem Reads_string (x : String) : Reads 0 (encodeString x).data (.string x) := by
  intro et ps err st tp rest _ _
  refine ⟨.endValue, ⟨(encodeString x).data, st, tp⟩, ?_, fun c _ => rfl, ?_⟩
  · have hn : Scanner.next ⟨.beginValue, et, ps, err⟩ '"' =
        (⟨.inString, et, ps, err⟩, .scanBeginLiteral) := rfl
    show scanBuild _ _ ('"' :: ((encodeChars x.data ++ ['"']) ++ rest)) = _
    rw [scanBuild, hn]
    simp only [Builder.next, List.append_assoc, List.singleton_append]
    rw [scanBuild_encodeChars]
    rfl
  · rw [show (encodeString x).data = '"' :: (encodeChars x.data ++ ['"']) from rfl,
      endLiteral_cons]
    rw [show ('"' :: (encodeChars x.data ++ ['"'])) = (encodeString x).data from rfl,
      literalValue_encodeString]

end json
namespace json

/-- The scanner and the decoder over a string literal the encoder wrote,
from any state in which a quote begins a string. -/
theorem scanBuild_string (x : String) (stp0 : Step) (et : Bool) (ps : List ParseState)
    (err : Option String) (st : List Frame) (tp : Option JValue) (rest : List Char)
    (h : Scanner.next ⟨stp0, et, ps, err⟩ '"' = (⟨.inString, et, ps, err⟩, .scanBeginLiteral)) :
    scanBuild ⟨stp0, et, ps, err⟩ ⟨[], st, tp⟩ ((encodeString x).data ++ rest) =
      scanBuild ⟨.endValue, et, ps, err⟩ ⟨(encodeString x).data, st, tp⟩ rest := by
  show scanBuild _ _ ('"' :: ((encodeChars x.data ++ ['"']) ++ rest)) = _
  rw [scanBuild, h]
  simp only [Builder.next, List.append_assoc, List.singleton_append]
  rw [scanBuild_encodeChars]
  rfl

theorem endLiteral_encodeString (x : String) (st : List Frame) (tp : Option JValue) :
    Builder.endLiteral ⟨(encodeString x).data, st, tp⟩ =
      Builder.attach ⟨[], st, tp⟩ (.string x) (encodeString x).data := by
  rw [show (encodeString x).data = '"' :: (encodeChars x.data ++ ['"']) from rfl,
    endLiteral_cons]
  rw [show ('"' :: (encodeChars x.data ++ ['"'])) = (encodeString x).data from rfl,
    literalValue_encodeString]

/-- The scanner and the decoder read `true` and `false` as the encoder
writes them. -/
theorem Reads_bool (x : Bool) : Reads 0 (encodeBool x).data (.bool x) := by
  intro et ps err st tp rest _ _
  cases x
  · exact ⟨.endValue, ⟨['f', 'a', 'l', 's', 'e'], st, tp⟩, rfl, fun c _ => rfl, rfl⟩
  · exact ⟨.endValue, ⟨['t', 'r', 'u', 'e'], st, tp⟩, rfl, fun c _ => rfl, rfl⟩

theorem scanBuild_digits (ds : List Char) (h : ds.all url.isDigit = true) (et : Bool)
    (ps : List ParseState) (err : Option String) (l : List Char) (st : List Frame)
    (tp : Option JValue) (rest : List Char) :
    scanBuild ⟨.one, et, ps, err⟩ ⟨l, st, tp⟩ (ds ++ rest) =
      scanBuild ⟨.one, et, ps, err⟩ ⟨l ++ ds, st, tp⟩ rest := by
  induction ds generalizing l with
  | nil => simp
  | cons d ds ih =>
    simp only [List.all_cons, Bool.and_eq_true] at h
    have hn : Scanner.next ⟨.one, et, ps, err⟩ d = (⟨.one, et, ps, err⟩, .scanContinue) := by
      simp [Scanner.next, h.1]
    rw [List.cons_append, scanBuild_cons_continue _ _ _ _ _ _ _ hn, ih h.2]
    simp

theorem toDigitsCore_head (fuel n : Nat) (ds : List Char) (h0 : 0 < n) (hf : n < fuel) :
    ∃ d tl, Nat.toDigitsCore 10 fuel n ds = d :: tl ∧ 49 ≤ d.toNat ∧ d.toNat ≤ 57 := by
  induction fuel generalizing n ds with
  | zero => omega
  | succ fuel ih =>
    unfold Nat.toDigitsCore
    by_cases hz : n / 10 = 0
    · simp only [hz, ↓reduceIte]
      refine ⟨_, _, rfl, ?_⟩
      have hlt : n < 10 := by omega
      rw [Nat.mod_eq_of_lt hlt]
      interval_cases n <;> decide
    · simp only [hz, ↓reduceIte]
      exact ih (n / 10) _ (by omega) (by omega)

/-- The decimal text of a positive number: a digit from 1 to 9, then
digits. -/
theorem toDigits_pos (n : Nat) (h0 : 0 < n) :
    ∃ d tl, Nat.toDigits 10 n = d :: tl ∧ 49 ≤ d.toNat ∧ d.toNat ≤ 57 ∧
      tl.all url.isDigit = true := by
  obtain ⟨d, tl, he, h1, h2⟩ := toDigitsCore_head (n + 1) n [] h0 (by omega)
  have hall := (fmt.toDigits_spec n).2.1
  rw [show Nat.toDigits 10 n = Nat.toDigitsCore 10 (n + 1) n [] from rfl, he] at hall
  refine ⟨d, tl, he, h1, h2, ?_⟩
  simp only [List.all_cons, Bool.and_eq_true] at hall
  rw [List.all_eq_true] at hall ⊢
  intro c hc
  have := hall.2 c hc
  cases hd : strconv.digit? c with
  | none => simp [hd] at this
  | some v =>
    unfold strconv.digit? at hd
    split at hd
    · rename_i hr
      simp [url.isDigit, hr]
    · cases hd

theorem next_one_delim (et : Bool) (ps : List ParseState) (err : Option String) (c : Char)
    (h : c = ',' ∨ c = '}' ∨ c = ']') :
    Scanner.next ⟨.one, et, ps, err⟩ c = stateEndValue ⟨.one, et, ps, err⟩ c := by
  rcases h with rfl | rfl | rfl <;> rfl

theorem next_zero_delim (et : Bool) (ps : List ParseState) (err : Option String) (c : Char)
    (h : c = ',' ∨ c = '}' ∨ c = ']') :
    Scanner.next ⟨.zero, et, ps, err⟩ c = stateEndValue ⟨.zero, et, ps, err⟩ c := by
  rcases h with rfl | rfl | rfl <;> rfl

theorem literalValue_number (d : Char) (tl : List Char)
    (h : d = '-' ∨ (48 ≤ d.toNat ∧ d.toNat ≤ 57)) :
    literalValue (d :: tl) = .number ⟨d :: tl⟩ := by
  have h1 : (d == '"') = false := by
    rw [← Bool.not_eq_true, beq_iff_eq]
    rintro rfl
    rcases h with h | h
    · exact absurd h (by decide)
    · exact absurd h (by decide)
  have h2 : (d == 't') = false := by
    rw [← Bool.not_eq_true, beq_iff_eq]
    rintro rfl
    rcases h with h | h
    · exact absurd h (by decide)
    · exact absurd h (by decide)
  have h3 : (d == 'f') = false := by
    rw [← Bool.not_eq_true, beq_iff_eq]
    rintro rfl
    rcases h with h | h
    · exact absurd h (by decide)
    · exact absurd h (by decide)
  have h4 : (d == 'n') = false := by
    rw [← Bool.not_eq_true, beq_iff_eq]
    rintro rfl
    rcases h with h | h
    · exact absurd h (by decide)
    · exact absurd h (by decide)
  simp [literalValue, h1, h2, h3, h4]

/-- The scanner and the decoder read the decimal text of an integer as a
number with that text. -/
theorem Reads_int (n : Int) : Reads 0 (fmt.decimal n).data (.number (fmt.decimal n)) := by
  intro et ps err st tp rest _ _
  have hpos : ∀ m : Nat, 0 < m → ∀ (l : List Char) (stp0 : Step),
      (∀ d, 49 ≤ d.toNat → d.toNat ≤ 57 → Scanner.next ⟨stp0, et, ps, err⟩ d =
        (⟨.one, et, ps, err⟩, if l.isEmpty then .scanBeginLiteral else .scanContinue)) →
      scanBuild ⟨stp0, et, ps, err⟩ ⟨l, st, tp⟩ (Nat.toDigits 10 m ++ rest) =
        scanBuild ⟨.one, et, ps, err⟩ ⟨l ++ Nat.toDigits 10 m, st, tp⟩ rest := by
    intro m hm l stp0 hstep
    obtain ⟨d, tl, he, h1, h2, hall⟩ := toDigits_pos m hm
    rw [he, List.cons_append, scanBuild, hstep d h1 h2]
    cases l with
    | nil =>
      simp only [List.isEmpty_nil, ↓reduceIte, Builder.next, List.nil_append]
      rw [scanBuild_digits tl hall]
      rfl
    | cons x xs =>
      simp only [List.isEmpty_cons, Bool.false_eq_true, ↓reduceIte, Builder.next]
      rw [scanBuild_digits tl hall]
      simp
  by_cases hneg : n < 0
  · have ht : (fmt.decimal n).data = '-' :: Nat.toDigits 10 n.natAbs := by
      simp [fmt.decimal, hneg]
    refine ⟨.one, ⟨(fmt.decimal n).data, st, tp⟩, ?_, next_one_delim et ps err, ?_⟩
    · rw [ht, List.cons_append, scanBuild]
      have hn : Scanner.next ⟨.beginValue, et, ps, err⟩ '-' =
          (⟨.neg, et, ps, err⟩, .scanBeginLiteral) := rfl
      rw [hn]
      simp only [Builder.next]
      rw [hpos n.natAbs (by omega) ['-'] .neg]
      · rfl
      · intro d h1 h2
        have h0 : (d == '0') = false := by
          rw [← Bool.not_eq_true, beq_iff_eq]
          rintro rfl
          exact absurd h1 (by decide)
        simp [Scanner.next, h0, h1, h2]
    · have hs : (⟨'-' :: Nat.toDigits 10 n.natAbs⟩ : String) = fmt.decimal n := by rw [← ht]
      rw [ht, endLiteral_cons, literalValue_number _ _ (Or.inl rfl), hs]
  · have ht : (fmt.decimal n).data = Nat.toDigits 10 n.natAbs := by
      simp [fmt.decimal, hneg]
    by_cases hz : n = 0
    · subst hz
      exact ⟨.zero, ⟨['0'], st, tp⟩, rfl, next_zero_delim et ps err, rfl⟩
    · obtain ⟨d, tl, he, h1, h2, hall⟩ := toDigits_pos n.natAbs (by omega)
      refine ⟨.one, ⟨(fmt.decimal n).data, st, tp⟩, ?_, next_one_delim et ps err, ?_⟩
      · rw [ht, hpos n.natAbs (by omega) [] .beginValue]
        · rfl
        · intro d h1 h2
          have e1 : (d == '\x7b') = false := by
            rw [← Bool.not_eq_true, beq_iff_eq]; rintro rfl; exact absurd h2 (by decide)
          have e2 : (d == '[') = false := by
            rw [← Bool.not_eq_true, beq_iff_eq]; rintro rfl; exact absurd h2 (by decide)
          have e3 : (d == '"') = false := by
            rw [← Bool.not_eq_true, beq_iff_eq]; rintro rfl; exact absurd h1 (by decide)
          have e4 : (d == '-') = false := by
            rw [← Bool.not_eq_true, beq_iff_eq]; rintro rfl; exact absurd h1 (by decide)
          have e5 : (d == '0') = false := by
            rw [← Bool.not_eq_true, beq_iff_eq]; rintro rfl; exact absurd h1 (by decide)
          have e6 : (d == 't') = false := by
            rw [← Bool.not_eq_true, beq_iff_eq]; rintro rfl; exact absurd h2 (by decide)
          have e7 : (d == 'f') = false := by
            rw [← Bool.not_eq_true, beq_iff_eq]; rintro rfl; exact absurd h2 (by decide)
          have e8 : (d == 'n') = false := by
            rw [← Bool.not_eq_true, beq_iff_eq]; rintro rfl; exact absurd h2 (by decide)
          have e9 : isSpace d = false := by
            unfold isSpace
            rw [← Bool.not_eq_true]
            simp only [Bool.and_eq_true, decide_eq_true_eq, not_and]
            omega
          simp [Scanner.next, stateBeginValue, e1, e2, e3, e4, e5, e6, e7, e8, e9, h1, h2]
      · have hs : (⟨d :: tl⟩ : String) = fmt.decimal n := by rw [← he, ← ht]
        rw [ht, he, endLiteral_cons, literalValue_number _ _ (Or.inr ⟨by omega, h2⟩), hs]

end json
namespace json

theorem intercalate_single (sep x : List Char) : List.intercalate sep [x] = x := by
  simp [List.intercalate, List.intersperse]

theorem intercalate_cons_cons (sep x y : List Char) (zs : List (List Char)) :
    List.intercalate sep (x :: y :: zs) = x ++ (sep ++ List.intercalate sep (y :: zs)) := by
  simp [List.intercalate, List.intersperse]

theorem memberText_eq (m : String × String × JValue) (h : isPlainName m.1 = true) :
    memberText m = (encodeString m.1).data ++ ':' :: m.2.1.data := by
  unfold isPlainName at h
  simp [memberText, encodeString, encodeChars_plain m.1.data h]

/-- The scanner and the decoder over the members of an object the encoder
wrote and its closing brace. -/
theorem scanBuild_members (d : Nat) (L : Members) (hne : L ≠ [])
    (hL : ∀ m ∈ L, isPlainName m.1 = true ∧ Reads d m.2.1.data m.2.2)
    (stp0 : Step) (hstp : stp0 = .beginStringOrEmpty ∨ stp0 = .beginString)
    (et : Bool) (ps : List ParseState) (err : Option String) (ms : Members)
    (raw : List Char) (st : List Frame) (tp : Option JValue) (rest : List Char)
    (hd : ps.length + 1 + d ≤ maxNestingDepth) :
    scanBuild ⟨stp0, et, .parseObjectKey :: ps, err⟩ ⟨[], .obj ms none raw :: st, tp⟩
        (List.intercalate [','] (L.map memberText) ++ '\x7d' :: rest) =
      scanBuild (if ps.isEmpty then ⟨.endTop, true, ps, err⟩ else ⟨.endValue, et, ps, err⟩)
        (Builder.attach ⟨[], st, tp⟩ (.object (ms ++ L))
          (raw ++ (List.intercalate [','] (L.map memberText) ++ ['\x7d']))) rest := by
  induction L generalizing stp0 ms raw with
  | nil => exact absurd rfl hne
  | cons m L ih =>
    obtain ⟨hname, hreads⟩ := hL m (List.mem_cons_self _ _)
    have hopen : Scanner.next ⟨stp0, et, .parseObjectKey :: ps, err⟩ '"' =
        (⟨.inString, et, .parseObjectKey :: ps, err⟩, .scanBeginLiteral) := by
      rcases hstp with rfl | rfl <;> rfl
    -- the key, the colon and the value
    have hkey : ∀ tail : List Char,
        scanBuild ⟨stp0, et, .parseObjectKey :: ps, err⟩ ⟨[], .obj ms none raw :: st, tp⟩
          (memberText m ++ tail) =
        scanBuild ⟨.beginValue, et, .parseObjectValue :: ps, err⟩
          ⟨[], .obj ms (some m.1) (raw ++ ((encodeString m.1).data ++ [':'])) :: st, tp⟩
          (m.2.1.data ++ tail) := by
      intro tail
      rw [memberText_eq m hname, List.append_assoc, scanBuild_string m.1 stp0 _ _ _ _ _ _ hopen]
      rw [List.cons_append, scanBuild]
      have hn : Scanner.next ⟨.endValue, et, .parseObjectKey :: ps, err⟩ ':' =
          (⟨.beginValue, et, .parseObjectValue :: ps, err⟩, .scanObjectKey) := rfl
      rw [hn]
      simp only [Builder.next, endLiteral_encodeString, Builder.attach, Builder.addRaw,
        List.append_assoc]
    obtain ⟨stp, b1, hscan, hdelim, hb1⟩ := hreads et (.parseObjectValue :: ps) err
      (.obj ms (some m.1) (raw ++ ((encodeString m.1).data ++ [':'])) :: st) tp
      (match L with
        | [] => '\x7d' :: rest
        | m' :: L' => ',' :: (List.intercalate [','] ((m' :: L').map memberText)
            ++ '\x7d' :: rest))
      (by simp) (by simp only [List.length_cons]; omega)
    have hb1' : b1.endLiteral =
        ⟨[], .obj (ms ++ [m]) none
          (raw ++ (memberText m)) :: st, tp⟩ := by
      rw [hb1, memberText_eq m hname]
      simp only [Builder.attach, List.append_assoc]
      rfl
    cases L with
    | nil =>
      simp only [List.map_cons, List.map_nil, intercalate_single]
      rw [hkey, hscan, scanBuild, hdelim '\x7d' (Or.inr (Or.inl rfl))]
      have hn : stateEndValue ⟨stp, et, .parseObjectValue :: ps, err⟩ '\x7d' =
          (if ps.isEmpty then ⟨.endTop, true, ps, err⟩ else ⟨.endValue, et, ps, err⟩,
            .scanEndObject) := by
        cases ps <;> rfl
      rw [hn]
      simp only [Builder.next, hb1', Builder.close, List.append_assoc]
    | cons m' L' =>
      have ih' := ih (by simp) (fun x hx => hL x (List.mem_cons_of_mem _ hx)) .beginString
        (Or.inr rfl) (ms ++ [m]) (raw ++ (memberText m ++ [',']))
      simp only [List.map_cons, intercalate_cons_cons, List.append_assoc,
        List.singleton_append, List.cons_append, List.nil_append] at ih' ⊢
      rw [hkey]
      simp only [List.map_cons, List.singleton_append, List.cons_append,
        List.nil_append] at hscan
      rw [hscan, scanBuild, hdelim ',' (Or.inl rfl)]
      have hn : stateEndValue ⟨stp, et, .parseObjectValue :: ps, err⟩ ',' =
          (⟨.beginString, et, .parseObjectKey :: ps, err⟩, .scanObjectValue) := rfl
      rw [hn]
      simp only [Builder.next, hb1', Builder.addRaw, List.append_assoc]
      rw [ih']

end json
namespace json

theorem endLiteral_attach (st : List Frame) (tp : Option JValue) (v : JValue) (t : List Char) :
    (Builder.attach ⟨[], st, tp⟩ v t).endLiteral = Builder.attach ⟨[], st, tp⟩ v t := by
  rcases st with _ | ⟨f, below⟩
  · rfl
  · rcases f with ⟨elems, r⟩ | ⟨ms, key, r⟩
    · rfl
    · rcases key with _ | k
      · cases v <;> rfl
      · rfl

/-- The scanner and the decoder over an object the encoder wrote. -/
theorem scanBuild_object (d : Nat) (L : Members) (hne : L ≠ [])
    (hL : ∀ m ∈ L, isPlainName m.1 = true ∧ Reads d m.2.1.data m.2.2)
    (et : Bool) (ps : List ParseState) (err : Option String) (st : List Frame)
    (tp : Option JValue) (rest : List Char) (hd : ps.length + 1 + d ≤ maxNestingDepth) :
    scanBuild ⟨.beginValue, et, ps, err⟩ ⟨[], st, tp⟩ (objectText L ++ rest) =
      scanBuild (if ps.isEmpty then ⟨.endTop, true, ps, err⟩ else ⟨.endValue, et, ps, err⟩)
        (Builder.attach ⟨[], st, tp⟩ (.object L) (objectText L)) rest := by
  have hlen : (ParseState.parseObjectKey :: ps).length ≤ maxNestingDepth := by
    simp only [List.length_cons]; omega
  have hn : Scanner.next ⟨.beginValue, et, ps, err⟩ '\x7b' =
      (⟨.beginStringOrEmpty, et, .parseObjectKey :: ps, err⟩, .scanBeginObject) := by
    simp only [Scanner.next, stateBeginValue, Scanner.pushParseState, hlen]
    rfl
  have := scanBuild_members d L hne hL .beginStringOrEmpty (Or.inl rfl) et ps err [] ['\x7b']
    st tp rest hd
  simp only [objectText, List.cons_append, List.append_assoc, List.singleton_append,
    List.nil_append] at this ⊢
  rw [scanBuild, hn]
  simp only [Builder.next, endLiteral_nil]
  exact this

/-- The scanner and the decoder read an object the encoder wrote as the
object of its members. -/
theorem Reads_object (d : Nat) (L : Members) (hne : L ≠ [])
    (hL : ∀ m ∈ L, isPlainName m.1 = true ∧ Reads d m.2.1.data m.2.2) :
    Reads (d + 1) (objectText L) (.object L) := by
  intro et ps err st tp rest hps hd
  refine ⟨.endValue, Builder.attach ⟨[], st, tp⟩ (.object L) (objectText L), ?_,
    fun c _ => rfl, endLiteral_attach _ _ _ _⟩
  rw [scanBuild_object d L hne hL et ps err st tp rest (by omega)]
  cases ps with
  | nil => exact absurd rfl hps
  | cons _ _ => rfl

/-- `parse` of an object the encoder wrote, alone or followed by the
newline of `Encoder.Encode`. -/
theorem parse_object (d : Nat) (L : Members) (hne : L ≠ [])
    (hL : ∀ m ∈ L, isPlainName m.1 = true ∧ Reads d m.2.1.data m.2.2)
    (hd : 1 + d ≤ maxNestingDepth) :
    parse ⟨objectText L⟩ = .ok (.object L) ∧
    parse ⟨objectText L ++ ['\n']⟩ = .ok (.object L) := by
  have h1 := scanBuild_object d L hne hL false [] none [] none [] (by simpa using hd)
  have h2 := scanBuild_object d L hne hL false [] none [] none ['\n'] (by simpa using hd)
  rw [List.append_nil] at h1
  constructor
  · unfold parse
    simp only [Scanner.reset]
    rw [h1]
    rfl
  · unfold parse
    simp only [Scanner.reset]
    rw [h2]
    rfl

theorem intercalate_flatten (sep x : List Char) (xs : List (List Char)) :
    List.intercalate sep (x :: xs) = x ++ (xs.map fun y => sep ++ y).flatten := by
  induction xs generalizing x with
  | nil => simp [intercalate_single]
  | cons y ys ih =>
    rw [intercalate_cons_cons, ih y]
    simp

theorem String_intercalate_go (s : String) (as : List String) (acc : String) :
    (String.intercalate.go acc s as).data =
      acc.data ++ (as.map fun a => s.data ++ a.data).flatten := by
  induction as generalizing acc with
  | nil => simp [String.intercalate.go]
  | cons a as ih =>
    simp only [String.intercalate.go, ih, String.data_append, List.map_cons, List.flatten_cons,
      List.append_assoc]

/-- The text `strings.Join` gives, as a list of characters. -/
theorem String_intercalate_data (s : String) (as : List String) :
    (s.intercalate as).data = List.intercalate s.data (as.map String.data) := by
  cases as with
  | nil => rfl
  | cons a as =>
    rw [String.intercalate, String_intercalate_go, List.map_cons, intercalate_flatten]
    simp [List.map_map, Function.comp_def]

/-- The text of a struct as the encoder writes it is the text of the
object of its members. -/
theorem encodeStruct_data (l : List (FieldText × JValue)) :
    (encodeStruct (l.map Prod.fst)).data = objectText (membersOf l) := by
  simp only [encodeStruct, String.data_append, String_intercalate_data, objectText, membersOf,
    List.filter_map, List.map_map]
  simp [Function.comp_def, memberText]

end json
namespace json

/-- The scanner and the decoder over the elements of an array of strings
the encoder wrote and its closing bracket. -/
theorem scanBuild_strings (l : List String) (hne : l ≠ []) (stp0 : Step)
    (et : Bool) (ps : List ParseState) (err : Option String)
    (hopen : Scanner.next ⟨stp0, et, .parseArrayValue :: ps, err⟩ '"' =
      (⟨.inString, et, .parseArrayValue :: ps, err⟩, .scanBeginLiteral))
    (elems : List JValue) (raw : List Char) (st : List Frame) (tp : Option JValue)
    (rest : List Char) (hps : ps ≠ []) :
    scanBuild ⟨stp0, et, .parseArrayValue :: ps, err⟩ ⟨[], .arr elems raw :: st, tp⟩
        (List.intercalate [','] (l.map fun x => (encodeString x).data) ++ ']' :: rest) =
      scanBuild ⟨.endValue, et, ps, err⟩
        (Builder.attach ⟨[], st, tp⟩ (.array (elems ++ l.map .string))
          (raw ++ (List.intercalate [','] (l.map fun x => (encodeString x).data) ++ [']'])))
        rest := by
  induction l generalizing stp0 elems raw with
  | nil => exact absurd rfl hne
  | cons x l ih =>
    cases l with
    | nil =>
      simp only [List.map_cons, List.map_nil, intercalate_single]
      rw [scanBuild_string x stp0 _ _ _ _ _ _ hopen, scanBuild]
      have hn : Scanner.next ⟨.endValue, et, .parseArrayValue :: ps, err⟩ ']' =
          (⟨.endValue, et, ps, err⟩, .scanEndArray) := by
        cases ps with
        | nil => exact absurd rfl hps
        | cons _ _ => rfl
      rw [hn]
      simp only [Builder.next, endLiteral_encodeString, Builder.attach, Builder.close,
        List.append_assoc]
    | cons y l' =>
      have ih' := ih (by simp) .beginValue rfl (elems ++ [.string x])
        (raw ++ ((encodeString x).data ++ [',']))
      simp only [List.map_cons, intercalate_cons_cons, List.append_assoc,
        List.singleton_append, List.cons_append, List.nil_append] at ih' ⊢
      rw [scanBuild_string x stp0 _ _ _ _ _ _ hopen, scanBuild]
      have hn : Scanner.next ⟨.endValue, et, .parseArrayValue :: ps, err⟩ ',' =
          (⟨.beginValue, et, .parseArrayValue :: ps, err⟩, .scanArrayValue) := rfl
      rw [hn]
      have hatt : Builder.attach ⟨[], .arr elems raw :: st, tp⟩ (.string x)
          (encodeString x).data =
          ⟨[], .arr (elems ++ [.string x]) (raw ++ (encodeString x).data) :: st, tp⟩ := rfl
      simp only [Builder.next, endLiteral_encodeString, hatt, Builder.addRaw,
        List.append_assoc]
      rw [ih']

/-- The scanner and the decoder read a non-empty `[]string` the encoder
wrote as the array of its strings. -/
theorem Reads_strings (l : List String) (hne : l ≠ []) :
    Reads 1 (encodeStrings (some l)).data (.array (l.map .string)) := by
  intro et ps err st tp rest hps hd
  have ht : (encodeStrings (some l)).data =
      '[' :: (List.intercalate [','] (l.map fun x => (encodeString x).data) ++ [']']) := by
    simp [encodeStrings, String_intercalate_data, List.map_map, Function.comp_def]
  refine ⟨.endValue, Builder.attach ⟨[], st, tp⟩ (.array (l.map .string))
    (encodeStrings (some l)).data, ?_, fun c _ => rfl, endLiteral_attach _ _ _ _⟩
  have hlen : (ParseState.parseArrayValue :: ps).length ≤ maxNestingDepth := by
    simp only [List.length_cons]; omega
  have hn : Scanner.next ⟨.beginValue, et, ps, err⟩ '[' =
      (⟨.beginValueOrEmpty, et, .parseArrayValue :: ps, err⟩, .scanBeginArray) := by
    simp only [Scanner.next, stateBeginValue, Scanner.pushParseState, hlen]
    rfl
  have := scanBuild_strings l hne .beginValueOrEmpty et ps err rfl [] ['['] st tp rest hps
  rw [ht]
  simp only [List.cons_append, List.append_assoc, List.singleton_append,
    List.nil_append] at this ⊢
  rw [scanBuild, hn]
  simp only [Builder.next, endLiteral_nil]
  exact this

theorem Reads_mono (d : Nat) (t : List Char) (v : JValue) (h : Reads d t v) :
    Reads (d + 1) t v := by
  intro et ps err st tp rest hps hd
  exact h et ps err st tp rest hps (by omega)

end json

/-- What `Do` does with a response whose body is the text `NewRequest`
writes for a value: for a value whose encoding is an object the decoder
reads back as the members `L`, and a target type that decodes these
members into the fresh value as the value itself, `Do` returns no error
and the target holds the value. -/
theorem Do_reads_back {T : Type} (codec : json.LibraryCodec) (ty : json.TargetType T)
    (x fresh : T) (E body : String) (L : json.Members) (d : Nat)
    (hbody : body = json.encodeStruct [⟨"data", false, E⟩] ++ "\n")
    (hE : E.data = json.objectText L) (hne : L ≠ [])
    (hL : ∀ m ∈ L, json.isPlainName m.1 = true ∧ json.Reads d m.2.1.data m.2.2)
    (hd : 2 + d ≤ json.maxNestingDepth)
    (hdec : ty.decode (.object L) fresh = (x, none))
    (c : Int) (closeErr : Option IOError) (hc : 200 ≤ c ∧ c ≤ 299) :
    Do codec ty (.ok ⟨c, some ⟨body, none, closeErr⟩⟩) (some (.pointer fresh)) =
      .ok ⟨some ⟨some ⟨c, some ⟨body, none, closeErr⟩⟩, E, ⟨"", "", "", "", ""⟩⟩, none,
        some (.pointer x), [body, E], true⟩ := by
  have hEeq : E = ⟨json.objectText L⟩ := by rw [← hE]
  have hinner : json.Reads (d + 1) E.data (.object L) := by
    rw [hE]
    exact json.Reads_object d L hne hL
  have hpE : json.parse E = .ok (.object L) := by
    rw [hEeq]
    exact (json.parse_object d L hne hL (by omega)).1
  have hbody2 : body = ⟨json.objectText [("data", E, .object L)] ++ ['\n']⟩ := by
    rw [hbody]
    apply String.ext
    have := json.encodeStruct_data [(⟨"data", false, E⟩, .object L)]
    simp only [List.map_cons, List.map_nil] at this
    rw [String.data_append, this]
    rfl
  have hpB : json.parse body = .ok (.object [("data", E, .object L)]) := by
    rw [hbody2]
    exact (json.parse_object (d + 1) [("data", E, .object L)] (by simp)
      (by
        intro m hm
        rcases List.mem_singleton.1 hm with rfl
        exact ⟨rfl, hinner⟩) (by omega)).2
  have hdne : body ≠ "" := by
    rw [hbody2]
    intro h
    have := congrArg String.data h
    simp [json.objectText] at this
  rw [Do_decodes codec ty c _ closeErr _ hc hdne,
    json.UnmarshalResponse_object codec _ _ _ _ hpB (by
      intro m hm
      rcases List.mem_singleton.1 hm with rfl
      rfl)]
  have h1 : json.envelopeErrors [("data", E, json.JValue.object L)] = none := by
    simp only [json.envelopeErrors, json.saveError]
    rfl
  have h2 : ∀ cur, json.lastData [("data", E, json.JValue.object L)] cur = E := by
    intro cur
    simp only [json.lastData]
    rfl
  have h3 : ∀ l, json.linksOf [("data", E, json.JValue.object L)] l = l := by
    intro l
    simp only [json.linksOf]
    rfl
  simp only [h1, h2, h3, json.Unmarshal, hpE, hdec, Do.deferred, NewResponse]

namespace json

theorem membersOf_cons_kept (p : FieldText × JValue) (rest : List (FieldText × JValue))
    (h : p.1.omitted = false) :
    membersOf (p :: rest) = (p.1.name, p.1.text, p.2) :: membersOf rest := by
  simp [membersOf, List.filter_cons, h]

theorem membersOf_cons_omitted (p : FieldText × JValue) (rest : List (FieldText × JValue))
    (h : p.1.omitted = true) :
    membersOf (p :: rest) = membersOf rest := by
  simp [membersOf, List.filter_cons, h]

/-- One step of decoding the members an encoder wrote for a list of fields:
an omitted field leaves the struct as it is, a written one is decoded. -/
theorem decodeAttributes_step (p : FieldText × JValue) (rest : List (FieldText × JValue))
    (st st' : models.AccountAttributes) (fld : String)
    (hom : p.1.omitted = true → st' = st)
    (hkeep : p.1.omitted = false → findField attributeFields p.1.name = some fld ∧
        decodeAttribute fld p.2 st none = (st', none)) :
    decodeAttributesMembers (membersOf (p :: rest)) st none =
      decodeAttributesMembers (membersOf rest) st' none := by
  cases h : p.1.omitted
  · rw [membersOf_cons_kept _ _ h]
    obtain ⟨h1, h2⟩ := hkeep h
    simp only [decodeAttributesMembers, h1, h2]
  · rw [membersOf_cons_omitted _ _ h, hom h]

theorem decodeStringElems_strings (l : List String) (cur : List String)
    (saved : Option GoError) :
    decodeStringElems (l.map .string) cur saved = (l, saved) := by
  induction l generalizing cur saved with
  | nil => rfl
  | cons x l ih =>
    simp only [List.map_cons, decodeStringElems, decodeString, ih]
    cases saved <;> rfl

theorem decodeStrings_strings (l : List String) (cur : Option (List String))
    (saved : Option GoError) :
    decodeStrings (.array (l.map .string)) cur saved = (some l, saved) := by
  simp only [decodeStrings, decodeStringElems_strings]

theorem decodeAttribute_names (v : JValue) (a : models.AccountAttributes)
    (saved : Option GoError) :
    decodeAttribute "alternative_bank_account_names" v a saved =
      ({ a with AlternativeBankAccountNames :=
          (decodeStrings v a.AlternativeBankAccountNames saved).1 },
        (decodeStrings v a.AlternativeBankAccountNames saved).2) := rfl

/-- Decoding what the encoder wrote for the attributes of an account into
the zero value gives the attributes, unless the slice of alternative names
is empty without being nil. -/
theorem decodeAttributes_parsed (a : models.AccountAttributes)
    (hs : a.AlternativeBankAccountNames ≠ some []) :
    decodeAttributesMembers (membersOf a.parsed) models.AccountAttributes.zero none =
      (a, none) := by
  rcases a with ⟨f0, f1, f2, f3, f4, f5, f6, f7, f8, f9, f10, f11, f12, f13, f14⟩
  simp only at hs
  show decodeAttributesMembers (membersOf (models.AccountAttributes.parsed ⟨f0, f1, f2, f3, f4, f5, f6, f7, f8, f9, f10, f11, f12, f13, f14⟩))
    ⟨"", "", "", "", "", "", "", "", "", "", none, "", false, false, ""⟩ none = _
  simp only [models.AccountAttributes.parsed]
  refine (decodeAttributes_step _ _ _ ⟨f0, "", "", "", "", "", "", "", "", "", none, "", false, false, ""⟩
    "country" ?_ ?_).trans ?_
  · intro h
    cases h
  · exact fun _ => ⟨rfl, rfl⟩
  refine (decodeAttributes_step _ _ _ ⟨f0, f1, "", "", "", "", "", "", "", "", none, "", false, false, ""⟩
    "base_currency" ?_ ?_).trans ?_
  · intro h
    have h' : f1 = "" := by simpa using h
    subst h'
    rfl
  · exact fun _ => ⟨rfl, rfl⟩
  refine (decodeAttributes_step _ _ _ ⟨f0, f1, f2, "", "", "", "", "", "", "", none, "", false, false, ""⟩
    "account_number" ?_ ?_).trans ?_
  · intro h
    have h' : f2 = "" := by simpa using h
    subst h'
    rfl
  · exact fun _ => ⟨rfl, rfl⟩
  refine (decodeAttributes_step _ _ _ ⟨f0, f1, f2, f3, "", "", "", "", "", "", none, "", false, false, ""⟩
    "bank_id" ?_ ?_).trans ?_
  · intro h
    have h' : f3 = "" := by simpa using h
    subst h'
    rfl
  · exact fun _ => ⟨rfl, rfl⟩
  refine (decodeAttributes_step _ _ _ ⟨f0, f1, f2, f3, f4, "", "", "", "", "", none, "", false, false, ""⟩
    "bank_id_code" ?_ ?_).trans ?_
  · intro h
    have h' : f4 = "" := by simpa using h
    subst h'
    rfl
  · exact fun _ => ⟨rfl, rfl⟩
  refine (decodeAttributes_step _ _ _ ⟨f0, f1, f2, f3, f4, f5, "", "", "", "", none, "", false, false, ""⟩
    "bic" ?_ ?_).trans ?_
  · intro h
    have h' : f5 = "" := by simpa using h
    subst h'
    rfl
  · exact fun _ => ⟨rfl, rfl⟩
  refine (decodeAttributes_step _ _ _ ⟨f0, f1, f2, f3, f4, f5, f6, "", "", "", none, "", false, false, ""⟩
    "iban" ?_ ?_).trans ?_
  · intro h
    have h' : f6 = "" := by simpa using h
    subst h'
    rfl
  · exact fun _ => ⟨rfl, rfl⟩
  refine (decodeAttributes_step _ _ _ ⟨f0, f1, f2, f3, f4, f5, f6, f7, "", "", none, "", false, false, ""⟩
    "title" ?_ ?_).trans ?_
  · intro h
    have h' : f7 = "" := by simpa using h
    subst h'
    rfl
  · exact fun _ => ⟨rfl, rfl⟩
  refine (decodeAttributes_step _ _ _ ⟨f0, f1, f2, f3, f4, f5, f6, f7, f8, "", none, "", false, false, ""⟩
    "first_name" ?_ ?_).trans ?_
  · intro h
    have h' : f8 = "" := by simpa using h
    subst h'
    rfl
  · exact fun _ => ⟨rfl, rfl⟩
  refine (decodeAttributes_step _ _ _ ⟨f0, f1, f2, f3, f4, f5, f6, f7, f8, f9, none, "", false, false, ""⟩
    "bank_account_name" ?_ ?_).trans ?_
  · intro h
    have h' : f9 = "" := by simpa using h
    subst h'
    rfl
  · exact fun _ => ⟨rfl, rfl⟩
  refine (decodeAttributes_step _ _ _ ⟨f0, f1, f2, f3, f4, f5, f6, f7, f8, f9, f10, "", false, false, ""⟩
    "alternative_bank_account_names" ?_ ?_).trans ?_
  · intro h
    rcases f10 with _ | ⟨_ | ⟨x, l⟩⟩
    · rfl
    · exact absurd rfl hs
    · cases h
  · intro h
    rcases f10 with _ | ⟨_ | ⟨x, l⟩⟩
    · cases h
    · cases h
    · exact ⟨rfl, by
        simp only [decodeAttribute_names, decodeStrings_strings]
        rfl⟩
  refine (decodeAttributes_step _ _ _ ⟨f0, f1, f2, f3, f4, f5, f6, f7, f8, f9, f10, f11, false, false, ""⟩
    "account_classification" ?_ ?_).trans ?_
  · intro h
    have h' : f11 = "" := by simpa using h
    subst h'
    rfl
  · exact fun _ => ⟨rfl, rfl⟩
  refine (decodeAttributes_step _ _ _ ⟨f0, f1, f2, f3, f4, f5, f6, f7, f8, f9, f10, f11, f12, false, ""⟩
    "joint_account" ?_ ?_).trans ?_
  · intro h
    have h' : f12 = false := by simpa using h
    subst h'
    rfl
  · exact fun _ => ⟨rfl, rfl⟩
  refine (decodeAttributes_step _ _ _ ⟨f0, f1, f2, f3, f4, f5, f6, f7, f8, f9, f10, f11, f12, f13, ""⟩
    "account_matching_opt_out" ?_ ?_).trans ?_
  · intro h
    have h' : f13 = false := by simpa using h
    subst h'
    rfl
  · exact fun _ => ⟨rfl, rfl⟩
  refine (decodeAttributes_step _ _ _ ⟨f0, f1, f2, f3, f4, f5, f6, f7, f8, f9, f10, f11, f12, f13, f14⟩
    "secondary_identification" ?_ ?_).trans ?_
  · intro h
    have h' : f14 = "" := by simpa using h
    subst h'
    rfl
  · exact fun _ => ⟨rfl, rfl⟩
  rfl

theorem membersOf_forall (P : String × String × JValue → Prop)
    (l : List (FieldText × JValue))
    (h : ∀ p ∈ l, p.1.omitted = false → P (p.1.name, p.1.text, p.2)) :
    ∀ m ∈ membersOf l, P m := by
  intro m hm
  simp only [membersOf, List.mem_map, List.mem_filter] at hm
  obtain ⟨p, ⟨hp, ho⟩, rfl⟩ := hm
  exact h p hp (by simpa using ho)

/-- Every field of the attributes that the encoder writes is read back as
the value it stands for. -/
theorem attributes_reads (a : models.AccountAttributes)
    (hs : a.AlternativeBankAccountNames ≠ some []) :
    ∀ m ∈ membersOf a.parsed, isPlainName m.1 = true ∧ Reads 1 m.2.1.data m.2.2 := by
  apply membersOf_forall
  rcases a with ⟨f0, f1, f2, f3, f4, f5, f6, f7, f8, f9, f10, f11, f12, f13, f14⟩
  simp only at hs
  simp only [models.AccountAttributes.parsed, List.forall_mem_cons]
  refine ⟨?_, ?_, ?_, ?_, ?_, ?_, ?_, ?_, ?_, ?_, ?_, ?_, ?_, ?_, ?_, ?_⟩
  case refine_11 =>
    intro h
    rcases f10 with _ | ⟨_ | ⟨x, l⟩⟩
    · cases h
    · cases h
    · exact ⟨rfl, Reads_strings (x :: l) (by simp)⟩
  case refine_13 => exact fun _ => ⟨rfl, Reads_mono _ _ _ (Reads_bool _)⟩
  case refine_14 => exact fun _ => ⟨rfl, Reads_mono _ _ _ (Reads_bool _)⟩
  case refine_16 => exact fun p hp => nomatch hp
  all_goals exact fun _ => ⟨rfl, Reads_mono _ _ _ (Reads_string _)⟩

theorem attributes_ne_nil (a : models.AccountAttributes) : membersOf a.parsed ≠ [] := by
  intro h
  have : membersOf a.parsed = _ := membersOf_cons_kept _ _ rfl
  rw [this] at h
  cases h

/-- The text of the attributes is the object text of the members that are
read back. -/
theorem attributes_text (a : models.AccountAttributes) :
    (encodeStruct a.fields).data = objectText (membersOf a.parsed) :=
  encodeStruct_data a.parsed

/-- The members an encoder writes for an account. -/
theorem account_members (a : models.Account) :
    membersOf a.parsed =
      [("attributes", encodeStruct a.Attributes.fields, .object (membersOf a.Attributes.parsed)),
       ("id", encodeString a.ID, .string a.ID),
       ("organisation_id", encodeString a.OrganisationID, .string a.OrganisationID),
       ("type", encodeString a.Type_, .string a.Type_),
       ("version", fmt.decimal a.Version, .number (fmt.decimal a.Version))] := rfl

theorem account_reads (a : models.Account)
    (hs : a.Attributes.AlternativeBankAccountNames ≠ some []) :
    ∀ m ∈ membersOf a.parsed, isPlainName m.1 = true ∧ Reads 2 m.2.1.data m.2.2 := by
  rw [account_members]
  simp only [List.forall_mem_cons]
  refine ⟨⟨rfl, ?_⟩, ⟨rfl, ?_⟩, ⟨rfl, ?_⟩, ⟨rfl, ?_⟩, ⟨rfl, ?_⟩, fun p hp => nomatch hp⟩
  · show Reads 2 (encodeStruct a.Attributes.fields).data _
    rw [attributes_text]
    exact Reads_object 1 _ (attributes_ne_nil _) (attributes_reads _ hs)
  · exact Reads_mono _ _ _ (Reads_mono _ _ _ (Reads_string _))
  · exact Reads_mono _ _ _ (Reads_mono _ _ _ (Reads_string _))
  · exact Reads_mono _ _ _ (Reads_mono _ _ _ (Reads_string _))
  · exact Reads_mono _ _ _ (Reads_mono _ _ _ (Reads_int _))

theorem ParseInt_decimal (i : Int) (h1 : minInt ≤ i) (h2 : i ≤ maxInt) :
    strconv.ParseInt (fmt.decimal i).data = (i, none) := by
  have h := fmt.Atoi_decimal i h1 h2
  unfold strconv.Atoi at h
  rcases hp : strconv.ParseInt (fmt.decimal i).data with ⟨n, _ | e⟩
  · rw [hp] at h
    simpa using h
  · rw [hp] at h
    simp at h

/-- Decoding what the encoder wrote for an account into the zero value
gives the account. -/
theorem decodeAccount_parsed (a : models.Account)
    (hs : a.Attributes.AlternativeBankAccountNames ≠ some [])
    (hv : minInt ≤ a.Version ∧ a.Version ≤ maxInt) :
    decodeAccountMembers (membersOf a.parsed) models.Account.zero none = (a, none) := by
  rw [account_members]
  have h1 : findField accountFields "attributes" = some "attributes" := rfl
  have h2 : findField accountFields "id" = some "id" := rfl
  have h3 : findField accountFields "organisation_id" = some "organisation_id" := rfl
  have h4 : findField accountFields "type" = some "type" := rfl
  have h5 : findField accountFields "version" = some "version" := rfl
  have d1 : ∀ v x s, decodeAccountField "attributes" v x s =
      ({ x with Attributes := (decodeAttributes v x.Attributes s).1 },
        (decodeAttributes v x.Attributes s).2) := fun _ _ _ => rfl
  have d2 : ∀ v x s, decodeAccountField "id" v x s =
      ({ x with ID := (decodeString v x.ID).1 }, saveError s (decodeString v x.ID).2) :=
    fun _ _ _ => rfl
  have d3 : ∀ v x s, decodeAccountField "organisation_id" v x s =
      ({ x with OrganisationID := (decodeString v x.OrganisationID).1 },
        saveError s (decodeString v x.OrganisationID).2) := fun _ _ _ => rfl
  have d4 : ∀ v x s, decodeAccountField "type" v x s =
      ({ x with Type_ := (decodeString v x.Type_).1 },
        saveError s (decodeString v x.Type_).2) := fun _ _ _ => rfl
  have d5 : ∀ v x s, decodeAccountField "version" v x s =
      ({ x with Version := (decodeInt v x.Version).1 },
        saveError s (decodeInt v x.Version).2) := fun _ _ _ => rfl
  have hA : decodeAttributes (.object (membersOf a.Attributes.parsed))
      models.AccountAttributes.zero none = (a.Attributes, none) :=
    decodeAttributes_parsed a.Attributes hs
  have hI : ∀ cur, decodeInt (.number (fmt.decimal a.Version)) cur = (a.Version, none) := by
    intro cur
    simp only [decodeInt, ParseInt_decimal a.Version hv.1 hv.2]
  simp only [decodeAccountMembers, h1, h2, h3, h4, h5, d1, d2, d3, d4, d5,
    models.Account.zero, hA, hI, decodeString, saveError]

end json

/-- The body of a request that `http.NewRequest` returns is the body
handed to it. -/
theorem http_NewRequest_Body (method urlText body : String) (req : http.Request)
    (h : http.NewRequest method urlText body = .ok req) : req.Body = body := by
  unfold http.NewRequest at h
  simp only at h
  by_cases hm : (!http.validMethod (if method == "" then "GET" else method)) = true
  · rw [if_pos hm] at h
    cases h
  · rw [if_neg hm] at h
    rcases hp : url.Parse urlText with e | u
    · rw [hp] at h
      cases h
    · rw [hp] at h
      cases h
      rfl

/-- The body of a request that `NewRequest` returns for a body that is not
nil: the encoder's text for the body as the value of `data`, and a
newline. -/
theorem NewRequest_Body {T : Type} (ty : json.SourceType T) (BaseURL : Option url.URL)
    (method urlStr : String) (b : json.Target T) (req : http.Request)
    (h : NewRequest ty BaseURL method urlStr (some b) = .ok (some req, none)) :
    ∃ text, json.encodeInterface ty b = .ok text ∧
      req.Body = json.encodeStruct [⟨"data", false, text⟩] ++ "\n" := by
  unfold NewRequest at h
  rcases hu : url.URL.Parse BaseURL urlStr with p | (e | u)
  · simp [hu] at h
  · simp [hu] at h
  · rcases hb : json.encodeInterface ty b with e | text
    · simp [hu, hb] at h
    · refine ⟨text, rfl, ?_⟩
      simp only [hu, hb] at h
      rcases hr : http.NewRequest method u.String
          (json.encodeStruct [⟨"data", false, text⟩] ++ "\n") with e | r
      · simp [hr] at h
      · simp only [hr] at h
        cases h
        exact http_NewRequest_Body _ _ _ r hr

/-- What `Do` makes of the text `NewRequest` writes for a `foo`. -/
theorem Do_reads_foo (codec : json.LibraryCodec) (x fresh : foo) (body : String)
    (hbody : body = json.encodeStruct
      [⟨"data", false, json.encodeStruct [⟨"A", false, json.encodeString x.A⟩]⟩] ++ "\n")
    (c : Int) (closeErr : Option IOError) (hc : 200 ≤ c ∧ c ≤ 299) :
    Do codec fooType (.ok ⟨c, some ⟨body, none, closeErr⟩⟩) (some (.pointer fresh)) =
      .ok ⟨some ⟨some ⟨c, some ⟨body, none, closeErr⟩⟩,
          json.encodeStruct [⟨"A", false, json.encodeString x.A⟩], ⟨"", "", "", "", ""⟩⟩,
        none, some (.pointer x),
        [body, json.encodeStruct [⟨"A", false, json.encodeString x.A⟩]], true⟩ :=
  Do_reads_back codec fooType x fresh _ body [("A", json.encodeString x.A, .string x.A)] 0
    hbody (json.encodeStruct_data [(⟨"A", false, json.encodeString x.A⟩, .string x.A)])
    (by simp)
    (by
      intro m hm
      rcases List.mem_singleton.1 hm with rfl
      exact ⟨rfl, json.Reads_string _⟩)
    (by decide) rfl c closeErr hc

/-- What `Do` makes of the text `NewRequest` writes for an account whose
slice of alternative names is nil or not empty. -/
theorem Do_reads_account (codec : json.LibraryCodec) (a : models.Account) (body : String)
    (hbody : body = json.encodeStruct [⟨"data", false, json.encodeStruct a.fields⟩] ++ "\n")
    (hs : a.Attributes.AlternativeBankAccountNames ≠ some [])
    (hv : minInt ≤ a.Version ∧ a.Version ≤ maxInt)
    (c : Int) (closeErr : Option IOError) (hc : 200 ≤ c ∧ c ≤ 299) :
    Do codec accountType (.ok ⟨c, some ⟨body, none, closeErr⟩⟩)
        (some (.pointer models.Account.zero)) =
      .ok ⟨some ⟨some ⟨c, some ⟨body, none, closeErr⟩⟩,
          json.encodeStruct a.fields, ⟨"", "", "", "", ""⟩⟩,
        none, some (.pointer a), [body, json.encodeStruct a.fields], true⟩ :=
  Do_reads_back codec accountType a models.Account.zero _ body (json.membersOf a.parsed) 2
    hbody (json.encodeStruct_data a.parsed)
    (by rw [json.account_members]; simp)
    (json.account_reads a hs) (by decide)
    (json.decodeAccount_parsed a hs hv) c closeErr hc

/-- C13, counterexample: for the account whose slice of alternative names
is `[]string{}` the field is left out of the body by `omitempty`, so that
the body is the one of the zero account; served with status 200 it is
decoded with no error into the zero account, whose slice is nil, which is
not the account that was sent. -/
theorem Do_round_trip_drops_empty_slice :
    NewRequest models.accountSource (some baseCool) "POST" "v1/organisation/accounts"
        (some (.pointer accountWithEmptyNames)) = .ok (some requestOfEmptyNames, none) ∧
    (Do json.refusingCodec accountType
        (.ok ⟨200, some ⟨requestOfEmptyNames.Body, none, none⟩⟩)
        (some (.pointer models.Account.zero))).map (fun out => (out.err, out.v)) =
      .ok (none, some (.pointer models.Account.zero)) ∧
    models.Account.zero ≠ accountWithEmptyNames := by
  refine ⟨?_, ?_, by decide⟩
  · exact NewRequest_steps models.accountSource (some baseCool) "POST"
      "v1/organisation/accounts" (some (.pointer accountWithEmptyNames))
      { baseCool with Path := "/v1/organisation/accounts" } bodyOfEmptyNames
      ⟨"POST", { baseCool with Path := "/v1/organisation/accounts" }, "coolurl.com", [],
        bodyOfEmptyNames⟩
      rfl rfl rfl
  · rw [Do_reads_account json.refusingCodec models.Account.zero requestOfEmptyNames.Body rfl
      (by decide) (by decide) 200 none (by decide)]
    rfl

namespace json

/-- A field that is left out does not show in the text of a struct. -/
theorem encodeStruct_omitted (l1 l2 : List FieldText) (f g : FieldText)
    (hf : f.omitted = true) (hg : g.omitted = true) :
    encodeStruct (l1 ++ f :: l2) = encodeStruct (l1 ++ g :: l2) := by
  simp [encodeStruct, List.filter_append, List.filter_cons, hf, hg]

/-- The encoder writes the same text for the attributes whether the slice
of alternative names is empty or nil. -/
theorem attributes_fields_nil (a : models.AccountAttributes)
    (h : a.AlternativeBankAccountNames = some []) :
    encodeStruct a.fields =
      encodeStruct ({ a with AlternativeBankAccountNames := none }).fields := by
  rcases a with ⟨f0, f1, f2, f3, f4, f5, f6, f7, f8, f9, f10, f11, f12, f13, f14⟩
  simp only at h
  subst h
  exact encodeStruct_omitted
    ((models.AccountAttributes.fields
      ⟨f0, f1, f2, f3, f4, f5, f6, f7, f8, f9, none, f11, f12, f13, f14⟩).take 10)
    ((models.AccountAttributes.fields
      ⟨f0, f1, f2, f3, f4, f5, f6, f7, f8, f9, none, f11, f12, f13, f14⟩).drop 11)
    ⟨"alternative_bank_account_names", true, encodeStrings (some [])⟩
    ⟨"alternative_bank_account_names", true, encodeStrings none⟩ rfl rfl

end json

/-- What `Do` makes of the text `NewRequest` writes for an account: the
account, but with a nil slice of alternative names where the account holds
an empty one. -/
theorem Do_reads_any_account (codec : json.LibraryCodec) (a : models.Account) (body : String)
    (hbody : body = json.encodeStruct [⟨"data", false, json.encodeStruct a.fields⟩] ++ "\n")
    (hv : minInt ≤ a.Version ∧ a.Version ≤ maxInt)
    (c : Int) (closeErr : Option IOError) (hc : 200 ≤ c ∧ c ≤ 299) :
    ∃ out, Do codec accountType (.ok ⟨c, some ⟨body, none, closeErr⟩⟩)
        (some (.pointer models.Account.zero)) = .ok out ∧
      out.err = none ∧
      out.v = some (.pointer { a with Attributes := { a.Attributes with
        AlternativeBankAccountNames :=
          if a.Attributes.AlternativeBankAccountNames = some [] then none
          else a.Attributes.AlternativeBankAccountNames } }) ∧
      out.closed = true := by
  by_cases hs : a.Attributes.AlternativeBankAccountNames = some []
  · have hf : json.encodeStruct a.fields = json.encodeStruct
        (models.Account.fields { a with Attributes := { a.Attributes with
          AlternativeBankAccountNames := none } }) := by
      have := json.attributes_fields_nil a.Attributes hs
      simp only [models.Account.fields, this]
    rw [hf] at hbody
    refine ⟨_, Do_reads_account codec _ body hbody (by simp) hv c closeErr hc, rfl, ?_, rfl⟩
    simp only [hs, ↓reduceIte]
  · refine ⟨_, Do_reads_account codec a body hbody hs hv c closeErr hc, rfl, ?_, rfl⟩
    simp only [hs, ↓reduceIte]

/-- C13 (amended).  Round trip for the struct `foo` and for `Account`: when
the body that `NewRequest` writes for the value, handed over as a pointer
or as the value itself, is served as the body of a response with a status
code in 200..299, `Do` with a pointer to a fresh value as target (any
`foo`, the zero `Account`) returns with no error and closes the body.  For
a `foo` the target then holds the value that was sent.  For an account it
holds the account that was sent with the slice `AlternativeBankAccountNames`
nil where the account sent holds an empty slice, and every other field as
sent; so it holds the account sent exactly when that slice is nil or holds
an element. -/
theorem Do_round_trip_values (codec : json.LibraryCodec) (x fresh : foo) (a : models.Account)
    (hv : minInt ≤ a.Version ∧ a.Version ≤ maxInt)
    (c : Int) (closeErr : Option IOError) (hc : 200 ≤ c ∧ c ≤ 299) :
    (∀ BaseURL method urlStr b req, (b = .pointer x ∨ b = .nonPointer x) →
      NewRequest fooSource BaseURL method urlStr (some b) = .ok (some req, none) →
      ∃ out, Do codec fooType (.ok ⟨c, some ⟨req.Body, none, closeErr⟩⟩)
          (some (.pointer fresh)) = .ok out ∧
        out.err = none ∧ out.v = some (.pointer x) ∧ out.closed = true) ∧
    (∀ BaseURL method urlStr b req, (b = .pointer a ∨ b = .nonPointer a) →
      NewRequest models.accountSource BaseURL method urlStr (some b) = .ok (some req, none) →
      ∃ out, Do codec accountType (.ok ⟨c, some ⟨req.Body, none, closeErr⟩⟩)
          (some (.pointer models.Account.zero)) = .ok out ∧
        out.err = none ∧ out.closed = true ∧
        out.v = some (.pointer { a with Attributes := { a.Attributes with
          AlternativeBankAccountNames :=
            if a.Attributes.AlternativeBankAccountNames = some [] then none
            else a.Attributes.AlternativeBankAccountNames } }) ∧
        (out.v = some (.pointer a) ↔ a.Attributes.AlternativeBankAccountNames ≠ some [])) := by
  constructor
  · intro BaseURL method urlStr b req hb hreq
    obtain ⟨text, ht, hbody⟩ := NewRequest_Body _ _ _ _ _ _ hreq
    have ht2 : text = json.encodeStruct [⟨"A", false, json.encodeString x.A⟩] := by
      rcases hb with rfl | rfl <;> cases ht <;> rfl
    subst ht2
    exact ⟨_, Do_reads_foo codec x fresh req.Body hbody c closeErr hc, rfl, rfl, rfl⟩
  · intro BaseURL method urlStr b req hb hreq
    obtain ⟨text, ht, hbody⟩ := NewRequest_Body _ _ _ _ _ _ hreq
    have ht2 : text = json.encodeStruct a.fields := by
      rcases hb with rfl | rfl <;> cases ht <;> rfl
    subst ht2
    obtain ⟨out, h1, h2, h3, h4⟩ := Do_reads_any_account codec a req.Body hbody hv c closeErr hc
    refine ⟨out, h1, h2, h4, h3, ?_⟩
    rw [h3]
    rcases a with ⟨⟨f0, f1, f2, f3, f4, f5, f6, f7, f8, f9, f10, f11, f12, f13, f14⟩, i, o, t, v⟩
    by_cases hs : f10 = some []
    · subst hs
      simp
    · simp [hs]

/-- C13, witness: the body of `TestNewRequest` for `foo{A: "B"}` and the
body of `TestAccountService_CreateRequest`, each served with status 200,
are decoded into the value they were written for. -/
theorem Do_round_trip_values_witness :
    (∃ req, NewRequest fooSource (some baseCool) "GET" "/foo" (some (.pointer ⟨"B"⟩)) =
        .ok (some req, none) ∧ req.Body = bodyOfTestNewRequest ∧
      ∃ out, Do json.refusingCodec fooType (.ok ⟨200, some ⟨req.Body, none, none⟩⟩)
          (some (.pointer ⟨""⟩)) = .ok out ∧
        out.err = none ∧ out.v = some (.pointer ⟨"B"⟩) ∧ out.closed = true) ∧
    (∃ req, NewRequest models.accountSource (some baseCool) "POST" "v1/organisation/accounts"
        (some (.pointer accountOfTest)) = .ok (some req, none) ∧ req.Body = bodyOfTestCreate ∧
      ∃ out, Do json.refusingCodec accountType (.ok ⟨200, some ⟨req.Body, none, none⟩⟩)
          (some (.pointer models.Account.zero)) = .ok out ∧
        out.err = none ∧ out.closed = true ∧ out.v = some (.pointer accountOfTest)) := by
  have hx := NewRequest_steps fooSource (some baseCool) "GET" "/foo" (some (.pointer ⟨"B"⟩))
    { baseCool with Path := "/foo" } bodyOfTestNewRequest
    ⟨"GET", { baseCool with Path := "/foo" }, "coolurl.com", [], bodyOfTestNewRequest⟩
    rfl rfl rfl
  have ha := NewRequest_steps models.accountSource (some baseCool) "POST"
    "v1/organisation/accounts" (some (.pointer accountOfTest))
    { baseCool with Path := "/v1/organisation/accounts" } bodyOfTestCreate
    ⟨"POST", { baseCool with Path := "/v1/organisation/accounts" }, "coolurl.com", [],
      bodyOfTestCreate⟩
    rfl rfl rfl
  obtain ⟨out, h1, h2, h3, _, h5⟩ :=
    (Do_round_trip_values json.refusingCodec ⟨"B"⟩ ⟨""⟩ accountOfTest (by decide)
      200 none (by decide)).2 _ _ _ _ _ (Or.inl rfl) ha
  exact
    ⟨⟨_, hx, rfl,
      (Do_round_trip_values json.refusingCodec ⟨"B"⟩ ⟨""⟩ accountOfTest (by decide)
        200 none (by decide)).1 _ _ _ _ _ (Or.inl rfl) hx⟩,
     ⟨_, ha, rfl, out, h1, h2, h3, h5.2 (by decide)⟩⟩

namespace url

theorem isQueryTextChar_spec (c : Char) (h : isQueryTextChar c = true) :
    ¬ (c.toNat < 32 ∨ c.toNat = 127) ∧ c ≠ '#' := by
  unfold isQueryTextChar at h
  simp only [Bool.and_eq_true, Bool.not_eq_true', Bool.or_eq_false_iff, decide_eq_false_iff_not,
    beq_eq_false_iff_ne, bne_iff_ne, ne_eq] at h
  exact ⟨fun hx => hx.elim h.1.1 h.1.2, h.2⟩

/-- The loop of `getScheme` on a text followed by a query. -/
theorem getSchemeLoop_query (raw raw2 x : List Char) (pre cs s r : List Char)
    (h : getSchemeLoop raw pre cs = .ok (s, r)) :
    (s = [] ∧ r = raw ∧ getSchemeLoop raw2 pre (cs ++ '?' :: x) = .ok ([], raw2)) ∨
    (s ≠ [] ∧ (∀ c, c ∈ r → c ∈ cs) ∧
      getSchemeLoop raw2 pre (cs ++ '?' :: x) = .ok (s, r ++ '?' :: x)) := by
  induction cs generalizing pre with
  | nil =>
    simp only [getSchemeLoop] at h
    cases h
    exact Or.inl ⟨rfl, rfl, rfl⟩
  | cons c cs ih =>
    unfold getSchemeLoop at h
    simp only [List.cons_append]
    conv => enter [1, 2, 2, 1]; unfold getSchemeLoop
    conv => enter [2, 2, 2, 1]; unfold getSchemeLoop
    have step : ∀ pre', getSchemeLoop raw pre' cs = .ok (s, r) →
        (s = [] ∧ r = raw ∧ getSchemeLoop raw2 pre' (cs ++ '?' :: x) = .ok ([], raw2)) ∨
        (s ≠ [] ∧ (∀ d, d ∈ r → d ∈ c :: cs) ∧
          getSchemeLoop raw2 pre' (cs ++ '?' :: x) = .ok (s, r ++ '?' :: x)) := by
      intro pre' hp
      rcases ih _ hp with h' | ⟨a, b, h'⟩
      · exact Or.inl h'
      · exact Or.inr ⟨a, fun d hd => List.mem_cons_of_mem _ (b d hd), h'⟩
    by_cases h1 : isAlpha c = true
    · simp only [h1, ↓reduceIte] at h ⊢
      exact step _ h
    · simp only [h1, Bool.false_eq_true, ↓reduceIte] at h ⊢
      by_cases h2 : (isDigit c || c == '+' || c == '-' || c == '.') = true
      · simp only [h2, ↓reduceIte] at h ⊢
        by_cases h3 : pre.isEmpty = true
        · simp only [h3, ↓reduceIte] at h ⊢
          cases h
          exact Or.inl ⟨rfl, rfl, by first | rfl | trivial⟩
        · simp only [h3, Bool.false_eq_true, ↓reduceIte] at h ⊢
          exact step _ h
      · simp only [h2, Bool.false_eq_true, ↓reduceIte] at h ⊢
        by_cases h3 : (c == ':') = true
        · simp only [h3, ↓reduceIte] at h ⊢
          by_cases h4 : pre.isEmpty = true
          · simp only [h4, ↓reduceIte] at h
            cases h
          · simp only [h4, Bool.false_eq_true, ↓reduceIte] at h ⊢
            cases h
            refine Or.inr ⟨?_, fun d hd => List.mem_cons_of_mem _ hd, rfl⟩
            intro e
            rw [e] at h4
            exact h4 rfl
        · simp only [h3, Bool.false_eq_true, ↓reduceIte] at h ⊢
          cases h
          exact Or.inl ⟨rfl, rfl, by first | rfl | trivial⟩

end url

namespace url

theorem setPath_query (u v : URL) (p : List Char) (fq : Bool) (rq : String)
    (h : u.setPath p = .ok v) :
    URL.setPath { u with ForceQuery := fq, RawQuery := rq } p =
      .ok { v with ForceQuery := fq, RawQuery := rq } := by
  unfold URL.setPath at h ⊢
  cases hu : unescape p .encodePath with
  | error e => simp [hu] at h
  | ok path =>
    simp only [hu] at h ⊢
    cases h
    rfl

theorem stringContainsCTLByte_query (x : List Char) (hx : x.all isQueryTextChar = true) :
    stringContainsCTLByte ('?' :: x) = false := by
  unfold stringContainsCTLByte
  rw [← Bool.not_eq_true, List.any_eq_true]
  rintro ⟨c, hc, hcx⟩
  simp only [Bool.or_eq_true, decide_eq_true_eq, beq_iff_eq] at hcx
  rcases List.mem_cons.1 hc with rfl | hc
  · revert hcx; decide
  · exact (isQueryTextChar_spec c (List.all_eq_true.1 hx c hc)).1 hcx

theorem getScheme_query (pre x s r : List Char) (hq : '?' ∉ pre)
    (h : getScheme pre = .ok (s, r)) :
    '?' ∉ r ∧ getScheme (pre ++ '?' :: x) = .ok (s, r ++ '?' :: x) := by
  unfold getScheme at h ⊢
  rcases getSchemeLoop_query pre (pre ++ '?' :: x) x [] pre s r h with ⟨h1, h2, h3⟩ | ⟨_, h2, h3⟩
  · subst h1 h2
    exact ⟨hq, h3⟩
  · exact ⟨fun hm => hq (h2 _ hm), h3⟩

/-- The query split of `parse` for a text without `?` followed by `?` and
a query. -/
theorem query_split (r x : List Char) (hq : '?' ∉ r) :
    ((r.getLast? == some '?' && r.count '?' == 1) = false ∧ cut '?' r = (r, [], false)) ∧
    ((r ++ '?' :: x).getLast? == some '?' && (r ++ '?' :: x).count '?' == 1) = x.isEmpty ∧
    (x = [] → (r ++ '?' :: x).dropLast = r) ∧
    cut '?' (r ++ '?' :: x) = (r, x, true) := by
  refine ⟨⟨?_, cut_absent '?' r hq⟩, ?_, ?_, cut_append '?' r x hq⟩
  · have : (r.getLast? == some '?') = false := by
      rw [← Bool.not_eq_true, beq_iff_eq]
      intro e
      exact hq (List.mem_of_getLast?_eq_some e)
    simp [this]
  · cases x with
    | nil =>
      have hc : List.count '?' r = 0 := List.count_eq_zero.2 hq
      simp [List.count_append, hc]
    | cons c cs =>
      have hne : (c :: cs).getLast? = some ((c :: cs).getLast (by simp)) :=
        List.getLast?_eq_getLast _ _
      have hl : (r ++ '?' :: c :: cs).getLast? = (c :: cs).getLast? := by
        rw [List.getLast?_append, List.getLast?_cons_cons, hne]
        rfl
      have hc : List.count '?' r = 0 := List.count_eq_zero.2 hq
      show (_ && _) = false
      rw [Bool.and_eq_false_iff]
      by_cases hlast : (c :: cs).getLast? = some '?'
      · right
        have hm : '?' ∈ c :: cs := List.mem_of_getLast?_eq_some hlast
        have hpos : 0 < List.count '?' (c :: cs) := List.count_pos_iff.2 hm
        rw [← Bool.not_eq_true, beq_iff_eq, List.count_append, hc, List.count_cons_self]
        omega
      · left
        rw [hl, ← Bool.not_eq_true, beq_iff_eq]
        exact hlast
  · rintro rfl
    simp

theorem parse_query (pre x : List Char) (u : URL) (hp : parse pre false = .ok u)
    (hq : '?' ∉ pre) (hstar : pre ≠ ['*']) (hx : x.all isQueryTextChar = true) :
    parse (pre ++ '?' :: x) false = .ok { u with ForceQuery := x.isEmpty, RawQuery := ⟨x⟩ } := by
  unfold parse at hp ⊢
  have hctl : stringContainsCTLByte pre = false := by
    cases hc : stringContainsCTLByte pre with
    | false => rfl
    | true => simp [hc] at hp
  have hctl2 : stringContainsCTLByte (pre ++ '?' :: x) = false := by
    have := stringContainsCTLByte_query x hx
    unfold stringContainsCTLByte at hctl this ⊢
    rw [List.any_append, hctl, this]
    rfl
  have hstar1 : (pre == ['*']) = false := by
    rw [← Bool.not_eq_true, beq_iff_eq]
    exact hstar
  have hstar2 : (pre ++ '?' :: x == ['*']) = false := by
    rw [← Bool.not_eq_true, beq_iff_eq]
    intro e
    cases pre with
    | nil => cases e
    | cons c cs =>
      have := congrArg List.length e
      simp at this
  simp only [hctl, hctl2, hstar1, hstar2, Bool.and_false, Bool.false_eq_true, ↓reduceIte]
    at hp ⊢
  cases hg : getScheme pre with
  | error e => simp [hg] at hp
  | ok sr =>
    rcases sr with ⟨s, r⟩
    obtain ⟨hr, hg2⟩ := getScheme_query pre x s r hq hg
    obtain ⟨⟨f1, c1⟩, f2, d2, c2⟩ := query_split r x hr
    simp only [hg, hg2, f1, c1, f2] at hp ⊢
    have e1 : (if x.isEmpty = true then (r ++ '?' :: x).dropLast
        else (cut '?' (r ++ '?' :: x)).1) = r := by
      cases x with
      | nil => simp
      | cons c cs => simp [c2]
    have e2 : (if x.isEmpty = true then [] else (cut '?' (r ++ '?' :: x)).2.1) = x := by
      cases x with
      | nil => rfl
      | cons c cs => simp [c2]
    simp only [e1, e2]
    simp only [Bool.false_eq_true, ↓reduceIte] at hp
    by_cases hA : (r.head? != some '/' && !(toLower s).isEmpty) = true
    · simp only [hA, ↓reduceIte] at hp ⊢
      cases hp
      rfl
    · simp only [hA, Bool.false_eq_true, ↓reduceIte] at hp ⊢
      by_cases hB : (r.head? != some '/' && (cut '/' r).1.contains ':') = true
      · simp only [hB, ↓reduceIte] at hp
        cases hp
      · simp only [hB, Bool.false_eq_true, ↓reduceIte] at hp ⊢
        by_cases hC : ((!(toLower s).isEmpty || !false && List.take 3 r != ['/', '/', '/']) &&
            List.take 2 r == ['/', '/']) = true
        · simp only [hC, ↓reduceIte] at hp ⊢
          cases hpa : parseAuthority (cut '/' (List.drop 2 r)).1 with
          | error e => simp [hpa] at hp
          | ok uh =>
            rcases uh with ⟨user, host⟩
            simp only [hpa] at hp ⊢
            exact setPath_query _ _ _ _ _ hp
        · simp only [hC, Bool.false_eq_true, ↓reduceIte] at hp ⊢
          by_cases hD : (!(toLower s).isEmpty && r.head? == some '/') = true
          · simp only [hD, ↓reduceIte] at hp ⊢
            exact setPath_query _ _ _ _ _ hp
          · simp only [hD, Bool.false_eq_true, ↓reduceIte] at hp ⊢
            exact setPath_query _ _ _ _ _ hp

/-- `url.Parse` on a text that parses and holds neither `?` nor `#`,
followed by `?` and a query: the same URL with the query. -/
theorem Parse_query (pre x : List Char) (u : URL) (hP : Parse ⟨pre⟩ = .ok u)
    (hq : '?' ∉ pre) (hh : '#' ∉ pre) (hstar : pre ≠ ['*'])
    (hx : x.all isQueryTextChar = true) :
    Parse ⟨pre ++ '?' :: x⟩ = .ok { u with ForceQuery := x.isEmpty, RawQuery := ⟨x⟩ } := by
  have hh2 : '#' ∉ pre ++ '?' :: x := by
    intro hm
    rcases List.mem_append.1 hm with hm | hm
    · exact hh hm
    · rcases List.mem_cons.1 hm with hm | hm
      · revert hm; decide
      · exact (isQueryTextChar_spec _ (List.all_eq_true.1 hx _ hm)).2 rfl
  unfold Parse at hP ⊢
  simp only [cut_absent '#' _ hh, cut_absent '#' _ hh2, List.isEmpty_nil, ↓reduceIte] at hP ⊢
  cases hp : parse pre false with
  | error e => simp [hp] at hP
  | ok v =>
    simp only [hp] at hP
    cases hP
    simp only [parse_query pre x _ hp hq hstar hx]

/-- The text `String()` writes for a URL without fragment is the text it
writes for the URL without its query, followed by `?` and the query when
`ForceQuery` is set or the query is not empty. -/
theorem String_query (u : URL) (fq : Bool) (rq : String) (hf : u.Fragment = "") :
    URL.String { u with ForceQuery := fq, RawQuery := rq } =
      ⟨(URL.String { u with ForceQuery := false, RawQuery := "" }).data ++
        (if fq || rq != "" then '?' :: rq.data else [])⟩ := by
  simp [URL.String, URL.authorityText, URL.EscapedPath, hf]

end url

namespace url

/-- What a character of a lower-case scheme is not. -/
theorem schemeChar_spec (d : Char)
    (h : (isLower d || isDigit d || d == '+' || d == '-' || d == '.') = true) :
    (isAlpha d = true ∨ (isDigit d || d == '+' || d == '-' || d == '.') = true) ∧
    ¬ (65 ≤ d.toNat ∧ d.toNat ≤ 90) ∧ d ≠ '#' ∧ d ≠ '?' ∧ ¬ (d.toNat < 32 ∨ d.toNat = 127) := by
  simp only [Bool.or_eq_true, beq_iff_eq] at h
  rcases h with (((h | h) | h) | h) | h
  · unfold isLower at h
    simp only [Bool.and_eq_true, decide_eq_true_eq] at h
    refine ⟨Or.inl (by simp [isAlpha, h.1, h.2]), by omega, ?_, ?_, by omega⟩
    · rintro rfl
      revert h; decide
    · rintro rfl
      revert h; decide
  · have h' := h
    unfold isDigit at h'
    simp only [Bool.and_eq_true, decide_eq_true_eq] at h'
    refine ⟨Or.inr (by simp [h]), by omega, ?_, ?_, by omega⟩
    · rintro rfl
      revert h; decide
    · rintro rfl
      revert h; decide
  · subst h
    exact ⟨Or.inr (by decide), by decide, by decide, by decide, by decide⟩
  · subst h
    exact ⟨Or.inr (by decide), by decide, by decide, by decide, by decide⟩
  · subst h
    exact ⟨Or.inr (by decide), by decide, by decide, by decide, by decide⟩

theorem getSchemeLoop_scheme (raw pre cs rest : List Char) (hpre : pre ≠ [])
    (hcs : cs.all (fun d => isLower d || isDigit d || d == '+' || d == '-' || d == '.') = true) :
    getSchemeLoop raw pre (cs ++ ':' :: rest) = .ok (pre ++ cs, rest) := by
  have hpe : pre.isEmpty = false := by
    cases pre with
    | nil => exact absurd rfl hpre
    | cons _ _ => rfl
  induction cs generalizing pre with
  | nil =>
    have h1 : isAlpha ':' = false := by decide
    have h2 : (isDigit ':' || ':' == '+' || ':' == '-' || ':' == '.') = false := by decide
    simp only [List.nil_append, List.append_nil]
    unfold getSchemeLoop
    simp only [h1, h2, hpe, Bool.false_eq_true, ↓reduceIte, beq_self_eq_true]
  | cons d cs ih =>
    simp only [List.all_cons, Bool.and_eq_true] at hcs
    have hd := (schemeChar_spec d hcs.1).1
    have hnext := ih (pre ++ [d]) (by simp) hcs.2 (by simp)
    simp only [List.cons_append]
    unfold getSchemeLoop
    by_cases h1 : isAlpha d = true
    · simp only [h1, ↓reduceIte, hnext, List.append_assoc, List.singleton_append]
    · rcases hd with hd | hd
      · exact absurd hd h1
      · simp only [h1, Bool.false_eq_true, ↓reduceIte, hd, hpe, hnext, List.append_assoc,
          List.singleton_append]

/-- A lower-case scheme as `getScheme` and `url.Parse` read it. -/
theorem scheme_lower (sch : String) (hs : isLowerScheme sch.data = true) :
    (∀ rest, getScheme (sch.data ++ ':' :: rest) = .ok (sch.data, rest)) ∧
    toLower sch.data = sch.data ∧ sch.data ≠ [] ∧ '#' ∉ sch.data ∧ '?' ∉ sch.data ∧
    stringContainsCTLByte sch.data = false ∧ sch ≠ "" := by
  rcases sch with ⟨_ | ⟨c, cs⟩⟩
  · cases hs
  · simp only [isLowerScheme, Bool.and_eq_true] at hs
    have hall : ∀ d ∈ c :: cs,
        (isLower d || isDigit d || d == '+' || d == '-' || d == '.') = true := by
      intro d hd
      rcases List.mem_cons.1 hd with rfl | hd
      · simp [hs.1]
      · exact List.all_eq_true.1 hs.2 d hd
    have hc := (schemeChar_spec c (hall c (List.mem_cons_self _ _)))
    have hca : isAlpha c = true := by
      have := hs.1
      unfold isLower at this
      simp only [Bool.and_eq_true, decide_eq_true_eq] at this
      simp [isAlpha, this.1, this.2]
    refine ⟨fun rest => ?_, ?_, by simp, ?_, ?_, ?_, ?_⟩
    · unfold getScheme
      simp only [List.cons_append]
      unfold getSchemeLoop
      simp only [hca, ↓reduceIte, List.nil_append]
      exact getSchemeLoop_scheme _ [c] cs rest (by simp) hs.2
    · unfold toLower
      conv => rhs; rw [← List.map_id (c :: cs)]
      apply List.map_congr_left
      intro d hd
      have := (schemeChar_spec d (hall d hd)).2.1
      have hb : (decide (65 ≤ d.toNat) && decide (d.toNat ≤ 90)) = false := by
        rw [← Bool.not_eq_true]
        simpa using this
      simp [hb]
    · exact fun hm => (schemeChar_spec _ (hall _ hm)).2.2.1 rfl
    · exact fun hm => (schemeChar_spec _ (hall _ hm)).2.2.2.1 rfl
    · unfold stringContainsCTLByte
      rw [← Bool.not_eq_true, List.any_eq_true]
      rintro ⟨d, hd, hx⟩
      simp only [Bool.or_eq_true, decide_eq_true_eq, beq_iff_eq] at hx
      exact (schemeChar_spec d (hall d hd)).2.2.2.2 hx
    · intro e
      have := congrArg String.data e
      simp at this

/-- The query part of a reference text, as `String()` writes it. -/
theorem query_suffix (pre : String) (query : Option String) :
    (refText pre query).data =
      pre.data ++ (if (query == some "") || (query.getD "") != "" then
        '?' :: (query.getD "").data else []) := by
  cases query with
  | none => simp [refText]
  | some q =>
    rcases q with ⟨_ | ⟨c, cs⟩⟩
    · rfl
    · have h1 : ((⟨c :: cs⟩ : String) != "") = true := by
        rw [bne_iff_ne]
        intro e
        have := congrArg String.data e
        simp at this
      simp [refText, h1]

theorem query_flag (q : String) : (some q == some "") = q.data.isEmpty := by
  rcases q with ⟨_ | ⟨c, cs⟩⟩
  · rfl
  · have hne : (⟨c :: cs⟩ : String) ≠ "" := by
      intro e
      have := congrArg String.data e
      simp at this
    simp [hne]

/-- `url.Parse` on the text of a reference: what it gives for the text
without the query, with the query put in. -/
theorem Parse_refText (pre : String) (query : Option String) (u : URL)
    (hP : Parse pre = .ok u) (hq : '?' ∉ pre.data) (hh : '#' ∉ pre.data) (hstar : pre ≠ "*")
    (hu : u.ForceQuery = false ∧ u.RawQuery = "")
    (hquery : ∀ q, query = some q → q.data.all isQueryTextChar = true) :
    Parse (refText pre query) =
      .ok { u with ForceQuery := query == some "", RawQuery := query.getD "" } := by
  cases query with
  | none =>
    rcases u with ⟨a1, a2, a3, a4, a5, a6, a7, a8, a9, a10, a11⟩
    simp only at hu
    obtain ⟨h1, h2⟩ := hu
    subst h1 h2
    exact hP
  | some q =>
    have := Parse_query pre.data q.data u hP hq hh
      (fun e => hstar (String.ext e)) (hquery q rfl)
    simp only [refText, this, query_flag, Option.getD_some]

/-- `String()` for a URL without fragment that holds the query of a
reference: the text of the URL without query, with the query. -/
theorem String_refText (u : URL) (query : Option String) (hf : u.Fragment = "") :
    URL.String { u with ForceQuery := query == some "", RawQuery := query.getD "" } =
      refText (URL.String { u with ForceQuery := false, RawQuery := "" }) query := by
  apply String.ext
  rw [String_query u _ _ hf, query_suffix]

end url

namespace url

/-- `url.Parse` on the text of a reference with a plain path. -/
theorem Parse_ref (path : String) (query : Option String)
    (hp : path.data.all isPathChar = true) (hnet : path.data.take 2 ≠ ['/', '/'])
    (hseg : ((splitSlash path.data).all fun e => e != ['.'] && e != ['.', '.']) = true)
    (hquery : ∀ q, query = some q → q.data.all isQueryTextChar = true) :
    Parse (refText path query) = .ok (queryURL "" "" path query) := by
  have hP : Parse path = .ok { URL.zero with Path := path } := by
    by_cases hne : path = ""
    · subst hne
      rfl
    · exact Parse_plain path (by unfold isPlainPath; rw [hp, hseg]; rfl) hne hnet
  have hq := not_mem_of_class isPathChar '?' path.data (by decide) hp
  have hh := not_mem_of_class isPathChar '#' path.data (by decide) hp
  have hstar : path ≠ "*" := by
    intro e
    rw [e] at hp
    exact absurd hp (by decide)
  exact Parse_refText path query _ hP hq hh hstar ⟨rfl, rfl⟩ hquery

/-- The text `String()` writes for a URL with a scheme, a plain host, a
plain path that begins with a slash, and a query. -/
theorem String_queryURL (sch : String) (h p : List Char) (query : Option String)
    (hs : sch ≠ "") (hh : isPlainHost h = true) (hp : p.all isPathChar = true)
    (hp1 : p.head? = some '/') :
    URL.String (queryURL sch ⟨h⟩ ⟨p⟩ query) =
      refText ⟨sch.data ++ ':' :: '/' :: '/' :: (h ++ p)⟩ query := by
  show URL.String { plainURL sch ⟨h⟩ ⟨p⟩ with
    ForceQuery := query == some "", RawQuery := query.getD "" } = _
  rw [String_refText _ _ rfl]
  show refText (URL.String (plainURL sch ⟨h⟩ ⟨p⟩)) query = _
  rw [String_plain sch h p hs hh hp hp1]

/-- `url.Parse` reads the text of a URL with a lower-case scheme, a plain
host, a plain path and a query back as that URL. -/
theorem Parse_queryURL (scheme h p : List Char) (query : Option String)
    (hsch : ∀ rest, getScheme (scheme ++ ':' :: rest) = .ok (scheme, rest))
    (hlow : toLower scheme = scheme) (hsne : scheme ≠ []) (hshash : '#' ∉ scheme)
    (hsq : '?' ∉ scheme)
    (hsctl : stringContainsCTLByte scheme = false) (hh : isPlainHost h = true)
    (hp : p.all isPathChar = true) (hp1 : p.head? = some '/')
    (hquery : ∀ q, query = some q → q.data.all isQueryTextChar = true) :
    Parse (refText ⟨scheme ++ ':' :: '/' :: '/' :: (h ++ p)⟩ query) =
      .ok (queryURL ⟨scheme⟩ ⟨h⟩ ⟨p⟩ query) := by
  obtain ⟨_, hc, _, _⟩ := isPlainHost_spec h hh
  have hP := Parse_text scheme h p hsch hlow hsne hshash hsctl hh hp hp1
  have hmem : ∀ d : Char, d ∉ scheme → d ≠ ':' → d ≠ '/' → isPathChar d = false →
      (∀ c, (isHostChar c = true ∨ c = ':') → c ≠ d) →
      d ∉ scheme ++ ':' :: '/' :: '/' :: (h ++ p) := by
    intro d h1 h2 h3 h4 h5 hm
    rcases List.mem_append.1 hm with hm | hm
    · exact h1 hm
    · rcases List.mem_cons.1 hm with hm | hm
      · exact h2 hm
      · rcases List.mem_cons.1 hm with hm | hm
        · exact h3 hm
        · rcases List.mem_cons.1 hm with hm | hm
          · exact h3 hm
          · rcases List.mem_append.1 hm with hm | hm
            · exact h5 d (hc d hm) rfl
            · exact not_mem_of_class isPathChar d p h4 hp hm
  have hq := hmem '?' hsq (by decide) (by decide) (by decide)
    (fun c hcc => (hostChar_spec c hcc).2.2.2.2.1)
  have hhash := hmem '#' hshash (by decide) (by decide) (by decide)
    (fun c hcc => (hostChar_spec c hcc).2.2.2.2.2.1)
  have hstar : (⟨scheme ++ ':' :: '/' :: '/' :: (h ++ p)⟩ : String) ≠ "*" := by
    intro e
    have := congrArg (fun s => s.data.length) e
    simp at this
    omega
  exact Parse_refText _ query _ hP hq hhash hstar ⟨rfl, rfl⟩ hquery

end url

/-- The URL that `BaseURL.Parse(urlStr)` gives for a reference made of a
plain path and a query, and a base URL with a plain host and a plain
path. -/
theorem URL_Parse_ref (base : url.URL) (path : String) (query : Option String)
    (huser : base.User = none) (hraw : base.RawPath = "")
    (hpath : url.isPlainPath base.Path.data = true)
    (hroot : base.Path.data = [] ∨ base.Path.data.head? = some '/')
    (hurl : url.isPlainPath path.data = true) (hne : path ≠ "")
    (hnet : path.data.take 2 ≠ ['/', '/'])
    (hquery : ∀ q, query = some q → q.data.all url.isQueryTextChar = true) :
    url.URL.Parse (some base) (url.refText path query) =
      .ok (.ok (url.queryURL base.Scheme base.Host
        ⟨url.joinPath base.Path.data path.data⟩ query)) ∧
    (url.joinPath base.Path.data path.data).all url.isPathChar = true ∧
    (url.joinPath base.Path.data path.data).head? = some '/' := by
  have hne' : path.data ≠ [] := fun e => hne (String.ext e)
  obtain ⟨hres, hall, hhead⟩ := url.resolvePath_plain base.Path.data path.data hpath hurl hne'
    hroot
  refine ⟨?_, hall, hhead⟩
  have hbc : base.Path.data.all url.isPathChar = true := by
    unfold url.isPlainPath at hpath
    exact (Bool.and_eq_true _ _ ▸ hpath).1
  have huc : path.data.all url.isPathChar = true := by
    unfold url.isPlainPath at hurl
    exact (Bool.and_eq_true _ _ ▸ hurl).1
  have hus : ((url.splitSlash path.data).all fun e => e != ['.'] && e != ['.', '.']) = true := by
    unfold url.isPlainPath at hurl
    exact (Bool.and_eq_true _ _ ▸ hurl).2
  have hbstar : base.Path ≠ "*" := by
    intro e
    rw [e] at hbc
    exact absurd hbc (by decide)
  have hustar : path ≠ "*" := by
    intro e
    rw [e] at huc
    exact absurd huc (by decide)
  have hb : url.URL.EscapedPath base = base.Path.data := by
    simp [url.URL.EscapedPath, hraw, hbstar, url.escape_plain _ hbc]
  have hr : url.URL.EscapedPath (url.queryURL "" "" path query) = path.data := by
    simp [url.URL.EscapedPath, url.queryURL, hustar, url.escape_plain _ huc]
  have hP := url.Parse_ref path query huc hnet hus hquery
  rcases base with ⟨bs, bo, bu, bh, bp, brp, boh, bfq, brq, bf, brf⟩
  simp only at huser hraw hb hres hall
  subst huser hraw
  simp only [url.URL.Parse, hP, url.URL.ResolveReference]
  have hr' : url.URL.EscapedPath (url.queryURL "" "" path query) = path.data := hr
  simp only [url.queryURL] at hr' ⊢
  simp only [hr', hb, hres, url.URL.withPath, url.setPath_plain _ _ hall]
  simp [hne]

/-- C16 (amended).  For a base URL with a lower-case scheme, a plain host,
no user information and a plain path that is empty or begins with a slash,
and for a `urlStr` made of a non-empty plain path that does not begin with
two slashes and, optionally, `?` and a query, a valid method and a body
that can be encoded, `NewRequest` returns a request whose URL has the scheme
and the host of the base URL, the query of `urlStr` and the path that
RFC 3986 gives: the path of `urlStr` itself when it begins with a slash,
else the base path up to and with its last slash followed by the path of
`urlStr`, which is the base path followed by it when the base path ends in
a slash, and a slash followed by it when the base path is empty; the text
of that URL is scheme, `://`, host, path and the query as in `urlStr`.  And
for every `urlStr` that `url.Parse` rejects, `NewRequest` returns the error
of `url.Parse` and no request. -/
theorem NewRequest_resolves {T : Type} (ty : json.SourceType T) (base : url.URL)
    (method path : String) (query : Option String) (body : Option (json.Target T))
    (hscheme : url.isLowerScheme base.Scheme.data = true)
    (huser : base.User = none) (hhost : url.isPlainHost base.Host.data = true)
    (hraw : base.RawPath = "") (hpath : url.isPlainPath base.Path.data = true)
    (hroot : base.Path.data = [] ∨ base.Path.data.head? = some '/')
    (hurl : url.isPlainPath path.data = true) (hne : path ≠ "")
    (hnet : path.data.take 2 ≠ ['/', '/'])
    (hquery : ∀ q, query = some q → q.data.all url.isQueryTextChar = true)
    (hmethod : http.validMethod (if method == "" then "GET" else method) = true)
    (henc : ∀ b, body = some b → ∃ text, json.encodeInterface ty b = .ok text) :
    (∃ req, NewRequest ty (some base) method (url.refText path query) body =
        .ok (some req, none) ∧
      req.URL = url.queryURL base.Scheme base.Host
        ⟨url.joinPath base.Path.data path.data⟩ query ∧
      req.URL.String = url.refText
        ⟨base.Scheme.data ++ ':' :: '/' :: '/' ::
          (base.Host.data ++ url.joinPath base.Path.data path.data)⟩ query ∧
      (path.data.head? = some '/' → req.URL.Path = path) ∧
      (∀ dir, base.Path.data = dir ++ ['/'] → path.data.head? ≠ some '/' →
        req.URL.Path = base.Path ++ path) ∧
      (base.Path.data = [] → path.data.head? ≠ some '/' → req.URL.Path = "/" ++ path)) ∧
    (∀ (BaseURL : Option url.URL) (bad : String) (e : GoError), url.Parse bad = .error e →
      NewRequest ty BaseURL method bad body = .ok (none, some e)) := by
  refine ⟨?_, fun BaseURL bad e he => by simp [NewRequest, url.URL.Parse, he]⟩
  obtain ⟨hu, hall, hhead⟩ :=
    URL_Parse_ref base path query huser hraw hpath hroot hurl hne hnet hquery
  obtain ⟨hs1, hs2, hs3, hs4, hs5, hs6, hs7⟩ := url.scheme_lower base.Scheme hscheme
  have hstr := url.String_queryURL base.Scheme base.Host.data _ query hs7 hhost hall hhead
  have hparse := url.Parse_queryURL base.Scheme.data base.Host.data _ query hs1 hs2 hs3 hs4 hs5
    hs6 hhost hall hhead hquery
  rw [String_eta] at hstr hparse
  rw [String_eta] at hparse
  obtain ⟨buf, hbuf⟩ := encoded_ok ty body henc
  have hreq := http_NewRequest_ok method
    (url.queryURL base.Scheme base.Host ⟨url.joinPath base.Path.data path.data⟩ query).String
    buf _ hmethod (hstr ▸ hparse)
  have hport : http.removeEmptyPort base.Host = base.Host :=
    url.removeEmptyPort_plain base.Host hhost
  have hURL : ({ url.queryURL base.Scheme base.Host
        ⟨url.joinPath base.Path.data path.data⟩ query with
      Host := http.removeEmptyPort base.Host } : url.URL) =
      url.queryURL base.Scheme base.Host ⟨url.joinPath base.Path.data path.data⟩ query := by
    simp [url.queryURL, hport]
  refine ⟨_, NewRequest_steps ty (some base) method _ body _ buf _ hu hbuf hreq,
    ?_, ?_, ?_, ?_, ?_⟩
  · exact hURL
  · exact (congrArg url.URL.String hURL).trans hstr
  · intro h
    simp only [url.queryURL, (joinPath_cases base.Path.data path.data).1 h]
  · intro dir hd h
    simp only [url.queryURL, (joinPath_cases base.Path.data path.data).2.1 dir hd h]
    rfl
  · intro hb h
    simp only [url.queryURL, (joinPath_cases base.Path.data path.data).2.2 hb h]
    rfl

/-- C16, witness: `TestNewRequest`, the base `http://coolurl.com` and
`/foo` give a request for `http://coolurl.com/foo`; and against the base
`http://localhost:8080/` the text that `Delete` passes for the account
`account-id` gives a request for
`http://localhost:8080/v1/organisation/accounts/account-id?version=0`. -/
theorem NewRequest_resolves_witness :
    (∃ req, NewRequest fooSource (some baseCool) "GET" "/foo" (some (.pointer ⟨"B"⟩)) =
        .ok (some req, none) ∧
      req.URL = url.plainURL "http" "coolurl.com" "/foo" ∧
      req.URL.String = "http://coolurl.com/foo") ∧
    (∃ req, NewRequest fooSource (some (url.plainURL "http" "localhost:8080" "/")) "DELETE"
        "v1/organisation/accounts/account-id?version=0" none = .ok (some req, none) ∧
      req.URL.Path = "/v1/organisation/accounts/account-id" ∧ req.URL.RawQuery = "version=0" ∧
      req.URL.String =
        "http://localhost:8080/v1/organisation/accounts/account-id?version=0") := by
  obtain ⟨req, h1, h2, h3, _⟩ :=
    (NewRequest_resolves fooSource baseCool "GET" "/foo" none (some (.pointer ⟨"B"⟩))
      (by decide) rfl (by decide) rfl (by decide) (Or.inl rfl) (by decide) (by decide)
      (by decide) (by intro q hq; cases hq) (by decide)
      (by intro b hb; cases hb; exact ⟨_, rfl⟩)).1
  obtain ⟨req2, g1, g2, g3, _⟩ :=
    (NewRequest_resolves fooSource (url.plainURL "http" "localhost:8080" "/") "DELETE"
      "v1/organisation/accounts/account-id" (some "version=0") none
      (by decide) rfl (by decide) rfl (by decide) (Or.inr rfl) (by decide) (by decide)
      (by decide) (by intro q hq; cases hq; decide) (by decide)
      (by intro b hb; cases hb)).1
  refine ⟨⟨req, h1, h2, ?_⟩, ⟨req2, g1, ?_, ?_, ?_⟩⟩
  · rw [h3]
    rfl
  · rw [g2]
    rfl
  · rw [g2]
    rfl
  · rw [g3]
    rfl

namespace url

/-- `url.Parse` on a text of plain path characters gives the URL with that
path and nothing else. -/
theorem Parse_pathChars (s : String) (hall : s.data.all isPathChar = true)
    (hnet : s.data.take 2 ≠ ['/', '/']) :
    Parse s = .ok { URL.zero with Path := s } := by
  by_cases hne : s = ""
  · subst hne
    rfl
  have hhash := not_mem_of_class isPathChar '#' s.data (by decide) hall
  have hq := not_mem_of_class isPathChar '?' s.data (by decide) hall
  have hcolon := not_mem_of_class isPathChar ':' s.data (by decide) hall
  have hstar : (s.data == ['*']) = false := by
    rw [← Bool.not_eq_true, beq_iff_eq]
    intro e
    rw [e] at hall
    exact absurd hall (by decide)
  have hempty : s.data.isEmpty = false := by
    rcases s with ⟨_ | ⟨c, cs⟩⟩
    · exact absurd rfl hne
    · rfl
  have hlast : (s.data.getLast? == some '?') = false := by
    rw [← Bool.not_eq_true, beq_iff_eq]
    intro e
    exact hq (List.mem_of_getLast?_eq_some e)
  have hseg : ((cut '/' s.data).1).contains ':' = false := by
    rw [← Bool.not_eq_true]
    intro hm
    have hm : ':' ∈ (cut '/' s.data).1 := by simpa using hm
    have hsub : ∀ (l : List Char) (c : Char), c ∈ (cut '/' l).1 → c ∈ l := by
      intro l
      induction l with
      | nil => intro c hc; simp [cut] at hc
      | cons x l ih =>
        intro c hc
        unfold cut at hc
        split at hc
        · simp at hc
        · rcases List.mem_cons.1 hc with rfl | hc
          · exact List.mem_cons_self _ _
          · exact List.mem_cons_of_mem _ (ih c hc)
    exact hcolon (hsub _ _ hm)
  have hnet' : (s.data.take 2 == ['/', '/']) = false := by
    rw [← Bool.not_eq_true, beq_iff_eq]
    exact hnet
  simp only [Parse, cut_absent '#' s.data hhash, parse, stringContainsCTLByte_plain s.data hall,
    hempty, hstar, getScheme, getSchemeLoop_plain s.data [] s.data hall, toLower,
    List.map_nil, hlast, cut_absent '?' s.data hq, hseg, hnet',
    setPath_plain _ s.data hall, Bool.false_eq_true, ↓reduceIte, Bool.false_and,
    Bool.and_false, List.isEmpty_nil, Bool.not_true, Bool.and_self, Bool.not_false,
    Bool.true_and, Bool.or_false]
  rfl

/-- `url.Parse` on a path of plain characters followed, when a query is
given, by `?` and the query. -/
theorem Parse_pathQuery (path : String) (query : Option String)
    (hp : path.data.all isPathChar = true) (hnet : path.data.take 2 ≠ ['/', '/'])
    (hquery : ∀ q, query = some q → q.data.all isQueryTextChar = true) :
    Parse (refText path query) = .ok (queryURL "" "" path query) := by
  have hP := Parse_pathChars path hp hnet
  have hq := not_mem_of_class isPathChar '?' path.data (by decide) hp
  have hh := not_mem_of_class isPathChar '#' path.data (by decide) hp
  have hstar : path ≠ "*" := by
    intro e
    rw [e] at hp
    exact absurd hp (by decide)
  exact Parse_refText path query _ hP hq hh hstar ⟨rfl, rfl⟩ hquery

/-- The text `String()` writes for a URL that holds nothing but a path of
plain characters is the path. -/
theorem String_pathChars (p : String) (hp : p.data.all isPathChar = true) :
    URL.String ⟨"", "", none, "", p, "", false, false, "", "", ""⟩ = p := by
  have hstar : p ≠ "*" := by
    intro e
    rw [e] at hp
    exact absurd hp (by decide)
  have hcolon := not_mem_of_class isPathChar ':' p.data (by decide) hp
  have hsub : ∀ (l : List Char) (c : Char), c ∈ (cut '/' l).1 → c ∈ l := by
    intro l
    induction l with
    | nil => intro c hc; simp [cut] at hc
    | cons x l ih =>
      intro c hc
      unfold cut at hc
      split at hc
      · simp at hc
      · rcases List.mem_cons.1 hc with rfl | hc
        · exact List.mem_cons_self _ _
        · exact List.mem_cons_of_mem _ (ih c hc)
  have hseg : ((cut '/' p.data).1).contains ':' = false := by
    rw [← Bool.not_eq_true]
    intro hm
    exact hcolon (hsub _ _ (by simpa using hm))
  have hesc : URL.EscapedPath ⟨"", "", none, "", p, "", false, false, "", "", ""⟩ = p.data := by
    simp [URL.EscapedPath, hstar, escape_plain p.data hp]
  have hseg2 : ':' ∉ (cut '/' p.data).1 := fun hm => hcolon (hsub _ _ hm)
  apply String.ext
  simp [URL.String, hesc, URL.authorityText, hseg2]

theorem mem_intercalate (sep : List Char) (L : List (List Char)) (c : Char)
    (h : c ∈ List.intercalate sep L) : c ∈ sep ∨ ∃ l ∈ L, c ∈ l := by
  induction L with
  | nil => simp [List.intercalate, List.intersperse] at h
  | cons x L ih =>
    cases L with
    | nil =>
      rw [json.intercalate_single] at h
      exact Or.inr ⟨x, List.mem_cons_self _ _, h⟩
    | cons y zs =>
      rw [json.intercalate_cons_cons] at h
      rcases List.mem_append.1 h with h | h
      · exact Or.inr ⟨x, List.mem_cons_self _ _, h⟩
      · rcases List.mem_append.1 h with h | h
        · exact Or.inl h
        · rcases ih h with h | ⟨l, hl, hc⟩
          · exact Or.inl h
          · exact Or.inr ⟨l, List.mem_cons_of_mem _ hl, hc⟩

theorem isQueryChar_text (c : Char) (h : isQueryChar c = true) : isQueryTextChar c = true := by
  have hne : c ≠ '#' := by
    rintro rfl
    revert h
    decide
  have hctl : ¬ (c.toNat < 32 ∨ c.toNat = 127) := by
    unfold isQueryChar isAlpha isDigit at h
    simp only [Bool.or_eq_true, Bool.and_eq_true, decide_eq_true_eq] at h
    rcases h with (h | h) | h
    · omega
    · omega
    · intro hx
      have hm : c ∈ "-_.~+%".data := by simpa using h
      simp only [List.mem_cons] at hm
      rcases hm with rfl | rfl | rfl | rfl | rfl | rfl | hm
      · revert hx; decide
      · revert hx; decide
      · revert hx; decide
      · revert hx; decide
      · revert hx; decide
      · revert hx; decide
      · cases hm
  unfold isQueryTextChar
  simp only [Bool.and_eq_true, Bool.not_eq_true', Bool.or_eq_false_iff, decide_eq_false_iff_not,
    beq_eq_false_iff_ne, bne_iff_ne, ne_eq]
  exact ⟨⟨fun hx => hctl (Or.inl hx), fun hx => hctl (Or.inr hx)⟩, hne⟩

/-- What `Encode` writes holds neither a control character nor `#`. -/
theorem Encode_text (m : Values)
    (hb : ∀ e ∈ m, isBytes e.1.data ∧ ∀ v ∈ e.2, isBytes v.data) :
    (Values.Encode m).data.all isQueryTextChar = true := by
  rw [List.all_eq_true]
  intro c hc
  rcases mem_intercalate _ _ c hc with h | ⟨l, hl, hcl⟩
  · rcases List.mem_singleton.1 h with rfl
    decide
  · simp only [List.mem_flatten, List.mem_map] at hl
    obtain ⟨ps, ⟨e, he, rfl⟩, hl⟩ := hl
    simp only [encodeEntry, List.mem_map] at hl
    obtain ⟨v, hv, rfl⟩ := hl
    have hem : e ∈ m := (sorted_perm m).mem_iff.1 he
    rcases List.mem_append.1 hcl with h | h
    · exact isQueryChar_text c (escape_query_chars _ (hb e hem).1 c h)
    · rcases List.mem_cons.1 h with rfl | h
      · decide
      · exact isQueryChar_text c (escape_query_chars _ ((hb e hem).2 v hv) c h)

end url

/-- What `addOptions` returns for a path of plain characters with a query:
a text that `url.Parse` reads as a URL with the same path, whose query
text is the encoding of the values of the path with those of the
pagination put in. -/
theorem addOptions_text (p : Pagination) (path : String) (qs : Option String)
    (hp : path.data.all url.isPathChar = true) (hnet : path.data.take 2 ≠ ['/', '/'])
    (hquery : ∀ q, qs = some q → q.data.all url.isQueryTextChar = true ∧ url.isBytes q.data) :
    ∃ text u2, addOptions (url.refText path qs) (some p) = (text, none) ∧
      url.Parse text = .ok u2 ∧ u2.Path = path ∧
      u2.RawQuery =
        (setAll (url.URL.Query (url.queryURL "" "" path qs)) (query.Values p)).Encode := by
  have hP := url.Parse_pathQuery path qs hp hnet (fun q hq => (hquery q hq).1)
  have hb : url.isBytes (url.queryURL "" "" path qs).RawQuery.data := by
    cases qs with
    | none => intro c hc; cases hc
    | some q => exact (hquery q rfl).2
  obtain ⟨hw, _⟩ := setAll_Values (url.URL.Query (url.queryURL "" "" path qs)) p
    (url.WellFormed_Query _ hb)
  have henc := url.Encode_text _ hw.bytes
  have hadd : addOptions (url.refText path qs) (some p) =
      (url.URL.String { url.queryURL "" "" path qs with RawQuery :=
        (setAll (url.URL.Query (url.queryURL "" "" path qs)) (query.Values p)).Encode },
       none) := by
    simp only [addOptions, hP]
  generalize (setAll (url.URL.Query (url.queryURL "" "" path qs)) (query.Values p)).Encode = enc
    at henc hadd ⊢
  have hstr : url.URL.String { url.queryURL "" "" path qs with RawQuery := enc } =
      ⟨path.data ++ (if (qs == some "") || enc != "" then '?' :: enc.data else [])⟩ :=
    (url.String_query ⟨"", "", none, "", path, "", false, false, "", "", ""⟩
      (qs == some "") enc rfl).trans
      (congrArg (fun t : String =>
        (⟨t.data ++ (if (qs == some "") || enc != "" then '?' :: enc.data else [])⟩ : String))
        (url.String_pathChars path hp))
  rw [hstr] at hadd
  by_cases hc : ((qs == some "") || enc != "") = true
  · simp only [hc, ↓reduceIte] at hadd
    exact ⟨_, _, hadd,
      url.Parse_pathQuery path (some enc) hp hnet (fun q hq => by cases hq; exact henc),
      rfl, rfl⟩
  · simp only [hc, Bool.false_eq_true, ↓reduceIte, List.append_nil] at hadd
    have he : enc = "" := by
      simp only [Bool.or_eq_true, not_or, Bool.not_eq_true, bne_eq_false_iff_eq] at hc
      exact hc.2
    refine ⟨_, _, hadd, url.Parse_pathChars path hp hnet, rfl, ?_⟩
    rw [he]
    rfl

/-- C17 (amended).  For a nil `*Pagination`, `addOptions` returns `s`
unchanged with no error; for a path that `url.Parse` rejects and a non-nil
pagination it returns the path and the error of `url.Parse`; for a path `s`
that parses as the URL `u` it returns with no error the text `String()` of
`u` with `RawQuery` replaced, and when the query text of `u` is a byte
string the query of that URL is the query of `s` with the values of the
pagination put in.  For a path `s` made of plain characters (letters,
digits, `- _ . ~ /`, not beginning with two slashes) and, optionally, `?`
and a query that holds no control character and no `#`, the text returned
parses as a URL with the path of `s` whose query is the query of `s` with
`page[number]` set to the single value `p.Page` exactly when `p.Page` is
not zero and `page[size]` set to the single value `p.PerPage` exactly when
`p.PerPage` is not zero, every other key keeping all its values. -/
theorem addOptions_returns (p : Pagination) (path : String) (qs : Option String)
    (hp : path.data.all url.isPathChar = true) (hnet : path.data.take 2 ≠ ['/', '/'])
    (hquery : ∀ q, qs = some q → q.data.all url.isQueryTextChar = true ∧ url.isBytes q.data) :
    (∀ s, addOptions s none = (s, none)) ∧
    (∀ s e, url.Parse s = .error e → addOptions s (some p) = (s, some e)) ∧
    (∀ s u, url.Parse s = .ok u →
      addOptions s (some p) =
        (({ u with RawQuery := (setAll u.Query (query.Values p)).Encode }).String, none) ∧
      (url.isBytes u.RawQuery.data →
        ∀ k, (url.URL.Query
            { u with RawQuery := (setAll u.Query (query.Values p)).Encode }).lookup k =
          if k = "page[size]" ∧ p.PerPage ≠ 0 then some [fmt.decimal p.PerPage]
          else if k = "page[number]" ∧ p.Page ≠ 0 then some [fmt.decimal p.Page]
          else u.Query.lookup k)) ∧
    ∃ u text u2, url.Parse (url.refText path qs) = .ok u ∧ u.Path = path ∧
      addOptions (url.refText path qs) (some p) = (text, none) ∧
      url.Parse text = .ok u2 ∧ u2.Path = path ∧
      ∀ k, u2.Query.lookup k =
        if k = "page[size]" ∧ p.PerPage ≠ 0 then some [fmt.decimal p.PerPage]
        else if k = "page[number]" ∧ p.Page ≠ 0 then some [fmt.decimal p.Page]
        else u.Query.lookup k := by
  refine ⟨fun s => rfl, fun s e he => by simp only [addOptions, he],
    fun s u hu => ⟨by simp only [addOptions, hu], fun hb k => ?_⟩, ?_⟩
  · obtain ⟨hw, hl⟩ := setAll_Values u.Query p (url.WellFormed_Query u hb)
    rw [url.Query_Encode u _ hw, url.lookup_sorted _ k hw.nodup, hl k]
  · have hP := url.Parse_pathQuery path qs hp hnet (fun q hq => (hquery q hq).1)
    have hb : url.isBytes (url.queryURL "" "" path qs).RawQuery.data := by
      cases qs with
      | none => intro c hc; cases hc
      | some q => exact (hquery q rfl).2
    obtain ⟨hw, hl⟩ := setAll_Values (url.URL.Query (url.queryURL "" "" path qs)) p
      (url.WellFormed_Query _ hb)
    obtain ⟨text, u2, h1, h2, h3, h4⟩ := addOptions_text p path qs hp hnet hquery
    refine ⟨_, text, u2, hP, rfl, h1, h2, h3, fun k => ?_⟩
    have hq : u2.Query = url.URL.Query { url.queryURL "" "" path qs with RawQuery :=
        (setAll (url.URL.Query (url.queryURL "" "" path qs)) (query.Values p)).Encode } := by
      simp only [url.URL.Query, h4]
    rw [hq, url.Query_Encode _ _ hw, url.lookup_sorted _ k hw.nodup, hl k]

/-- C17, witness: `/action?scope=all` with `Page` 1, as in
`TestAddOptions`: the text returned is `/action?page%5Bnumber%5D=1&scope=all`,
which parses to the path `/action` and the query `page[number]=[1]`,
`scope=[all]`. -/
theorem addOptions_returns_witness :
    ∃ u text u2, url.Parse "/action?scope=all" = .ok u ∧ u.Path = "/action" ∧
      addOptions "/action?scope=all" (some ⟨1, 0⟩) = (text, none) ∧
      text = "/action?page%5Bnumber%5D=1&scope=all" ∧
      url.Parse text = .ok u2 ∧ u2.Path = "/action" ∧
      (∀ k, u2.Query.lookup k =
        if k = "page[size]" ∧ (0 : Int) ≠ 0 then some [fmt.decimal 0]
        else if k = "page[number]" ∧ (1 : Int) ≠ 0 then some [fmt.decimal 1]
        else u.Query.lookup k) ∧
      u.Query = [("scope", ["all"])] ∧
      u2.Query = [("page[number]", ["1"]), ("scope", ["all"])] := by
  obtain ⟨u, text, u2, h1, h2, h3, h4, h5, h6⟩ :=
    (addOptions_returns ⟨1, 0⟩ "/action" (some "scope=all") (by decide) (by decide)
      (by
        intro q hq
        cases hq
        exact ⟨by decide, by unfold url.isBytes; decide⟩)).2.2.2
  have e1 : url.Parse "/action?scope=all" =
      .ok ⟨"", "", none, "", "/action", "", false, false, "scope=all", "", ""⟩ := rfl
  have e2 : addOptions "/action?scope=all" (some ⟨1, 0⟩) =
      ("/action?page%5Bnumber%5D=1&scope=all", none) := rfl
  have e3 : url.Parse "/action?page%5Bnumber%5D=1&scope=all" =
      .ok ⟨"", "", none, "", "/action", "", false, false, "page%5Bnumber%5D=1&scope=all",
        "", ""⟩ := rfl
  have hu : u = ⟨"", "", none, "", "/action", "", false, false, "scope=all", "", ""⟩ := by
    have := h1.symm.trans e1
    cases this
    rfl
  have ht : text = "/action?page%5Bnumber%5D=1&scope=all" := by
    have := h3.symm.trans e2
    cases this
    rfl
  subst ht
  have hu2 : u2 = ⟨"", "", none, "", "/action", "", false, false,
      "page%5Bnumber%5D=1&scope=all", "", ""⟩ := by
    have := h4.symm.trans e3
    cases this
    rfl
  subst hu hu2
  exact ⟨_, _, _, e1, rfl, e2, rfl, e3, rfl, h6, rfl, rfl⟩

end AccountAPI
